import Mathlib

/-!
Verification of jbaranski/claude-config-merge.

Part 1: the deep-merge engine (internal/merge/merge.go), embedded as pure
functions over a JSON value tree.  Go's `map[string]any` is modelled as an
association list with unique keys (the `WFobj` predicate); Go map iteration
order is unspecified and all result lists are sorted before being returned,
so the list order chosen here is one admissible execution.
-/

namespace mergespec


/-- A JSON value: null, boolean, number, string, array, or object.
Objects are association lists from string keys to values (Go `map[string]any`
holds parsed JSON; numbers are modelled as integers since no claim depends on
numeric representation). -/
inductive JValue where
  | null : JValue
  | bool (b : Bool) : JValue
  | num (n : Int) : JValue
  | str (s : String) : JValue
  | arr (xs : List JValue) : JValue
  | obj (fs : List (String × JValue)) : JValue
deriving Repr

/-- An object's field list, as in Go a `map[string]any`. -/
abbrev Obj := List (String × JValue)

/-- Structural (syntactic) equality of JSON values, used to state and decide
concrete facts about values.  Distinct from `deepEqual` below, which mirrors
Go's `reflect.DeepEqual` on maps. -/
def beqJ : JValue → JValue → Bool
  | .null, .null => true
  | .bool a, .bool b => a == b
  | .num a, .num b => a == b
  | .str a, .str b => a == b
  | .arr xs, .arr ys => beqArr xs ys
  | .obj fs, .obj gs => beqObj fs gs
  | _, _ => false
where
  beqArr : List JValue → List JValue → Bool
    | [], [] => true
    | x :: xs, y :: ys => beqJ x y && beqArr xs ys
    | _, _ => false
  beqObj : List (String × JValue) → List (String × JValue) → Bool
    | [], [] => true
    | (k, v) :: fs, (k₂, w) :: gs => k == k₂ && beqJ v w && beqObj fs gs
    | _, _ => false

/-- Go map lookup `m[k]` (first binding wins; well-formed objects have
no duplicate keys). -/
def lookup : Obj → String → Option JValue
  | [], _ => none
  | (k, v) :: rest, key => if k == key then some v else lookup rest key

/-- Go map assignment `m[k] = v`: replace the binding in place if the key is
present, otherwise add a new binding. -/
def setKey : Obj → String → JValue → Obj
  | [], key, v => [(key, v)]
  | (k, w) :: rest, key, v =>
    if k == key then (key, v) :: rest else (k, w) :: setKey rest key v

/-- qualifiedKey from merge.go: dot-join a prefix and a key. -/
def qualifiedKey (pfx key : String) : String :=
  if pfx == "" then key else pfx ++ "." ++ key

/-- Go's `reflect.DeepEqual` restricted to the JSON value model: scalars by
value, slices pointwise in order, maps by equal size together with every key
of the first map bound in the second to a deeply-equal value. -/
def deepEqual : JValue → JValue → Bool
  | .null, .null => true
  | .bool a, .bool b => a == b
  | .num a, .num b => a == b
  | .str a, .str b => a == b
  | .arr xs, .arr ys => deepEqualArr xs ys
  | .obj fs, .obj gs => fs.length == gs.length && deepEqualSub fs gs
  | _, _ => false
where
  deepEqualArr : List JValue → List JValue → Bool
    | [], [] => true
    | x :: xs, y :: ys => deepEqual x y && deepEqualArr xs ys
    | _, _ => false
  deepEqualSub : List (String × JValue) → Obj → Bool
    | [], _ => true
    | (k, v) :: fs, gs =>
      (match lookup gs k with
       | some w => deepEqual v w
       | none => false) && deepEqualSub fs gs

/-- Conflict from merge.go: a key present in both master and local where
values differ. -/
structure Conflict where
  Key : String
  MasterValue : JValue
  LocalValue : JValue
deriving Repr

/-- The classification entries accumulated by mergeInto, in production order
(Go appends to the lists behind a pointer to Result; here each call returns
the entries it produced). -/
structure MergeAcc where
  conflicts : List Conflict
  forced : List String
  added : List String
  matching : List String
  localOnly : List String
deriving Repr

def emptyAcc : MergeAcc := ⟨[], [], [], [], []⟩

def appendAcc (a b : MergeAcc) : MergeAcc :=
  ⟨a.conflicts ++ b.conflicts, a.forced ++ b.forced, a.added ++ b.added,
   a.matching ++ b.matching, a.localOnly ++ b.localOnly⟩

/-- The trailing loop of mergeInto: keys of the (final) dst at this level that
are not in master are recorded as local-only, provided localSrc is non-nil and
holds the key (i.e. the key existed in the original local at this path). -/
def localOnlyKeys (dst src : Obj) (localSrc : Option Obj) (pfx : String) :
    List String :=
  dst.filterMap fun kv =>
    if (lookup src kv.1).isSome then none
    else
      match localSrc with
      | some ls =>
        if (lookup ls kv.1).isSome then some (qualifiedKey pfx kv.1) else none
      | none => none

/-- The `localSubMap, _ = localSrc[k].(map[string]any)` step of mergeInto:
the sub-object of the original local at this key, or nil when localSrc is nil
or holds no object there. -/
def localSubOf (localSrc : Option Obj) (k : String) : Option Obj :=
  match localSrc with
  | some ls =>
    match lookup ls k with
    | some (.obj m) => some m
    | _ => none
  | none => none

/-- The main loop of mergeInto from merge.go, one source entry at a time.
For a nested object/object pair the full mergeInto (loop plus local-only
pass) is inlined for the sub-level, exactly as the Go recursion does. -/
def mergeEntries : Obj → List (String × JValue) → Option Obj → String → Bool →
    Obj × MergeAcc
  | dst, [], _, _, _ => (dst, emptyAcc)
  | dst, (k, srcVal) :: rest, localSrc, pfx, force =>
    let key := qualifiedKey pfx k
    match lookup dst k with
    | none =>
      let out := mergeEntries (setKey dst k srcVal) rest localSrc pfx force
      (out.1, { out.2 with added := key :: out.2.added })
    | some dstVal =>
      match srcVal, dstVal with
      | .obj srcMap, .obj dstMap =>
        let localSub := localSubOf localSrc k
        let sub := mergeEntries dstMap srcMap localSub key force
        let subAcc :=
          { sub.2 with
            localOnly := sub.2.localOnly ++ localOnlyKeys sub.1 srcMap localSub key }
        let out := mergeEntries (setKey dst k (.obj sub.1)) rest localSrc pfx force
        (out.1, appendAcc subAcc out.2)
      | _, _ =>
        if deepEqual srcVal dstVal then
          let out := mergeEntries dst rest localSrc pfx force
          (out.1, { out.2 with matching := key :: out.2.matching })
        else if force then
          let out := mergeEntries (setKey dst k srcVal) rest localSrc pfx force
          (out.1, { out.2 with forced := key :: out.2.forced })
        else
          let out := mergeEntries dst rest localSrc pfx force
          (out.1, { out.2 with conflicts := ⟨key, srcVal, dstVal⟩ :: out.2.conflicts })

/-- Insertion of a string into a sorted list (ascending). -/
def insertSorted (x : String) : List String → List String
  | [] => [x]
  | y :: ys => if x ≤ y then x :: y :: ys else y :: insertSorted x ys

/-- sort.Strings. -/
def sortStrings (l : List String) : List String := l.foldr insertSorted []

def insertConflict (c : Conflict) : List Conflict → List Conflict
  | [] => [c]
  | d :: ds => if c.Key ≤ d.Key then c :: d :: ds else d :: insertConflict c ds

/-- sort.Slice on conflicts, ordering by key. -/
def sortConflicts (l : List Conflict) : List Conflict := l.foldr insertConflict []

/-- Result from merge.go. -/
structure Result where
  Merged : Obj
  Conflicts : List Conflict
  Forced : List String
  Added : List String
  Matching : List String
  LocalOnly : List String
deriving Repr

/-- Merge from merge.go: the merged map starts as a copy of every top-level
local entry (value-identical here; the Go copy is one level deep), then
mergeInto(merged, master, local, "", force) runs and the lists are sorted. -/
def Merge (master locl : Obj) (force : Bool) : Result :=
  let out := mergeEntries locl master (some locl) "" force
  let acc :=
    { out.2 with
      localOnly := out.2.localOnly ++ localOnlyKeys out.1 master (some locl) "" }
  { Merged := out.1
    Conflicts := sortConflicts acc.conflicts
    Forced := sortStrings acc.forced
    Added := sortStrings acc.added
    Matching := sortStrings acc.matching
    LocalOnly := sortStrings acc.localOnly }

mutual

/-- Well-formedness of a JSON value: every object in the tree has pairwise
distinct keys (guaranteed for values parsed from JSON, since Go maps cannot
hold duplicate keys). -/
def WFv : JValue → Bool
  | .obj fs => WFobj fs
  | .arr xs => WFarr xs
  | _ => true

/-- Well-formedness of an object's field list. -/
def WFobj : Obj → Bool
  | [] => true
  | (k, v) :: rest => (lookup rest k).isNone && WFv v && WFobj rest

/-- Well-formedness of an array's elements. -/
def WFarr : List JValue → Bool
  | [] => true
  | x :: xs => WFv x && WFarr xs

end

/-- Helper for stating the per-key behaviour: the pair of field lists when
both values are objects. -/
def bothObj : JValue → JValue → Option (Obj × Obj)
  | .obj sm, .obj dm => some (sm, dm)
  | _, _ => none

/-- All qualified keys occurring in an object tree, each nested key once,
prefixed by pfx (the reading of the specification phrase "every qualified key
reachable from master"). -/
def qualifiedKeysOf (pfx : String) : List (String × JValue) → List String
  | [] => []
  | (k, v) :: rest =>
    (qualifiedKey pfx k ::
      (match v with
       | .obj sub => qualifiedKeysOf (qualifiedKey pfx k) sub
       | _ => [])) ++ qualifiedKeysOf pfx rest

/-- The number of leaves of an object tree, counting every nested
non-object value once (the specification phrase "the number of master keys
counting nested leaves each once"). -/
def leafCount : List (String × JValue) → Nat
  | [] => 0
  | (_, v) :: rest =>
    (match v with
     | .obj sub => leafCount sub
     | _ => 1) + leafCount rest

/-- The qualified keys the merge loop actually classifies, derived from the
two input trees: a master key missing from the local side or compared
against a non-object is classified where it stands (one entry, without
descending), while an object/object pair contributes the visited keys of
its sub-level. -/
def visitedKeys : Obj → List (String × JValue) → String → List String
  | _, [], _ => []
  | dst, (k, v) :: rest, pfx =>
    (match lookup dst k with
     | none => [qualifiedKey pfx k]
     | some dv =>
       match v, dv with
       | .obj sm, .obj dm => visitedKeys dm sm (qualifiedKey pfx k)
       | _, _ => [qualifiedKey pfx k]) ++ visitedKeys dst rest pfx

/-- The multiset of qualified keys classified into the four master-key lists
of an accumulator (conflicts contribute their keys). -/
def accKeySum (a : MergeAcc) : Multiset String :=
  (a.added : Multiset String) + (a.matching : Multiset String)
    + (a.forced : Multiset String) + (a.conflicts.map Conflict.Key : Multiset String)

/-- Concrete master tree with one nested object holding two leaves, used to
exercise the subtree-adopted-whole path of the merge. -/
def exSubtreeMaster : Obj :=
  [("a", JValue.obj [("x", JValue.num 1), ("y", JValue.num 2)])]

/-- The keys of an object's field list, in binding order. -/
def keysList (l : Obj) : List String := l.map Prod.fst

/-- Value of a tree at a path of keys (the structural counterpart of a dotted
qualified key, immune to dots inside key names). -/
def getPathV : JValue → List String → Option JValue
  | v, [] => some v
  | .obj fs, k :: rest =>
    (match lookup fs k with
     | some v => getPathV v rest
     | none => none)
  | _, _ :: _ => none

/-- The key paths at which the merge records a conflict (or a forced
overwrite, in force mode): present on both sides, not both objects, not
deeply equal; derived from the same recursion structure as the merge loop. -/
def conflictPaths : Obj → List (String × JValue) → List (List String)
  | _, [] => []
  | dst, (k, v) :: rest =>
    (match lookup dst k with
     | none => []
     | some dv =>
       match v, dv with
       | .obj sm, .obj dm => (conflictPaths dm sm).map (fun p => k :: p)
       | _, _ => if deepEqual v dv then [] else [[k]]) ++ conflictPaths dst rest

mutual

/-- The qualified keys the merge records as LocalOnly, derived from the two
input trees: at every level the recursion visits (local object lo against
master entries me), the keys of lo absent from me, plus the local-only keys
of every object/object sub-level.  Keys below a local-only subtree root are
not listed. -/
def visitedLocalOnly (lo : Obj) (me : List (String × JValue)) (pfx : String) :
    List String :=
  ((keysList lo).filterMap fun k =>
    if (lookup me k).isSome then none else some (qualifiedKey pfx k)) ++
  visitedLocalOnlySub lo me pfx

/-- The sub-level contributions of visitedLocalOnly, one master entry at a
time. -/
def visitedLocalOnlySub : Obj → List (String × JValue) → String → List String
  | _, [], _ => []
  | lo, (k, v) :: rest, pfx =>
    (match v, lookup lo k with
     | .obj sm, some (.obj dm) => visitedLocalOnly dm sm (qualifiedKey pfx k)
     | _, _ => []) ++ visitedLocalOnlySub lo rest pfx

end


end mergespec

/-!
Part 2: a reference-semantics model of Merge (merge.go), tracking Go's map
references in an explicit heap of map cells.  `Merge` copies only local's
top-level entries into a freshly made map, so nested map values are shared
by reference between the merged tree and the local argument; this model
makes the resulting in-place mutation observable.  Classification lists are
the business of the pure model above; this model covers the heap effects.
Recursion is bounded by a fuel parameter: parsed JSON trees are finite and
every run below is given ample fuel, while Go itself would not terminate on
a cyclic heap.
-/

namespace heapmodel


/-- A Go value stored in a map entry: scalars inline, maps by reference
(Go maps are reference types). -/
inductive GVal where
  | gnull : GVal
  | gbool (b : Bool) : GVal
  | gnum (n : Int) : GVal
  | gstr (s : String) : GVal
  | garr (xs : List GVal) : GVal
  | gmap (r : Nat) : GVal
deriving Repr

/-- The contents of one map cell. -/
abbrev MapCell := List (String × GVal)

/-- The heap: map cell contents by reference. -/
abbrev Heap := List (Nat × MapCell)

def hget : Heap → Nat → Option MapCell
  | [], _ => none
  | (r, c) :: rest, q => if r == q then some c else hget rest q

def hset : Heap → Nat → MapCell → Heap
  | [], q, c => [(q, c)]
  | (r, c₀) :: rest, q, c =>
    if r == q then (q, c) :: rest else (r, c₀) :: hset rest q c

def glookup : MapCell → String → Option GVal
  | [], _ => none
  | (k, v) :: rest, q => if k == q then some v else glookup rest q

def gset : MapCell → String → GVal → MapCell
  | [], q, v => [(q, v)]
  | (k, w) :: rest, q, v =>
    if k == q then (q, v) :: rest else (k, w) :: gset rest q v

/-- A reference not used by any cell of the heap. -/
def freshRef (h : Heap) : Nat :=
  (h.map Prod.fst).foldr (fun r acc => max (r + 1) acc) 0

/-- reflect.DeepEqual over heap values, dereferencing map cells. -/
def deepEqualH : Nat → Heap → GVal → GVal → Bool
  | _, _, .gnull, .gnull => true
  | _, _, .gbool a, .gbool b => a == b
  | _, _, .gnum a, .gnum b => a == b
  | _, _, .gstr a, .gstr b => a == b
  | fuel + 1, h, .garr xs, .garr ys =>
    xs.length == ys.length &&
      (xs.zip ys).all fun xy => deepEqualH fuel h xy.1 xy.2
  | fuel + 1, h, .gmap r₁, .gmap r₂ =>
    let c₁ := (hget h r₁).getD []
    let c₂ := (hget h r₂).getD []
    c₁.length == c₂.length && c₁.all fun kv =>
      match glookup c₂ kv.1 with
      | some w => deepEqualH fuel h kv.2 w
      | none => false
  | _, _, _, _ => false

mutual

/-- mergeInto from merge.go over the heap: iterate the source cell's
entries, then (the local-only pass only reads, so it does not appear here). -/
def mergeIntoH (fuel : Nat) (h : Heap) (dst src : Nat) (localSrc : Option Nat)
    (force : Bool) : Heap :=
  match fuel with
  | 0 => h
  | fuel + 1 =>
    mergeEntriesH fuel h dst ((hget h src).getD []) localSrc force
  termination_by (fuel, 0)

/-- The body of mergeInto's loop, one source entry at a time. -/
def mergeEntriesH (fuel : Nat) (h : Heap) (dst : Nat)
    (entries : List (String × GVal)) (localSrc : Option Nat) (force : Bool) :
    Heap :=
  match entries with
  | [] => h
  | (k, srcVal) :: rest =>
    let dstCell := (hget h dst).getD []
    match glookup dstCell k with
    | none =>
      let h₁ := hset h dst (gset dstCell k srcVal)
      mergeEntriesH fuel h₁ dst rest localSrc force
    | some dstVal =>
      match srcVal, dstVal with
      | .gmap srcRef, .gmap dstRef =>
        let localSub : Option Nat :=
          match localSrc with
          | some ls =>
            match glookup ((hget h ls).getD []) k with
            | some (.gmap m) => some m
            | _ => none
          | none => none
        let h₁ := mergeIntoH fuel h dstRef srcRef localSub force
        let h₂ := hset h₁ dst (gset ((hget h₁ dst).getD []) k (.gmap dstRef))
        mergeEntriesH fuel h₂ dst rest localSrc force
      | _, _ =>
        if deepEqualH fuel h srcVal dstVal then
          mergeEntriesH fuel h dst rest localSrc force
        else if force then
          let h₁ := hset h dst (gset dstCell k srcVal)
          mergeEntriesH fuel h₁ dst rest localSrc force
        else
          mergeEntriesH fuel h dst rest localSrc force
  termination_by (fuel, entries.length + 1)

end

/-- Merge from merge.go over the heap: allocate the result map, copy local's
top-level entries into it (a one-level copy: nested map references are
shared), then run mergeInto. Returns the final heap and the result root. -/
def MergeH (fuel : Nat) (h : Heap) (master locl : Nat) (force : Bool) :
    Heap × Nat :=
  let fresh := freshRef h
  let h₁ := hset h fresh ((hget h locl).getD [])
  (mergeIntoH fuel h₁ fresh master (some locl) force, fresh)

mutual

/-- Read the tree a heap value denotes back into the pure JSON value model. -/
def readTree : Nat → Heap → GVal → Option mergespec.JValue
  | _, _, .gnull => some .null
  | _, _, .gbool b => some (.bool b)
  | _, _, .gnum n => some (.num n)
  | _, _, .gstr s => some (.str s)
  | 0, _, .garr _ => none
  | fuel + 1, h, .garr xs =>
    match readArr fuel h xs with
    | some js => some (.arr js)
    | none => none
  | 0, _, .gmap _ => none
  | fuel + 1, h, .gmap r =>
    match hget h r with
    | some cell =>
      match readFields fuel h cell with
      | some fs => some (.obj fs)
      | none => none
    | none => none
  termination_by fuel _ _ => (fuel, 0)

def readArr : Nat → Heap → List GVal → Option (List mergespec.JValue)
  | _, _, [] => some []
  | fuel, h, x :: xs =>
    match readTree fuel h x, readArr fuel h xs with
    | some j, some js => some (j :: js)
    | _, _ => none
  termination_by fuel _ xs => (fuel, xs.length + 1)

def readFields : Nat → Heap → List (String × GVal) →
    Option (List (String × mergespec.JValue))
  | _, _, [] => some []
  | fuel, h, (k, v) :: rest =>
    match readTree fuel h v, readFields fuel h rest with
    | some j, some js => some ((k, j) :: js)
    | _, _ => none
  termination_by fuel _ fs => (fuel, fs.length + 1)

end

/-- The example heap: master (cell 0) holds a ↦ reference to cell 1 holding
x ↦ 1; local (cell 2) holds a ↦ reference to the empty cell 3.  The two
trees share no cell. -/
def exHeap : Heap :=
  [(0, [("a", GVal.gmap 1)]), (1, [("x", GVal.gnum 1)]),
   (2, [("a", GVal.gmap 3)]), (3, [])]


end heapmodel

/-!
Part 3: the directory sync engine (internal/dirsync/dirsync.go), modelled on
file-system subtrees.  A node is a regular file (byte content and permission
mode), a directory (entries by name), or a special entry (symlink, socket,
…: os.Lstat sees it exist, the copy switch has no case for it).  Directory
entries are stored without duplicate names (`WFfs`); os.ReadDir returns
entries sorted by name, and the model iterates entries in their list order —
the classification of each entry is order-independent and the returned name
lists are sorted.  Error messages stand in for the wrapped Go errors; on an
error the walk stops and the partially updated destination remains, exactly
as in the Go code (partial application is accepted, nothing is rolled
back). -/

namespace dirsync


/-- A file-system node. -/
inductive FSNode where
  | file (content : String) (mode : Nat) : FSNode
  | dir (entries : List (String × FSNode)) : FSNode
  | special : FSNode
deriving Repr

/-- Directory-entry lookup by name. -/
def alookup : List (String × FSNode) → String → Option FSNode
  | [], _ => none
  | (n, v) :: rest, q => if n == q then some v else alookup rest q

/-- Create or replace the entry of a name. -/
def aset : List (String × FSNode) → String → FSNode → List (String × FSNode)
  | [], q, v => [(q, v)]
  | (n, w) :: rest, q, v =>
    if n == q then (q, v) :: rest else (n, w) :: aset rest q v

mutual

/-- Well-formedness: no directory holds two entries of the same name. -/
def WFfs : FSNode → Bool
  | .dir es => WFentries es
  | _ => true

/-- Well-formedness of a directory's entry list. -/
def WFentries : List (String × FSNode) → Bool
  | [] => true
  | (n, v) :: rest => (alookup rest n).isNone && WFfs v && WFentries rest

end

/-- Result from dirsync.go. -/
structure Result where
  Copied : List String
  Skipped : List String
  Forced : List String
deriving Repr

def emptyRes : Result := ⟨[], [], []⟩

/-- copyFile from dirsync.go, at the level of one directory's entries: the
content and mode reach the destination name through a same-directory temp
file renamed over it (the write discipline itself is modelled in Part 4).
os.Rename over an existing directory fails, and the deferred cleanup
removes the temp file, leaving the destination unchanged; otherwise the
rename atomically replaces whatever node held the name (a regular file, a
special entry, or nothing). -/
def copyFileM (dstEs : List (String × FSNode)) (name content : String)
    (mode : Nat) : List (String × FSNode) × Option String :=
  match alookup dstEs name with
  | some (.dir _) => (dstEs, some "renaming temp file over a directory")
  | _ => (aset dstEs name (.file content mode), none)

/-- copyDir's loop from dirsync.go: regular files are copied with copyFile,
directories are created if needed (os.MkdirAll fails over an existing
non-directory) and recursed into, special entries are silently skipped.  A
failure stops the walk, keeping what was already copied. -/
def copyEntriesD : List (String × FSNode) → List (String × FSNode) →
    List (String × FSNode) × Option String
  | [], dstEs => (dstEs, none)
  | (n, node) :: rest, dstEs =>
    match node with
    | .file c m =>
      match copyFileM dstEs n c m with
      | (dstEs₁, none) => copyEntriesD rest dstEs₁
      | (dstEs₁, some e) => (dstEs₁, some e)
    | .dir es =>
      match alookup dstEs n with
      | some (.file _ _) => (dstEs, some "creating directory over a file")
      | some .special => (dstEs, some "creating directory over a special entry")
      | cur =>
        let init :=
          match cur with
          | some (.dir es₀) => es₀
          | _ => []
        match copyEntriesD es init with
        | (sub, none) => copyEntriesD rest (aset dstEs n (.dir sub))
        | (sub, some e) => (aset dstEs n (.dir sub), some e)
    | .special => copyEntriesD rest dstEs

/-- The entry loop of Sync from dirsync.go: os.Lstat decides existence (a
broken or self-referential symlink counts as existing), an existing entry is
skipped without force, regular files and directories are copied or
overlaid, anything else is ignored; each copied name is recorded as Copied
or Forced by prior existence. -/
def syncEntries : List (String × FSNode) → List (String × FSNode) → Bool →
    List (String × FSNode) × Result × Option String
  | [], dstEs, _ => (dstEs, emptyRes, none)
  | (n, node) :: rest, dstEs, force =>
    let exists_ := (alookup dstEs n).isSome
    if exists_ && !force then
      match syncEntries rest dstEs force with
      | (dstEs₁, res, err) =>
        (dstEs₁, { res with Skipped := n :: res.Skipped }, err)
    else
      match node with
      | .file c m =>
        match copyFileM dstEs n c m with
        | (dstEs₁, some e) => (dstEs₁, emptyRes, some e)
        | (dstEs₁, none) =>
          match syncEntries rest dstEs₁ force with
          | (dstEs₂, res, err) =>
            if exists_ then (dstEs₂, { res with Forced := n :: res.Forced }, err)
            else (dstEs₂, { res with Copied := n :: res.Copied }, err)
      | .dir es =>
        match alookup dstEs n with
        | some (.file _ _) => (dstEs, emptyRes, some "creating directory over a file")
        | some .special => (dstEs, emptyRes, some "creating directory over a special entry")
        | cur =>
          let init :=
            match cur with
            | some (.dir es₀) => es₀
            | _ => []
          match copyEntriesD es init with
          | (sub, some e) => (aset dstEs n (.dir sub), emptyRes, some e)
          | (sub, none) =>
            match syncEntries rest (aset dstEs n (.dir sub)) force with
            | (dstEs₂, res, err) =>
              if exists_ then (dstEs₂, { res with Forced := n :: res.Forced }, err)
              else (dstEs₂, { res with Copied := n :: res.Copied }, err)
      | .special => syncEntries rest dstEs force

/-- Sync from dirsync.go on the nodes at the source and destination paths.
A missing source returns an empty result with no error, before anything
touches the destination.  os.ReadDir on a non-directory source fails; the
model treats a special node at either root as an error (a symlinked
destination is a caller-level concern per the specification, and its
resolution falls outside a tree model).  The destination directory is
created if absent, and the three name lists are sorted on the success
path (Go's early error returns skip the sort). -/
def Sync (srcN : Option FSNode) (dstN : Option FSNode) (force : Bool) :
    Option FSNode × Result × Option String :=
  match srcN with
  | none => (dstN, emptyRes, none)
  | some (.file _ _) => (dstN, emptyRes, some "reading source directory: not a directory")
  | some .special => (dstN, emptyRes, some "reading source directory: special entry")
  | some (.dir entries) =>
    match dstN with
    | some (.file _ _) =>
      (dstN, emptyRes, some "creating destination directory: not a directory")
    | some .special =>
      (dstN, emptyRes, some "creating destination directory: special entry")
    | cur =>
      let init :=
        match cur with
        | some (.dir es) => es
        | _ => []
      match syncEntries entries init force with
      | (es, res, some e) => (some (.dir es), res, some e)
      | (es, res, none) =>
        (some (.dir es),
          { Copied := mergespec.sortStrings res.Copied,
            Skipped := mergespec.sortStrings res.Skipped,
            Forced := mergespec.sortStrings res.Forced }, none)

/-- Node of a tree at a relative path. -/
def getFs : Option FSNode → List String → Option FSNode
  | n, [] => n
  | some (.dir es), k :: rest => getFs (alookup es k) rest
  | _, _ :: _ => none

/-- The source names an error-free run records as Copied: regular files and
directories whose name was absent from the destination. -/
def copiedOf (srcEs dstEs : List (String × FSNode)) : List String :=
  srcEs.filterMap fun e =>
    match e.2 with
    | .special => none
    | _ => if (alookup dstEs e.1).isSome then none else some e.1

/-- The source names an error-free force run records as Forced: regular
files and directories whose name already existed at the destination. -/
def forcedOf (srcEs dstEs : List (String × FSNode)) : List String :=
  srcEs.filterMap fun e =>
    match e.2 with
    | .special => none
    | _ => if (alookup dstEs e.1).isSome then some e.1 else none

/-- The source names a non-force run records as Skipped: every source entry
whose name already existed at the destination. -/
def skippedOf (srcEs dstEs : List (String × FSNode)) : List String :=
  srcEs.filterMap fun e =>
    if (alookup dstEs e.1).isSome then some e.1 else none

/-- Well-formedness of an optional root node. -/
def OptWF : Option FSNode → Bool
  | none => true
  | some s => WFfs s


end dirsync

/-!
Part 4: the crash-safe write discipline of copyFile (internal/dirsync/
dirsync.go).  copyFile opens the source, creates a temp file with
os.CreateTemp in the destination's own directory (mode 0600, pattern
".copy-*"), sets the source's permission mode on it, streams the content
into it with io.Copy (a sequence of chunk writes), closes it, and renames
it over the destination path; a deferred os.Remove deletes the temp file
unless the rename succeeded.  The model is the state of that one shared
directory — an association of names to (content, mode) pairs — acted on by
the sequence of file operations copyFile performs.  Closing the file does
not change directory state and has no operation.  A crash or failure after
any proper prefix of the sequence (optionally followed by the deferred
cleanup) is observable as the directory state after that prefix. -/

namespace atomicwrite


/-- One directory's state: file name, content and permission mode. -/
abbrev DirSt := List (String × (String × Nat))

def flookup : DirSt → String → Option (String × Nat)
  | [], _ => none
  | (n, f) :: rest, q => if n == q then some f else flookup rest q

def fset : DirSt → String → (String × Nat) → DirSt
  | [], q, f => [(q, f)]
  | (n, g) :: rest, q, f =>
    if n == q then (q, f) :: rest else (n, g) :: fset rest q f

def fremove : DirSt → String → DirSt
  | [], _ => []
  | (n, g) :: rest, q => if n == q then rest else (n, g) :: fremove rest q

/-- The directory-visible file operations copyFile performs. -/
inductive FileOp where
  | createTemp (tmp : String) (m : Nat) : FileOp
  | chmodTemp (tmp : String) (m : Nat) : FileOp
  | writeChunk (tmp : String) (s : String) : FileOp
  | rename (tmp dst : String) : FileOp
  | removeTemp (tmp : String) : FileOp
deriving Repr

/-- Effect of one operation on the directory.  os.CreateTemp creates a
fresh empty file; chmod and writes act on the temp entry; os.Rename
atomically moves the temp entry onto the destination name in one step;
os.Remove deletes the temp entry. -/
def applyOp (d : DirSt) : FileOp → DirSt
  | .createTemp t m => fset d t ("", m)
  | .chmodTemp t m =>
    match flookup d t with
    | some (c, _) => fset d t (c, m)
    | none => d
  | .writeChunk t s =>
    match flookup d t with
    | some (c, m) => fset d t (c ++ s, m)
    | none => d
  | .rename t dst =>
    match flookup d t with
    | some f => fset (fremove d t) dst f
    | none => d
  | .removeTemp t => fremove d t

def applyOps (d : DirSt) (ops : List FileOp) : DirSt := ops.foldl applyOp d

/-- Concatenation of the chunks io.Copy writes: the full source content. -/
def catChunks : List String → String
  | [] => ""
  | c :: rest => c ++ catChunks rest

/-- The operation sequence of a successful copyFile run: create the temp
file (os.CreateTemp mode 0600 = 384), set the source's mode on it, write
the content chunk by chunk, and rename it over the destination. -/
def copyFileOps (tmp dst : String) (chunks : List String) (mode : Nat) : List FileOp :=
  FileOp.createTemp tmp 384 :: FileOp.chmodTemp tmp mode ::
    (chunks.map (FileOp.writeChunk tmp) ++ [FileOp.rename tmp dst])

/-- Whether an operation can affect the binding of a name. -/
def touches (q : String) : FileOp → Bool
  | .createTemp t _ => t == q
  | .chmodTemp t _ => t == q
  | .writeChunk t _ => t == q
  | .rename t dst => t == q || dst == q
  | .removeTemp t => t == q


end atomicwrite

/-!
The theorems of the development, in the same grouping as the definitions
above: the pure merge model, the heap model, the directory sync engine,
and the atomic write discipline. -/

namespace mergespec

/-! Basic association-list lemmas. -/

theorem lookup_setKey (l : Obj) (k q : String) (v : JValue) :
    lookup (setKey l k v) q = if k == q then some v else lookup l q := by
  induction l with
  | nil => simp [setKey, lookup]
  | cons kv rest ih =>
    obtain ⟨k₁, w⟩ := kv
    by_cases hk : k₁ = k
    · subst hk
      by_cases hq : k₁ = q <;> simp [setKey, lookup, hq]
    · by_cases hq : k₁ = q
      · subst hq
        have : ¬(k = k₁) := fun h => hk h.symm
        simp [setKey, lookup, hk, ih, this]
      · simp [setKey, lookup, hk, hq, ih]

theorem setKey_same {l : Obj} {k : String} {v : JValue}
    (h : lookup l k = some v) : setKey l k v = l := by
  induction l with
  | nil => simp [lookup] at h
  | cons kv rest ih =>
    obtain ⟨k₁, w⟩ := kv
    by_cases hk : k₁ = k
    · subst hk
      simp [lookup] at h
      simp [setKey, h]
    · simp [lookup, hk] at h
      simp [setKey, hk, ih h]

/-! Well-formedness lemmas. -/

theorem WFobj_cons {k : String} {v : JValue} {rest : Obj} :
    WFobj ((k, v) :: rest) =
      ((lookup rest k).isNone && WFv v && WFobj rest) := by
  simp [WFobj]

theorem lookup_of_mem_WF {l : Obj} (hw : WFobj l = true) {k : String}
    {v : JValue} (h : (k, v) ∈ l) : lookup l k = some v := by
  induction l with
  | nil => simp at h
  | cons kv rest ih =>
    obtain ⟨k₁, w⟩ := kv
    rw [WFobj_cons] at hw
    simp only [Bool.and_eq_true] at hw
    rcases List.mem_cons.mp h with h₁ | h₁
    · cases h₁
      simp [lookup]
    · have hne : k₁ ≠ k := by
        intro he
        subst he
        have hlk : lookup rest k₁ = some v := ih hw.2 h₁
        have hn := hw.1.1
        rw [hlk] at hn
        simp at hn
      simp [lookup, hne, ih hw.2 h₁]

theorem WFv_of_mem_WF {l : Obj} (hw : WFobj l = true) {k : String}
    {v : JValue} (h : (k, v) ∈ l) : WFv v = true := by
  induction l with
  | nil => simp at h
  | cons kv rest ih =>
    obtain ⟨k₁, w⟩ := kv
    rw [WFobj_cons] at hw
    simp only [Bool.and_eq_true] at hw
    rcases List.mem_cons.mp h with h₁ | h₁
    · cases h₁
      exact hw.1.2
    · exact ih hw.2 h₁

theorem WF_setKey {l : Obj} (hw : WFobj l = true) {v : JValue}
    (hv : WFv v = true) (k : String) : WFobj (setKey l k v) = true := by
  induction l with
  | nil => simp [setKey, WFobj, lookup, hv]
  | cons kv rest ih =>
    obtain ⟨k₁, w⟩ := kv
    rw [WFobj_cons] at hw
    simp only [Bool.and_eq_true] at hw
    by_cases hk : k₁ = k
    · subst hk
      simp [setKey, WFobj_cons, hw.1.1, hw.2, hv]
    · have hne : ¬(k = k₁) := fun h => hk h.symm
      have hl : lookup (setKey rest k v) k₁ = lookup rest k₁ := by
        rw [lookup_setKey]
        simp [hne]
      simp [setKey, hk, WFobj_cons, hl, hw.1.1, hw.1.2, ih hw.2]

/-! A strong induction principle for JSON values, descending into array
elements and object field values. -/

theorem JValue.recStrong {P : JValue → Prop} (hnull : P .null)
    (hbool : ∀ b, P (.bool b)) (hnum : ∀ n, P (.num n))
    (hstr : ∀ s, P (.str s)) (harr : ∀ xs, (∀ x ∈ xs, P x) → P (.arr xs))
    (hobj : ∀ fs, (∀ kv ∈ fs, P kv.2) → P (.obj fs)) : ∀ v, P v
  | .null => hnull
  | .bool b => hbool b
  | .num n => hnum n
  | .str s => hstr s
  | .arr xs =>
    harr xs fun x hx =>
      JValue.recStrong hnull hbool hnum hstr harr hobj x
  | .obj fs =>
    hobj fs fun kv hkv =>
      JValue.recStrong hnull hbool hnum hstr harr hobj kv.2
termination_by v => sizeOf v
decreasing_by
  · have := List.sizeOf_lt_of_mem hx
    simp only [JValue.arr.sizeOf_spec]
    omega
  · have h₁ := List.sizeOf_lt_of_mem hkv
    have h₂ : sizeOf kv.2 < sizeOf kv := by
      obtain ⟨a, b⟩ := kv
      simp [Prod.mk.sizeOf_spec]
    simp only [JValue.obj.sizeOf_spec]
    omega

/-! Reflexivity of deepEqual on well-formed values (Go: reflect.DeepEqual of
a JSON-decoded value with itself; no NaN can appear in parsed JSON). -/

theorem WFarr_mem {xs : List JValue} (hw : WFarr xs = true) {x : JValue}
    (hx : x ∈ xs) : WFv x = true := by
  induction xs with
  | nil => simp at hx
  | cons y rest ih =>
    simp [WFarr] at hw
    rcases List.mem_cons.mp hx with h₁ | h₁
    · subst h₁; exact hw.1
    · exact ih hw.2 h₁

theorem deepEqualArr_self {xs : List JValue}
    (h : ∀ x ∈ xs, deepEqual x x = true) :
    deepEqual.deepEqualArr xs xs = true := by
  induction xs with
  | nil => simp [deepEqual.deepEqualArr]
  | cons x rest ih =>
    have hx := h x (by simp)
    have hr := ih fun y hy => h y (by simp [hy])
    simp [deepEqual.deepEqualArr, hx, hr]

theorem deepEqualSub_of {gs : Obj} {sub : List (String × JValue)}
    (h : ∀ kv ∈ sub, lookup gs kv.1 = some kv.2 ∧ deepEqual kv.2 kv.2 = true) :
    deepEqual.deepEqualSub sub gs = true := by
  induction sub with
  | nil => simp [deepEqual.deepEqualSub]
  | cons kv rest ih =>
    obtain ⟨k, v⟩ := kv
    have h₁ := h (k, v) (by simp)
    simp [deepEqual.deepEqualSub, h₁.1, h₁.2]
    exact ih fun y hy => h y (by simp [hy])

theorem deepEqual_refl : ∀ v : JValue, WFv v = true → deepEqual v v = true := by
  intro v
  induction v using JValue.recStrong with
  | hnull => intro _; simp [deepEqual]
  | hbool b => intro _; simp [deepEqual]
  | hnum n => intro _; simp [deepEqual]
  | hstr s => intro _; simp [deepEqual]
  | harr xs ih =>
    intro hw
    have hw' : WFarr xs = true := by simpa [WFv] using hw
    have : ∀ x ∈ xs, deepEqual x x = true := fun x hx =>
      ih x hx (WFarr_mem hw' hx)
    simp [deepEqual, deepEqualArr_self this]
  | hobj fs ih =>
    intro hw
    have hw' : WFobj fs = true := by simpa [WFv] using hw
    have : ∀ kv ∈ fs, lookup fs kv.1 = some kv.2 ∧ deepEqual kv.2 kv.2 = true := by
      intro kv hkv
      obtain ⟨k, v'⟩ := kv
      exact ⟨lookup_of_mem_WF hw' hkv,
        ih (k, v') hkv (WFv_of_mem_WF hw' hkv)⟩
    simp [deepEqual, deepEqualSub_of this]

/-! Sorting lemmas. -/

theorem insertSorted_perm (x : String) (l : List String) :
    (insertSorted x l).Perm (x :: l) := by
  induction l with
  | nil => simp [insertSorted]
  | cons y rest ih =>
    by_cases h : x ≤ y
    · simp [insertSorted, h]
    · simp only [insertSorted, if_neg h]
      exact (ih.cons y).trans (List.Perm.swap x y rest)

theorem sortStrings_perm (l : List String) : (sortStrings l).Perm l := by
  induction l with
  | nil => simp [sortStrings]
  | cons x rest ih =>
    have h₁ : sortStrings (x :: rest) = insertSorted x (sortStrings rest) := rfl
    rw [h₁]
    exact (insertSorted_perm x (sortStrings rest)).trans (ih.cons x)

theorem length_sortStrings (l : List String) :
    (sortStrings l).length = l.length :=
  (sortStrings_perm l).length_eq

theorem mem_sortStrings {a : String} {l : List String} :
    a ∈ sortStrings l ↔ a ∈ l :=
  (sortStrings_perm l).mem_iff

theorem insertConflict_perm (c : Conflict) (l : List Conflict) :
    (insertConflict c l).Perm (c :: l) := by
  induction l with
  | nil => simp [insertConflict]
  | cons d rest ih =>
    by_cases h : c.Key ≤ d.Key
    · simp [insertConflict, h]
    · simp only [insertConflict, if_neg h]
      exact (ih.cons d).trans (List.Perm.swap c d rest)

theorem sortConflicts_perm (l : List Conflict) : (sortConflicts l).Perm l := by
  induction l with
  | nil => simp [sortConflicts]
  | cons c rest ih =>
    have h₁ : sortConflicts (c :: rest) = insertConflict c (sortConflicts rest) := rfl
    rw [h₁]
    exact (insertConflict_perm c (sortConflicts rest)).trans (ih.cons c)

theorem map_key_insertConflict (c : Conflict) (l : List Conflict) :
    (insertConflict c l).map Conflict.Key =
      insertSorted c.Key (l.map Conflict.Key) := by
  induction l with
  | nil => simp [insertConflict, insertSorted]
  | cons d rest ih =>
    by_cases h : c.Key ≤ d.Key
    · simp [insertConflict, insertSorted, h]
    · simp [insertConflict, insertSorted, h, ih]

theorem map_key_sortConflicts (l : List Conflict) :
    (sortConflicts l).map Conflict.Key = sortStrings (l.map Conflict.Key) := by
  induction l with
  | nil => simp [sortConflicts, sortStrings]
  | cons c rest ih =>
    have h₁ : sortConflicts (c :: rest) = insertConflict c (sortConflicts rest) := rfl
    have h₂ : sortStrings (c.Key :: rest.map Conflict.Key) =
        insertSorted c.Key (sortStrings (rest.map Conflict.Key)) := rfl
    simp only [List.map_cons, h₁, h₂, map_key_insertConflict, ih]

/-! Core lemmas about the merge loop. -/

theorem lookup_cons_eq_none {k q : String} {v : JValue} {rest : Obj} :
    lookup ((k, v) :: rest) q = none ↔ k ≠ q ∧ lookup rest q = none := by
  by_cases h : k = q <;> simp [lookup, h]

/-- Keys not occurring in the master entries keep their binding through the
merge loop. -/
theorem mergeEntries_frame (dst : Obj) (e : List (String × JValue))
    (ls : Option Obj) (pfx : String) (f : Bool) :
    ∀ q : String, lookup e q = none →
      lookup (mergeEntries dst e ls pfx f).1 q = lookup dst q := by
  induction dst, e, ls, pfx, f using mergeEntries.induct with
  | case1 dst ls pfx f =>
    intro q _
    simp [mergeEntries]
  | case2 dst k v rest ls pfx f hnone ih =>
    intro q hq
    obtain ⟨hne, hrest⟩ := lookup_cons_eq_none.mp hq
    simp only [mergeEntries, hnone]
    rw [ih q hrest, lookup_setKey]
    simp [hne]
  | case3 dst k rest ls pfx f key srcMap dstMap localSub sub hlook ihs ihs₂ ihr =>
    intro q hq
    obtain ⟨hne, hrest⟩ := lookup_cons_eq_none.mp hq
    simp only [mergeEntries, hlook]
    rw [ihr q hrest, lookup_setKey]
    simp [hne]
  | case4 dst k v rest ls pfx f dstVal hlook hde hnotobj ih =>
    intro q hq
    obtain ⟨hne, hrest⟩ := lookup_cons_eq_none.mp hq
    simp only [mergeEntries, hlook]
    rw [if_pos hde]
    exact ih q hrest
  | case5 dst k v rest ls pfx dstVal hlook hde hnotobj ih =>
    intro q hq
    obtain ⟨hne, hrest⟩ := lookup_cons_eq_none.mp hq
    simp only [mergeEntries, hlook]
    rw [if_neg hde, if_pos trivial, ih q hrest, lookup_setKey]
    simp [hne]
  | case6 dst k v rest ls pfx f dstVal hlook hde hf hnotobj ih =>
    intro q hq
    obtain ⟨hne, hrest⟩ := lookup_cons_eq_none.mp hq
    simp only [mergeEntries, hlook]
    rw [if_neg hde, if_neg hf]
    exact ih q hrest

/-- The merged map binds exactly the keys of dst together with the keys of
the master entries. -/
theorem mergeEntries_keys (dst : Obj) (e : List (String × JValue))
    (ls : Option Obj) (pfx : String) (f : Bool) :
    ∀ q : String, (lookup (mergeEntries dst e ls pfx f).1 q).isSome
      = ((lookup dst q).isSome || (lookup e q).isSome) := by
  induction dst, e, ls, pfx, f using mergeEntries.induct with
  | case1 dst ls pfx f =>
    intro q
    simp [mergeEntries, lookup]
  | case2 dst k v rest ls pfx f hnone ih =>
    intro q
    simp only [mergeEntries, hnone]
    rw [ih q, lookup_setKey]
    by_cases hkq : k = q
    · subst hkq
      simp [lookup, hnone]
    · simp [lookup, hkq]
  | case3 dst k rest ls pfx f key srcMap dstMap localSub sub hlook ihs ihs₂ ihr =>
    intro q
    simp only [mergeEntries, hlook]
    rw [ihr q, lookup_setKey]
    by_cases hkq : k = q
    · subst hkq
      simp [lookup, hlook]
    · simp [lookup, hkq]
  | case4 dst k v rest ls pfx f dstVal hlook hde hnotobj ih =>
    intro q
    simp only [mergeEntries, hlook]
    rw [if_pos hde, ih q]
    by_cases hkq : k = q
    · subst hkq
      simp [lookup, hlook]
    · simp [lookup, hkq]
  | case5 dst k v rest ls pfx dstVal hlook hde hnotobj ih =>
    intro q
    simp only [mergeEntries, hlook]
    rw [if_neg hde, if_pos trivial, ih q, lookup_setKey]
    by_cases hkq : k = q
    · subst hkq
      simp [lookup, hlook]
    · simp [lookup, hkq]
  | case6 dst k v rest ls pfx f dstVal hlook hde hf hnotobj ih =>
    intro q
    simp only [mergeEntries, hlook]
    rw [if_neg hde, if_neg hf, ih q]
    by_cases hkq : k = q
    · subst hkq
      simp [lookup, hlook]
    · simp [lookup, hkq]

theorem bothObj_eq_none {v dv : JValue}
    (h : ∀ sm dm : Obj, v = .obj sm → dv = .obj dm → False) :
    bothObj v dv = none := by
  cases v <;> cases dv <;> simp [bothObj]
  exact h _ _ rfl rfl

/-- Per-key behaviour of the merge loop on a well-formed master entry list:
a key absent from dst is adopted verbatim, an object/object pair is merged
recursively, and otherwise deep equality and force decide the value. -/
theorem lookup_mergeEntries_of_mem (dst : Obj) (e : List (String × JValue))
    (ls : Option Obj) (pfx : String) (f : Bool) :
    WFobj e = true → ∀ k v, (k, v) ∈ e →
      lookup (mergeEntries dst e ls pfx f).1 k =
        match lookup dst k with
        | none => some v
        | some dv =>
          match bothObj v dv with
          | some (sm, dm) =>
            some (.obj (mergeEntries dm sm (localSubOf ls k) (qualifiedKey pfx k) f).1)
          | none => if deepEqual v dv then some dv else if f then some v else some dv := by
  induction dst, e, ls, pfx, f using mergeEntries.induct with
  | case1 dst ls pfx f =>
    intro _ k v hmem
    simp at hmem
  | case2 dst k₀ v₀ rest ls pfx f hnone ih =>
    intro hw k v hmem
    rw [WFobj_cons] at hw
    simp only [Bool.and_eq_true] at hw
    simp only [mergeEntries, hnone]
    rcases List.mem_cons.mp hmem with hh | hr
    · cases hh
      have hfr : lookup rest k₀ = none := by
        have h₁ := hw.1.1
        cases hlr : lookup rest k₀ <;> simp [hlr] at h₁ ⊢
      rw [mergeEntries_frame _ _ _ _ _ k₀ hfr, lookup_setKey]
      simp [hnone]
    · have hkne : k₀ ≠ k := by
        intro he
        subst he
        have := lookup_of_mem_WF hw.2 hr
        have h₁ := hw.1.1
        rw [this] at h₁
        simp at h₁
      rw [ih hw.2 k v hr, lookup_setKey]
      simp [hkne]
  | case3 dst k₀ rest ls pfx f key srcMap dstMap localSub sub hlook ihs ihr₂ ihr =>
    intro hw k v hmem
    rw [WFobj_cons] at hw
    simp only [Bool.and_eq_true] at hw
    simp only [mergeEntries, hlook]
    rcases List.mem_cons.mp hmem with hh | hr
    · cases hh
      have hfr : lookup rest k₀ = none := by
        have h₁ := hw.1.1
        cases hlr : lookup rest k₀ <;> simp [hlr] at h₁ ⊢
      rw [mergeEntries_frame _ _ _ _ _ k₀ hfr, lookup_setKey]
      simp [hlook, bothObj]
    · have hkne : k₀ ≠ k := by
        intro he
        subst he
        have := lookup_of_mem_WF hw.2 hr
        have h₁ := hw.1.1
        rw [this] at h₁
        simp at h₁
      rw [ihr hw.2 k v hr, lookup_setKey]
      simp [hkne]
  | case4 dst k₀ v₀ rest ls pfx f dstVal hlook hde hnotobj ih =>
    intro hw k v hmem
    rw [WFobj_cons] at hw
    simp only [Bool.and_eq_true] at hw
    simp only [mergeEntries, hlook]
    rw [if_pos hde]
    rcases List.mem_cons.mp hmem with hh | hr
    · cases hh
      have hfr : lookup rest k₀ = none := by
        have h₁ := hw.1.1
        cases hlr : lookup rest k₀ <;> simp [hlr] at h₁ ⊢
      rw [mergeEntries_frame _ _ _ _ _ k₀ hfr, hlook]
      simp [bothObj_eq_none hnotobj, hde]
    · exact ih hw.2 k v hr
  | case5 dst k₀ v₀ rest ls pfx dstVal hlook hde hnotobj ih =>
    intro hw k v hmem
    rw [WFobj_cons] at hw
    simp only [Bool.and_eq_true] at hw
    simp only [mergeEntries, hlook]
    rw [if_neg hde, if_pos trivial]
    rcases List.mem_cons.mp hmem with hh | hr
    · cases hh
      have hfr : lookup rest k₀ = none := by
        have h₁ := hw.1.1
        cases hlr : lookup rest k₀ <;> simp [hlr] at h₁ ⊢
      rw [mergeEntries_frame _ _ _ _ _ k₀ hfr, lookup_setKey]
      simp [hlook, bothObj_eq_none hnotobj, hde]
    · have hkne : k₀ ≠ k := by
        intro he
        subst he
        have := lookup_of_mem_WF hw.2 hr
        have h₁ := hw.1.1
        rw [this] at h₁
        simp at h₁
      rw [ih hw.2 k v hr, lookup_setKey]
      simp [hkne]
  | case6 dst k₀ v₀ rest ls pfx f dstVal hlook hde hf hnotobj ih =>
    intro hw k v hmem
    rw [WFobj_cons] at hw
    simp only [Bool.and_eq_true] at hw
    simp only [mergeEntries, hlook]
    rw [if_neg hde, if_neg hf]
    rcases List.mem_cons.mp hmem with hh | hr
    · cases hh
      have hfr : lookup rest k₀ = none := by
        have h₁ := hw.1.1
        cases hlr : lookup rest k₀ <;> simp [hlr] at h₁ ⊢
      rw [mergeEntries_frame _ _ _ _ _ k₀ hfr, hlook]
      simp [bothObj_eq_none hnotobj, hde, hf]
    · exact ih hw.2 k v hr

/-- In a well-formed field list, every key bound in the tail differs from the
head key. -/
theorem mem_rest_ne_head {k : String} {v : JValue} {rest : Obj}
    (hw : WFobj ((k, v) :: rest) = true) {k' : String} {v' : JValue}
    (h : (k', v') ∈ rest) : k' ≠ k := by
  rw [WFobj_cons] at hw
  simp only [Bool.and_eq_true] at hw
  intro he
  subst he
  have h₁ := lookup_of_mem_WF hw.2 h
  have h₂ := hw.1.1
  rw [h₁] at h₂
  simp at h₂

/-- visitedKeys only depends on the bindings of dst at the keys of the
master entries. -/
theorem visitedKeys_congr {e : List (String × JValue)} {d₁ d₂ : Obj}
    (h : ∀ kv ∈ e, lookup d₁ kv.1 = lookup d₂ kv.1) (pfx : String) :
    visitedKeys d₁ e pfx = visitedKeys d₂ e pfx := by
  induction e with
  | nil => simp [visitedKeys]
  | cons kv rest ih =>
    obtain ⟨k, v⟩ := kv
    have hk := h (k, v) (by simp)
    have hr := ih fun y hy => h y (by simp [hy])
    simp only [visitedKeys, hk, hr]

theorem accKeySum_appendAcc (a b : MergeAcc) :
    accKeySum (appendAcc a b) = accKeySum a + accKeySum b := by
  simp only [accKeySum, appendAcc, List.map_append, ← Multiset.coe_add]
  abel

theorem accKeySum_consAdded (a : MergeAcc) (x : String) :
    accKeySum { a with added := x :: a.added } = x ::ₘ accKeySum a := by
  simp [accKeySum, ← Multiset.cons_coe, Multiset.cons_add, Multiset.add_cons]

theorem accKeySum_consMatching (a : MergeAcc) (x : String) :
    accKeySum { a with matching := x :: a.matching } = x ::ₘ accKeySum a := by
  simp [accKeySum, ← Multiset.cons_coe, Multiset.cons_add, Multiset.add_cons]

theorem accKeySum_consForced (a : MergeAcc) (x : String) :
    accKeySum { a with forced := x :: a.forced } = x ::ₘ accKeySum a := by
  simp [accKeySum, ← Multiset.cons_coe, Multiset.cons_add, Multiset.add_cons]

theorem accKeySum_consConflict (a : MergeAcc) (c : Conflict) :
    accKeySum { a with conflicts := c :: a.conflicts } = c.Key ::ₘ accKeySum a := by
  simp [accKeySum, ← Multiset.cons_coe, Multiset.cons_add, Multiset.add_cons]

theorem accKeySum_setLocalOnly (a : MergeAcc) (x : List String) :
    accKeySum { a with localOnly := x } = accKeySum a := by
  simp [accKeySum]

theorem visitedKeys_cons_other {dst : Obj} {k : String} {v dv : JValue}
    {rest : List (String × JValue)} {pfx : String}
    (hlook : lookup dst k = some dv)
    (hnotobj : ∀ sm dm : Obj, v = .obj sm → dv = .obj dm → False) :
    visitedKeys dst ((k, v) :: rest) pfx =
      qualifiedKey pfx k :: visitedKeys dst rest pfx := by
  cases v <;> cases dv <;> simp [visitedKeys, hlook] <;>
    exact (hnotobj _ _ rfl rfl).elim

/-- Every master key the merge loop visits is classified exactly once: the
classification lists, taken together as one multiset of qualified keys,
coincide with the visited keys of the two inputs. -/
theorem accKeySum_mergeEntries (dst : Obj) (e : List (String × JValue))
    (ls : Option Obj) (pfx : String) (f : Bool) :
    WFobj e = true →
      accKeySum (mergeEntries dst e ls pfx f).2 =
        (visitedKeys dst e pfx : Multiset String) := by
  induction dst, e, ls, pfx, f using mergeEntries.induct with
  | case1 dst ls pfx f =>
    intro _
    simp [mergeEntries, visitedKeys, accKeySum, emptyAcc]
  | case2 dst k v rest ls pfx f hnone ih =>
    intro hw
    have hcongr : visitedKeys (setKey dst k v) rest pfx = visitedKeys dst rest pfx := by
      apply visitedKeys_congr
      intro kv hkv
      obtain ⟨k', v'⟩ := kv
      have hne : k ≠ k' := Ne.symm (mem_rest_ne_head hw hkv)
      rw [lookup_setKey]
      simp [hne]
    have hwr : WFobj rest = true := by
      rw [WFobj_cons] at hw
      simp only [Bool.and_eq_true] at hw
      exact hw.2
    have ih₁ := ih hwr
    rw [hcongr] at ih₁
    simp only [mergeEntries, hnone, visitedKeys, List.singleton_append]
    rw [accKeySum_consAdded, ih₁, Multiset.cons_coe]
  | case3 dst k rest ls pfx f key srcMap dstMap localSub sub hlook ihs ihs₂ ihr =>
    intro hw
    have hcongr : visitedKeys (setKey dst k (.obj sub.1)) rest pfx
        = visitedKeys dst rest pfx := by
      apply visitedKeys_congr
      intro kv hkv
      obtain ⟨k', v'⟩ := kv
      have hne : k ≠ k' := Ne.symm (mem_rest_ne_head hw hkv)
      rw [lookup_setKey]
      simp [hne]
    have hwsrc : WFobj srcMap = true := by
      rw [WFobj_cons] at hw
      simp only [Bool.and_eq_true] at hw
      simpa [WFv] using hw.1.2
    have hwr : WFobj rest = true := by
      rw [WFobj_cons] at hw
      simp only [Bool.and_eq_true] at hw
      exact hw.2
    have ihs₁ := ihs hwsrc
    have ihr₁ := ihr hwr
    rw [hcongr] at ihr₁
    simp only [mergeEntries, hlook, visitedKeys]
    rw [accKeySum_appendAcc, accKeySum_setLocalOnly, ihs₁, ihr₁, Multiset.coe_add]
  | case4 dst k v rest ls pfx f dstVal hlook hde hnotobj ih =>
    intro hw
    have hwr : WFobj rest = true := by
      rw [WFobj_cons] at hw
      simp only [Bool.and_eq_true] at hw
      exact hw.2
    rw [visitedKeys_cons_other hlook hnotobj]
    simp only [mergeEntries, hlook]
    rw [if_pos hde, accKeySum_consMatching, ih hwr, Multiset.cons_coe]
  | case5 dst k v rest ls pfx dstVal hlook hde hnotobj ih =>
    intro hw
    have hcongr : visitedKeys (setKey dst k v) rest pfx = visitedKeys dst rest pfx := by
      apply visitedKeys_congr
      intro kv hkv
      obtain ⟨k', v'⟩ := kv
      have hne : k ≠ k' := Ne.symm (mem_rest_ne_head hw hkv)
      rw [lookup_setKey]
      simp [hne]
    have hwr : WFobj rest = true := by
      rw [WFobj_cons] at hw
      simp only [Bool.and_eq_true] at hw
      exact hw.2
    have ih₁ := ih hwr
    rw [hcongr] at ih₁
    rw [visitedKeys_cons_other hlook hnotobj]
    simp only [mergeEntries, hlook]
    rw [if_neg hde, if_pos trivial, accKeySum_consForced, ih₁, Multiset.cons_coe]
  | case6 dst k v rest ls pfx f dstVal hlook hde hf hnotobj ih =>
    intro hw
    have hwr : WFobj rest = true := by
      rw [WFobj_cons] at hw
      simp only [Bool.and_eq_true] at hw
      exact hw.2
    rw [visitedKeys_cons_other hlook hnotobj]
    simp only [mergeEntries, hlook]
    rw [if_neg hde, if_neg hf, accKeySum_consConflict, ih hwr, Multiset.cons_coe]

theorem coe_sortStrings (l : List String) :
    ((sortStrings l : List String) : Multiset String) = (l : Multiset String) :=
  Multiset.coe_eq_coe.mpr (sortStrings_perm l)

/-- Claim C1, counterexample: with master a ↦ (x ↦ 1, y ↦ 2) and empty
local, the whole subtree is adopted as the single Added entry "a": the
qualified key "a.x" is reachable from master yet appears in none of the four
lists, and the lists hold 1 entry in total while master has 2 nested leaves. -/
theorem claim1_partition_counterexample :
    ("a.x" ∈ qualifiedKeysOf "" exSubtreeMaster) ∧
    (Merge exSubtreeMaster [] false).Added = ["a"] ∧
    (Merge exSubtreeMaster [] false).Matching = [] ∧
    (Merge exSubtreeMaster [] false).Forced = [] ∧
    (Merge exSubtreeMaster [] false).Conflicts = [] ∧
    leafCount exSubtreeMaster = 2 := by
  refine ⟨?_, ?_, ?_, ?_, ?_, ?_⟩ <;>
    simp [exSubtreeMaster, qualifiedKeysOf, qualifiedKey, leafCount, Merge,
      mergeEntries, lookup, setKey, localOnlyKeys, sortStrings, insertSorted,
      sortConflicts, insertConflict, appendAcc, emptyAcc, localSubOf]

/-- Claim C1, amended: each master key visited by the merge recursion is
classified into exactly one of Added, Matching, Conflicts, Forced (a master
key absent from the merged side, or meeting a non-object, is classified once
where it stands and its subtree is not descended into), so the four lists
taken together are exactly the multiset of visited qualified keys and the
list lengths sum to the number of visited master keys. -/
theorem claim1_partition_amended (master locl : Obj) (force : Bool)
    (hm : WFobj master = true) :
    ((Merge master locl force).Added : Multiset String)
      + ((Merge master locl force).Matching : Multiset String)
      + ((Merge master locl force).Forced : Multiset String)
      + ((Merge master locl force).Conflicts.map Conflict.Key : Multiset String)
      = (visitedKeys locl master "" : Multiset String) ∧
    (Merge master locl force).Added.length
      + (Merge master locl force).Matching.length
      + (Merge master locl force).Forced.length
      + (Merge master locl force).Conflicts.length
      = (visitedKeys locl master "").length := by
  have hacc := accKeySum_mergeEntries locl master (some locl) "" force hm
  simp only [accKeySum] at hacc
  have hms : ((Merge master locl force).Added : Multiset String)
      + ((Merge master locl force).Matching : Multiset String)
      + ((Merge master locl force).Forced : Multiset String)
      + ((Merge master locl force).Conflicts.map Conflict.Key : Multiset String)
      = (visitedKeys locl master "" : Multiset String) := by
    simp only [Merge]
    rw [map_key_sortConflicts, coe_sortStrings, coe_sortStrings, coe_sortStrings,
      coe_sortStrings]
    exact hacc
  refine ⟨hms, ?_⟩
  have hcard := congrArg Multiset.card hms
  simp [Multiset.coe_card] at hcard
  omega

/-- Claim C1, witness: evaluating the amended statement on a concrete pair
of trees exercising all four classifications. -/
theorem claim1_partition_amended_witness :
    WFobj [("a", JValue.num 1), ("c", JValue.num 2),
      ("o", JValue.obj [("x", JValue.num 3)])] = true ∧
    (((Merge [("a", JValue.num 1), ("c", JValue.num 2),
        ("o", JValue.obj [("x", JValue.num 3)])]
        [("c", JValue.num 9), ("o", JValue.obj [("x", JValue.num 3)])]
        false).Added : Multiset String)
      + ((Merge [("a", JValue.num 1), ("c", JValue.num 2),
        ("o", JValue.obj [("x", JValue.num 3)])]
        [("c", JValue.num 9), ("o", JValue.obj [("x", JValue.num 3)])]
        false).Matching : Multiset String)
      + ((Merge [("a", JValue.num 1), ("c", JValue.num 2),
        ("o", JValue.obj [("x", JValue.num 3)])]
        [("c", JValue.num 9), ("o", JValue.obj [("x", JValue.num 3)])]
        false).Forced : Multiset String)
      + ((Merge [("a", JValue.num 1), ("c", JValue.num 2),
        ("o", JValue.obj [("x", JValue.num 3)])]
        [("c", JValue.num 9), ("o", JValue.obj [("x", JValue.num 3)])]
        false).Conflicts.map Conflict.Key : Multiset String)
      = (visitedKeys [("c", JValue.num 9), ("o", JValue.obj [("x", JValue.num 3)])]
          [("a", JValue.num 1), ("c", JValue.num 2),
            ("o", JValue.obj [("x", JValue.num 3)])] "" : Multiset String)) :=
  ⟨by decide,
    (claim1_partition_amended
      [("a", JValue.num 1), ("c", JValue.num 2),
        ("o", JValue.obj [("x", JValue.num 3)])]
      [("c", JValue.num 9), ("o", JValue.obj [("x", JValue.num 3)])]
      false (by decide)).1⟩

theorem keysList_setKey (l : Obj) (k : String) (v : JValue) :
    keysList (setKey l k v) =
      if (lookup l k).isSome then keysList l else keysList l ++ [k] := by
  induction l with
  | nil => simp [setKey, lookup, keysList]
  | cons kv rest ih =>
    obtain ⟨k₁, w⟩ := kv
    by_cases hk : k₁ = k
    · subst hk
      simp [setKey, lookup, keysList]
    · simp only [setKey, lookup, keysList, List.map_cons, beq_iff_eq, if_neg hk]
      simp only [keysList] at ih
      rw [ih]
      by_cases hs : (lookup rest k).isSome = true <;> simp [hs]

theorem localOnlyKeys_eq_keys (dst src : Obj) (ls : Option Obj) (pfx : String) :
    localOnlyKeys dst src ls pfx = (keysList dst).filterMap fun k =>
      if (lookup src k).isSome then none
      else
        match ls with
        | some l' =>
          if (lookup l' k).isSome then some (qualifiedKey pfx k) else none
        | none => none := by
  simp [localOnlyKeys, keysList, List.filterMap_map]
  rfl

theorem conflictPaths_congr {e : List (String × JValue)} {d₁ d₂ : Obj}
    (h : ∀ kv ∈ e, lookup d₁ kv.1 = lookup d₂ kv.1) :
    conflictPaths d₁ e = conflictPaths d₂ e := by
  induction e with
  | nil => simp [conflictPaths]
  | cons kv rest ih =>
    obtain ⟨k, v⟩ := kv
    have hk := h (k, v) (by simp)
    have hr := ih fun y hy => h y (by simp [hy])
    simp only [conflictPaths, hk, hr]

theorem conflictPaths_shape {dst : Obj} {e : List (String × JValue)} :
    ∀ p ∈ conflictPaths dst e,
      ∃ k tail, p = k :: tail ∧ (lookup e k).isSome = true := by
  induction e with
  | nil => simp [conflictPaths]
  | cons kv rest ih =>
    obtain ⟨k, v⟩ := kv
    intro p hp
    simp only [conflictPaths, List.mem_append] at hp
    rcases hp with hp | hp
    · refine ⟨k, ?_⟩
      rcases hlk : lookup dst k with _ | dv
      · rw [hlk] at hp
        simp at hp
      · rw [hlk] at hp
        cases v <;> cases dv <;> simp_all [lookup] <;>
          first
          | (obtain ⟨q, hq, rfl⟩ := hp; exact ⟨q, rfl⟩)
          | (rcases hp with ⟨⟩ ; simp)
    · obtain ⟨k', tail, rfl, hmem⟩ := ih p hp
      by_cases hk : k = k'
      · subst hk
        exact ⟨k, tail, rfl, by simp [lookup]⟩
      · exact ⟨k', tail, rfl, by simp [lookup, hk, hmem]⟩

theorem getPathV_obj_head {m₁ m₂ : Obj} {k : String}
    (h : lookup m₁ k = lookup m₂ k) (tail : List String) :
    getPathV (.obj m₁) (k :: tail) = getPathV (.obj m₂) (k :: tail) := by
  simp [getPathV, h]

theorem WFobj_cons_iff {k : String} {v : JValue} {rest : Obj} :
    WFobj ((k, v) :: rest) = true ↔
      lookup rest k = none ∧ WFv v = true ∧ WFobj rest = true := by
  rw [WFobj_cons]
  simp [Option.isNone_iff_eq_none, and_assoc]

theorem bothObj_eq_some {v dv : JValue} {sm dm : Obj} :
    bothObj v dv = some (sm, dm) ↔ v = .obj sm ∧ dv = .obj dm := by
  cases v <;> cases dv <;> simp [bothObj]

/-! Step lemmas: one-entry unfoldings of the merge loop, conditioned on the
branch taken. -/

theorem mergeEntries_cons_none {dst : Obj} {k : String} {v : JValue}
    {rest : List (String × JValue)} {ls : Option Obj} {pfx : String} {f : Bool}
    (h : lookup dst k = none) :
    mergeEntries dst ((k, v) :: rest) ls pfx f =
      ((mergeEntries (setKey dst k v) rest ls pfx f).1,
        { (mergeEntries (setKey dst k v) rest ls pfx f).2 with
          added := qualifiedKey pfx k ::
            (mergeEntries (setKey dst k v) rest ls pfx f).2.added }) := by
  simp only [mergeEntries, h]

theorem mergeEntries_cons_obj {dst : Obj} {k : String} {sm dm : Obj}
    {rest : List (String × JValue)} {ls : Option Obj} {pfx : String} {f : Bool}
    (h : lookup dst k = some (.obj dm)) :
    mergeEntries dst ((k, .obj sm) :: rest) ls pfx f =
      ((mergeEntries
          (setKey dst k (.obj (mergeEntries dm sm (localSubOf ls k)
            (qualifiedKey pfx k) f).1)) rest ls pfx f).1,
        appendAcc
          { (mergeEntries dm sm (localSubOf ls k) (qualifiedKey pfx k) f).2 with
            localOnly := (mergeEntries dm sm (localSubOf ls k)
                (qualifiedKey pfx k) f).2.localOnly ++
              localOnlyKeys (mergeEntries dm sm (localSubOf ls k)
                (qualifiedKey pfx k) f).1 sm (localSubOf ls k)
                (qualifiedKey pfx k) }
          (mergeEntries
            (setKey dst k (.obj (mergeEntries dm sm (localSubOf ls k)
              (qualifiedKey pfx k) f).1)) rest ls pfx f).2) := by
  simp only [mergeEntries, h]

theorem mergeEntries_cons_eq {dst : Obj} {k : String} {v dv : JValue}
    {rest : List (String × JValue)} {ls : Option Obj} {pfx : String} {f : Bool}
    (h : lookup dst k = some dv) (hno : bothObj v dv = none)
    (hde : deepEqual v dv = true) :
    mergeEntries dst ((k, v) :: rest) ls pfx f =
      ((mergeEntries dst rest ls pfx f).1,
        { (mergeEntries dst rest ls pfx f).2 with
          matching := qualifiedKey pfx k ::
            (mergeEntries dst rest ls pfx f).2.matching }) := by
  cases v <;> cases dv
  case obj.obj => simp [bothObj] at hno
  all_goals (simp only [mergeEntries, h]; rw [if_pos hde])

theorem mergeEntries_cons_forced {dst : Obj} {k : String} {v dv : JValue}
    {rest : List (String × JValue)} {ls : Option Obj} {pfx : String}
    (h : lookup dst k = some dv) (hno : bothObj v dv = none)
    (hde : deepEqual v dv = false) :
    mergeEntries dst ((k, v) :: rest) ls pfx true =
      ((mergeEntries (setKey dst k v) rest ls pfx true).1,
        { (mergeEntries (setKey dst k v) rest ls pfx true).2 with
          forced := qualifiedKey pfx k ::
            (mergeEntries (setKey dst k v) rest ls pfx true).2.forced }) := by
  cases v <;> cases dv
  case obj.obj => simp [bothObj] at hno
  all_goals (simp only [mergeEntries, h]; rw [if_neg (by simp [hde]), if_pos trivial])

theorem mergeEntries_cons_conflict {dst : Obj} {k : String} {v dv : JValue}
    {rest : List (String × JValue)} {ls : Option Obj} {pfx : String}
    (h : lookup dst k = some dv) (hno : bothObj v dv = none)
    (hde : deepEqual v dv = false) :
    mergeEntries dst ((k, v) :: rest) ls pfx false =
      ((mergeEntries dst rest ls pfx false).1,
        { (mergeEntries dst rest ls pfx false).2 with
          conflicts := ⟨qualifiedKey pfx k, v, dv⟩ ::
            (mergeEntries dst rest ls pfx false).2.conflicts }) := by
  cases v <;> cases dv
  case obj.obj => simp [bothObj] at hno
  all_goals (simp only [mergeEntries, h]; rw [if_neg (by simp [hde]), if_neg (by simp)])

/-! Step lemmas for conflictPaths. -/

theorem conflictPaths_cons_none {dst : Obj} {k : String} {v : JValue}
    {rest : List (String × JValue)} (h : lookup dst k = none) :
    conflictPaths dst ((k, v) :: rest) = conflictPaths dst rest := by
  simp [conflictPaths, h]

theorem conflictPaths_cons_obj {dst : Obj} {k : String} {sm dm : Obj}
    {rest : List (String × JValue)} (h : lookup dst k = some (.obj dm)) :
    conflictPaths dst ((k, .obj sm) :: rest) =
      (conflictPaths dm sm).map (fun p => k :: p) ++ conflictPaths dst rest := by
  simp [conflictPaths, h]

theorem conflictPaths_cons_eq {dst : Obj} {k : String} {v dv : JValue}
    {rest : List (String × JValue)} (h : lookup dst k = some dv)
    (hno : bothObj v dv = none) (hde : deepEqual v dv = true) :
    conflictPaths dst ((k, v) :: rest) = conflictPaths dst rest := by
  cases v <;> cases dv
  case obj.obj => simp [bothObj] at hno
  all_goals simp [conflictPaths, h, hde]

theorem conflictPaths_cons_conflict {dst : Obj} {k : String} {v dv : JValue}
    {rest : List (String × JValue)} (h : lookup dst k = some dv)
    (hno : bothObj v dv = none) (hde : deepEqual v dv = false) :
    conflictPaths dst ((k, v) :: rest) = [k] :: conflictPaths dst rest := by
  cases v <;> cases dv
  case obj.obj => simp [bothObj] at hno
  all_goals simp [conflictPaths, h, hde]

/-- Force mode and non-force mode classify identically except that every
non-force Conflict becomes a Forced entry: proved for two runs started from
dst maps that agree on the master keys and have equal key lists (as the two
runs' dst maps do at every level). -/
theorem mergeForcePair : ∀ n : Nat, ∀ e : List (String × JValue), sizeOf e ≤ n →
    ∀ d₀ d₁ : Obj, ∀ ls : Option Obj, ∀ pfx : String,
      WFobj e = true →
      (∀ kv ∈ e, lookup d₀ kv.1 = lookup d₁ kv.1) →
      keysList d₀ = keysList d₁ →
      ((mergeEntries d₀ e ls pfx false).2.added =
          (mergeEntries d₁ e ls pfx true).2.added ∧
        (mergeEntries d₀ e ls pfx false).2.matching =
          (mergeEntries d₁ e ls pfx true).2.matching ∧
        (mergeEntries d₀ e ls pfx false).2.localOnly =
          (mergeEntries d₁ e ls pfx true).2.localOnly ∧
        (mergeEntries d₁ e ls pfx true).2.forced =
          (mergeEntries d₀ e ls pfx false).2.conflicts.map Conflict.Key ∧
        (mergeEntries d₀ e ls pfx false).2.forced = [] ∧
        (mergeEntries d₁ e ls pfx true).2.conflicts = [] ∧
        keysList (mergeEntries d₀ e ls pfx false).1 =
          keysList (mergeEntries d₁ e ls pfx true).1 ∧
        (∀ p ∈ conflictPaths d₀ e,
          getPathV (.obj (mergeEntries d₀ e ls pfx false).1) p =
            getPathV (.obj d₀) p ∧
          getPathV (.obj (mergeEntries d₁ e ls pfx true).1) p =
            getPathV (.obj e) p)) := by
  intro n
  induction n with
  | zero =>
    intro e he
    exact absurd he (by cases e <;> simp)
  | succ n ih =>
    intro e he d₀ d₁ ls pfx hw hagree hkeys
    cases e with
    | nil =>
      refine ⟨?_, ?_, ?_, ?_, ?_, ?_, ?_, ?_⟩ <;>
        simp [mergeEntries, emptyAcc, conflictPaths, hkeys]
    | cons kv rest =>
      obtain ⟨k, v⟩ := kv
      obtain ⟨hnr, hwv, hwr⟩ := WFobj_cons_iff.mp hw
      have hk01 : lookup d₀ k = lookup d₁ k := hagree (k, v) (by simp)
      have hszr : sizeOf rest ≤ n := by
        simp only [List.cons.sizeOf_spec] at he
        omega
      have hne_rest : ∀ kv₁ ∈ rest, kv₁.1 ≠ k := by
        intro kv₁ hkv₁
        obtain ⟨k₁, v₁⟩ := kv₁
        exact mem_rest_ne_head hw hkv₁
      have hagree_rest : ∀ kv₁ ∈ rest, lookup d₀ kv₁.1 = lookup d₁ kv₁.1 :=
        fun kv₁ h₁ => hagree kv₁ (by simp [h₁])
      rcases hlk₀ : lookup d₀ k with _ | dv
      · -- key absent on both sides: Added on both runs
        have hlk₁ : lookup d₁ k = none := by rw [← hk01]; exact hlk₀
        have hagree' : ∀ kv₁ ∈ rest,
            lookup (setKey d₀ k v) kv₁.1 = lookup (setKey d₁ k v) kv₁.1 := by
          intro kv₁ h₁
          have hne : ¬(k = kv₁.1) := Ne.symm (hne_rest kv₁ h₁)
          rw [lookup_setKey, lookup_setKey]
          simp only [beq_iff_eq, if_neg hne]
          exact hagree_rest kv₁ h₁
        have hkeys' : keysList (setKey d₀ k v) = keysList (setKey d₁ k v) := by
          rw [keysList_setKey, keysList_setKey, hlk₀, hlk₁]
          simp [hkeys]
        obtain ⟨i₁, i₂, i₃, i₄, i₅, i₆, i₇, i₈⟩ :=
          ih rest hszr (setKey d₀ k v) (setKey d₁ k v) ls pfx hwr hagree' hkeys'
        rw [mergeEntries_cons_none hlk₀, mergeEntries_cons_none hlk₁]
        have hcp : conflictPaths (setKey d₀ k v) rest = conflictPaths d₀ rest := by
          apply conflictPaths_congr
          intro kv₁ h₁
          have hne : ¬(k = kv₁.1) := Ne.symm (hne_rest kv₁ h₁)
          rw [lookup_setKey]
          simp [hne]
        refine ⟨by simp [i₁], by simp [i₂], by simp [i₃], by simp [i₄],
          by simp [i₅], by simp [i₆], by simp [i₇], ?_⟩
        intro p hp
        rw [conflictPaths_cons_none hlk₀] at hp
        obtain ⟨k', tail, rfl, hk'⟩ := conflictPaths_shape p hp
        have hk'ne : k' ≠ k := by
          intro hcon
          subst hcon
          rw [hnr] at hk'
          simp at hk'
        rw [← hcp] at hp
        obtain ⟨hp₀, hp₁⟩ := i₈ (k' :: tail) hp
        constructor
        · rw [hp₀]
          apply getPathV_obj_head
          rw [lookup_setKey]
          simp [Ne.symm hk'ne]
        · rw [hp₁]
          apply getPathV_obj_head
          simp [lookup, Ne.symm hk'ne]
      · -- key present on both sides
        have hlk₁ : lookup d₁ k = some dv := by rw [← hk01]; exact hlk₀
        rcases hbo : bothObj v dv with _ | ⟨sm, dm⟩
        · -- not an object/object pair: compare values
          rcases hde : deepEqual v dv with _ | _
          · -- differing values: Conflict without force, Forced with force
            have hagree' : ∀ kv₁ ∈ rest,
                lookup d₀ kv₁.1 = lookup (setKey d₁ k v) kv₁.1 := by
              intro kv₁ h₁
              have hne : ¬(k = kv₁.1) := Ne.symm (hne_rest kv₁ h₁)
              rw [lookup_setKey]
              simp only [beq_iff_eq, if_neg hne]
              exact hagree_rest kv₁ h₁
            have hkeys' : keysList d₀ = keysList (setKey d₁ k v) := by
              rw [keysList_setKey, hlk₁]
              simp [hkeys]
            obtain ⟨i₁, i₂, i₃, i₄, i₅, i₆, i₇, i₈⟩ :=
              ih rest hszr d₀ (setKey d₁ k v) ls pfx hwr hagree' hkeys'
            rw [mergeEntries_cons_conflict hlk₀ hbo hde,
              mergeEntries_cons_forced hlk₁ hbo hde]
            refine ⟨by simp [i₁], by simp [i₂], by simp [i₃],
              by simp [i₄], by simp [i₅], by simp [i₆], by simp [i₇], ?_⟩
            intro p hp
            rw [conflictPaths_cons_conflict hlk₀ hbo hde] at hp
            rcases List.mem_cons.mp hp with hp | hp
            · subst hp
              constructor
              · simp only [getPathV]
                rw [mergeEntries_frame _ _ _ _ _ k hnr, hlk₀]
              · simp only [getPathV]
                rw [mergeEntries_frame _ _ _ _ _ k hnr, lookup_setKey]
                simp [lookup]
            · obtain ⟨k', tail, rfl, hk'⟩ := conflictPaths_shape p hp
              have hk'ne : k' ≠ k := by
                intro hcon
                subst hcon
                rw [hnr] at hk'
                simp at hk'
              obtain ⟨hp₀, hp₁⟩ := i₈ (k' :: tail) hp
              constructor
              · exact hp₀
              · rw [hp₁]
                apply getPathV_obj_head
                simp [lookup, Ne.symm hk'ne]
          · -- deeply equal values: Matching on both runs
            obtain ⟨i₁, i₂, i₃, i₄, i₅, i₆, i₇, i₈⟩ :=
              ih rest hszr d₀ d₁ ls pfx hwr hagree_rest hkeys
            rw [mergeEntries_cons_eq hlk₀ hbo hde,
              mergeEntries_cons_eq hlk₁ hbo hde]
            refine ⟨by simp [i₁], by simp [i₂], by simp [i₃],
              by simp [i₄], by simp [i₅], by simp [i₆], by simp [i₇], ?_⟩
            intro p hp
            rw [conflictPaths_cons_eq hlk₀ hbo hde] at hp
            obtain ⟨k', tail, rfl, hk'⟩ := conflictPaths_shape p hp
            have hk'ne : k' ≠ k := by
              intro hcon
              subst hcon
              rw [hnr] at hk'
              simp at hk'
            obtain ⟨hp₀, hp₁⟩ := i₈ (k' :: tail) hp
            refine ⟨hp₀, ?_⟩
            rw [hp₁]
            apply getPathV_obj_head
            simp [lookup, Ne.symm hk'ne]
        · -- object/object: recurse on the sub-level with identical dst maps
          obtain ⟨rfl, rfl⟩ := bothObj_eq_some.mp hbo
          have hwsm : WFobj sm = true := by simpa [WFv] using hwv
          have hszs : sizeOf sm ≤ n := by
            simp only [List.cons.sizeOf_spec, Prod.mk.sizeOf_spec,
              JValue.obj.sizeOf_spec] at he
            omega
          obtain ⟨s₁, s₂, s₃, s₄, s₅, s₆, s₇, s₈⟩ :=
            ih sm hszs dm dm (localSubOf ls k) (qualifiedKey pfx k) hwsm
              (fun _ _ => rfl) rfl
          have hagree' : ∀ kv₁ ∈ rest,
              lookup (setKey d₀ k (.obj (mergeEntries dm sm (localSubOf ls k)
                  (qualifiedKey pfx k) false).1)) kv₁.1 =
                lookup (setKey d₁ k (.obj (mergeEntries dm sm (localSubOf ls k)
                  (qualifiedKey pfx k) true).1)) kv₁.1 := by
            intro kv₁ h₁
            have hne : ¬(k = kv₁.1) := Ne.symm (hne_rest kv₁ h₁)
            rw [lookup_setKey, lookup_setKey]
            simp only [beq_iff_eq, if_neg hne]
            exact hagree_rest kv₁ h₁
          have hkeys' : keysList (setKey d₀ k (.obj (mergeEntries dm sm
              (localSubOf ls k) (qualifiedKey pfx k) false).1)) =
              keysList (setKey d₁ k (.obj (mergeEntries dm sm (localSubOf ls k)
                (qualifiedKey pfx k) true).1)) := by
            rw [keysList_setKey, keysList_setKey, hlk₀, hlk₁]
            simp [hkeys]
          obtain ⟨i₁, i₂, i₃, i₄, i₅, i₆, i₇, i₈⟩ :=
            ih rest hszr _ _ ls pfx hwr hagree' hkeys'
          rw [mergeEntries_cons_obj hlk₀, mergeEntries_cons_obj hlk₁]
          have hlo : localOnlyKeys (mergeEntries dm sm (localSubOf ls k)
              (qualifiedKey pfx k) false).1 sm (localSubOf ls k)
                (qualifiedKey pfx k) =
              localOnlyKeys (mergeEntries dm sm (localSubOf ls k)
                (qualifiedKey pfx k) true).1 sm (localSubOf ls k)
                (qualifiedKey pfx k) := by
            rw [localOnlyKeys_eq_keys, localOnlyKeys_eq_keys, s₇]
          refine ⟨?_, ?_, ?_, ?_, ?_, ?_, by simp [i₇], ?_⟩
          · simp [appendAcc, s₁, i₁]
          · simp [appendAcc, s₂, i₂]
          · simp [appendAcc, s₃, i₃, hlo]
          · simp [appendAcc, s₄, i₄]
          · simp [appendAcc, s₅, i₅]
          · simp [appendAcc, s₆, i₆]
          · intro p hp
            rw [conflictPaths_cons_obj hlk₀] at hp
            rcases List.mem_append.mp hp with hp | hp
            · obtain ⟨tail, htail, rfl⟩ := List.mem_map.mp hp
              obtain ⟨hs₀, hs₁⟩ := s₈ tail htail
              constructor
              · simp only [getPathV]
                rw [mergeEntries_frame _ _ _ _ _ k hnr, lookup_setKey]
                simp only [BEq.refl, if_pos rfl]
                rw [hlk₀]
                exact hs₀
              · simp only [getPathV]
                rw [mergeEntries_frame _ _ _ _ _ k hnr, lookup_setKey]
                simp only [BEq.refl, if_pos rfl]
                rw [show lookup ((k, JValue.obj sm) :: rest) k = some (.obj sm)
                  by simp [lookup]]
                exact hs₁
            · obtain ⟨k', tail, rfl, hk'⟩ := conflictPaths_shape p hp
              have hk'ne : k' ≠ k := by
                intro hcon
                subst hcon
                rw [hnr] at hk'
                simp at hk'
              have hcp : conflictPaths (setKey d₀ k (.obj (mergeEntries dm sm
                  (localSubOf ls k) (qualifiedKey pfx k) false).1)) rest =
                  conflictPaths d₀ rest := by
                apply conflictPaths_congr
                intro kv₁ h₁
                have hne : ¬(k = kv₁.1) := Ne.symm (hne_rest kv₁ h₁)
                rw [lookup_setKey]
                simp [hne]
              rw [← hcp] at hp
              obtain ⟨hp₀, hp₁⟩ := i₈ (k' :: tail) hp
              constructor
              · rw [hp₀]
                apply getPathV_obj_head
                rw [lookup_setKey]
                simp [Ne.symm hk'ne]
              · rw [hp₁]
                apply getPathV_obj_head
                simp [lookup, Ne.symm hk'ne]

theorem mem_of_lookup {l : Obj} {k : String} {v : JValue}
    (h : lookup l k = some v) : (k, v) ∈ l := by
  induction l with
  | nil => simp [lookup] at h
  | cons kv rest ih =>
    obtain ⟨k₁, w⟩ := kv
    by_cases hk : k₁ = k
    · subst hk
      simp [lookup] at h
      simp [h]
    · simp only [lookup, beq_iff_eq, if_neg hk] at h
      simp [ih h]

/-- The merge loop preserves well-formedness of the merged map. -/
theorem mergeWF : ∀ n : Nat, ∀ e : List (String × JValue), sizeOf e ≤ n →
    ∀ dst : Obj, ∀ ls : Option Obj, ∀ pfx : String, ∀ f : Bool,
      WFobj e = true → WFobj dst = true →
      WFobj (mergeEntries dst e ls pfx f).1 = true := by
  intro n
  induction n with
  | zero =>
    intro e he
    exact absurd he (by cases e <;> simp)
  | succ n ih =>
    intro e he dst ls pfx f hw hwd
    cases e with
    | nil => simpa [mergeEntries] using hwd
    | cons kv rest =>
      obtain ⟨k, v⟩ := kv
      obtain ⟨hnr, hwv, hwr⟩ := WFobj_cons_iff.mp hw
      have hszr : sizeOf rest ≤ n := by
        simp only [List.cons.sizeOf_spec] at he
        omega
      rcases hlk : lookup dst k with _ | dv
      · rw [mergeEntries_cons_none hlk]
        exact ih rest hszr _ ls pfx f hwr (WF_setKey hwd hwv k)
      · rcases hbo : bothObj v dv with _ | ⟨sm, dm⟩
        · rcases hde : deepEqual v dv with _ | _
          · cases f with
            | false =>
              rw [mergeEntries_cons_conflict hlk hbo hde]
              exact ih rest hszr dst ls pfx false hwr hwd
            | true =>
              rw [mergeEntries_cons_forced hlk hbo hde]
              exact ih rest hszr _ ls pfx true hwr (WF_setKey hwd hwv k)
          · rw [mergeEntries_cons_eq hlk hbo hde]
            exact ih rest hszr dst ls pfx f hwr hwd
        · obtain ⟨rfl, rfl⟩ := bothObj_eq_some.mp hbo
          have hwdm : WFobj dm = true := by
            have := WFv_of_mem_WF hwd (mem_of_lookup hlk)
            simpa [WFv] using this
          have hwsm : WFobj sm = true := by simpa [WFv] using hwv
          have hszs : sizeOf sm ≤ n := by
            simp only [List.cons.sizeOf_spec, Prod.mk.sizeOf_spec,
              JValue.obj.sizeOf_spec] at he
            omega
          rw [mergeEntries_cons_obj hlk]
          apply ih rest hszr _ ls pfx f hwr
          apply WF_setKey hwd _ k


          have := ih sm hszs dm (localSubOf ls k) (qualifiedKey pfx k) f hwsm hwdm
          simpa [WFv] using this

/-- Merging a well-formed object into a map already holding exactly its
bindings changes nothing: every key matches (or recurses into an identical
pair), and no Added, Conflict or Forced entry is produced. -/
theorem mergeSelf : ∀ n : Nat, ∀ e : List (String × JValue), sizeOf e ≤ n →
    ∀ dst : Obj, ∀ ls : Option Obj, ∀ pfx : String, ∀ f : Bool,
      WFobj e = true →
      (∀ kv ∈ e, lookup dst kv.1 = some kv.2) →
      ((mergeEntries dst e ls pfx f).1 = dst ∧
        (mergeEntries dst e ls pfx f).2.added = [] ∧
        (mergeEntries dst e ls pfx f).2.conflicts = [] ∧
        (mergeEntries dst e ls pfx f).2.forced = []) := by
  intro n
  induction n with
  | zero =>
    intro e he
    exact absurd he (by cases e <;> simp)
  | succ n ih =>
    intro e he dst ls pfx f hw hbind
    cases e with
    | nil => simp [mergeEntries, emptyAcc]
    | cons kv rest =>
      obtain ⟨k, v⟩ := kv
      obtain ⟨hnr, hwv, hwr⟩ := WFobj_cons_iff.mp hw
      have hszr : sizeOf rest ≤ n := by
        simp only [List.cons.sizeOf_spec] at he
        omega
      have hlk : lookup dst k = some v := hbind (k, v) (by simp)
      have hbindr : ∀ kv₁ ∈ rest, lookup dst kv₁.1 = some kv₁.2 :=
        fun kv₁ h₁ => hbind kv₁ (by simp [h₁])
      obtain ⟨j₁, j₂, j₃, j₄⟩ := ih rest hszr dst ls pfx f hwr hbindr
      rcases hbo : bothObj v v with _ | ⟨sm, dm⟩
      · have hde : deepEqual v v = true := deepEqual_refl v hwv
        rw [mergeEntries_cons_eq hlk hbo hde]
        exact ⟨j₁, by simp [j₂], by simp [j₃], by simp [j₄]⟩
      · obtain ⟨rfl, hdm⟩ := bothObj_eq_some.mp hbo
        have hsm : sm = dm := JValue.obj.inj hdm
        subst hsm
        have hwsm : WFobj sm = true := by simpa [WFv] using hwv
        have hszs : sizeOf sm ≤ n := by
          simp only [List.cons.sizeOf_spec, Prod.mk.sizeOf_spec,
            JValue.obj.sizeOf_spec] at he
          omega
        obtain ⟨s₁, s₂, s₃, s₄⟩ :=
          ih sm hszs sm (localSubOf ls k) (qualifiedKey pfx k) f hwsm
            (fun kv₁ h₁ => lookup_of_mem_WF hwsm h₁)
        rw [mergeEntries_cons_obj hlk]
        rw [s₁, setKey_same hlk]
        exact ⟨j₁, by simp [appendAcc, s₂, j₂], by simp [appendAcc, s₃, j₃],
          by simp [appendAcc, s₄, j₄]⟩

/-- Re-merging the same master entries into the output of a first non-force
merge is a no-op: the tree is unchanged, nothing is Added, and exactly the
first run's Conflicts are reported again. -/
theorem mergeRerun : ∀ n : Nat, ∀ e : List (String × JValue), sizeOf e ≤ n →
    ∀ dst : Obj, ∀ ls ls' : Option Obj, ∀ pfx : String,
      WFobj e = true → WFobj dst = true →
      ((mergeEntries (mergeEntries dst e ls pfx false).1 e ls' pfx false).1 =
          (mergeEntries dst e ls pfx false).1 ∧
        (mergeEntries (mergeEntries dst e ls pfx false).1 e ls' pfx
            false).2.added = [] ∧
        (mergeEntries (mergeEntries dst e ls pfx false).1 e ls' pfx
            false).2.conflicts = (mergeEntries dst e ls pfx false).2.conflicts) := by
  intro n
  induction n with
  | zero =>
    intro e he
    exact absurd he (by cases e <;> simp)
  | succ n ih =>
    intro e he dst ls ls' pfx hw hwd
    cases e with
    | nil => simp [mergeEntries, emptyAcc]
    | cons kv rest =>
      obtain ⟨k, v⟩ := kv
      obtain ⟨hnr, hwv, hwr⟩ := WFobj_cons_iff.mp hw
      have hszr : sizeOf rest ≤ n := by
        simp only [List.cons.sizeOf_spec] at he
        omega
      rcases hlk : lookup dst k with _ | dv
      · -- first run adopted the key verbatim
        rw [mergeEntries_cons_none hlk]
        have hlkm : lookup (mergeEntries (setKey dst k v) rest ls pfx false).1 k
            = some v := by
          rw [mergeEntries_frame _ _ _ _ _ k hnr, lookup_setKey]
          simp
        obtain ⟨i₁, i₂, i₃⟩ :=
          ih rest hszr (setKey dst k v) ls ls' pfx hwr (WF_setKey hwd hwv k)
        rcases hbo : bothObj v v with _ | ⟨sm, dm⟩
        · have hde : deepEqual v v = true := deepEqual_refl v hwv
          rw [mergeEntries_cons_eq hlkm hbo hde]
          exact ⟨i₁, by simp [i₂], by simp [i₃]⟩
        · obtain ⟨rfl, hdm⟩ := bothObj_eq_some.mp hbo
          have hsm : sm = dm := JValue.obj.inj hdm
          subst hsm
          have hwsm : WFobj sm = true := by simpa [WFv] using hwv
          have hszs : sizeOf sm ≤ n := by
            simp only [List.cons.sizeOf_spec, Prod.mk.sizeOf_spec,
              JValue.obj.sizeOf_spec] at he
            omega
          obtain ⟨s₁, s₂, s₃, s₄⟩ :=
            mergeSelf n sm hszs sm (localSubOf ls' k) (qualifiedKey pfx k) false
              hwsm (fun kv₁ h₁ => lookup_of_mem_WF hwsm h₁)
          rw [mergeEntries_cons_obj hlkm, s₁, setKey_same hlkm]
          exact ⟨i₁, by simp [appendAcc, s₂, i₂], by simp [appendAcc, s₃, i₃]⟩
      · rcases hbo : bothObj v dv with _ | ⟨sm, dm⟩
        · rcases hde : deepEqual v dv with _ | _
          · -- conflict in the first run: the same conflict recurs
            rw [mergeEntries_cons_conflict hlk hbo hde]
            have hlkm : lookup (mergeEntries dst rest ls pfx false).1 k
                = some dv := by
              rw [mergeEntries_frame _ _ _ _ _ k hnr]
              exact hlk
            obtain ⟨i₁, i₂, i₃⟩ := ih rest hszr dst ls ls' pfx hwr hwd
            rw [mergeEntries_cons_conflict hlkm hbo hde]
            exact ⟨i₁, by simp [i₂], by simp [i₃]⟩
          · -- matching in the first run: matches again
            rw [mergeEntries_cons_eq hlk hbo hde]
            have hlkm : lookup (mergeEntries dst rest ls pfx false).1 k
                = some dv := by
              rw [mergeEntries_frame _ _ _ _ _ k hnr]
              exact hlk
            obtain ⟨i₁, i₂, i₃⟩ := ih rest hszr dst ls ls' pfx hwr hwd
            rw [mergeEntries_cons_eq hlkm hbo hde]
            exact ⟨i₁, by simp [i₂], by simp [i₃]⟩
        · -- nested object/object pair: re-merge the merged sub-level
          obtain ⟨rfl, rfl⟩ := bothObj_eq_some.mp hbo
          have hwdm : WFobj dm = true := by
            have := WFv_of_mem_WF hwd (mem_of_lookup hlk)
            simpa [WFv] using this
          have hwsm : WFobj sm = true := by simpa [WFv] using hwv
          have hszs : sizeOf sm ≤ n := by
            simp only [List.cons.sizeOf_spec, Prod.mk.sizeOf_spec,
              JValue.obj.sizeOf_spec] at he
            omega
          have hwsub : WFobj (mergeEntries dm sm (localSubOf ls k)
              (qualifiedKey pfx k) false).1 = true :=
            mergeWF n sm hszs dm (localSubOf ls k) (qualifiedKey pfx k) false
              hwsm hwdm
          rw [mergeEntries_cons_obj hlk]
          have hlkm : lookup (mergeEntries
              (setKey dst k (.obj (mergeEntries dm sm (localSubOf ls k)
                (qualifiedKey pfx k) false).1)) rest ls pfx false).1 k
              = some (.obj (mergeEntries dm sm (localSubOf ls k)
                (qualifiedKey pfx k) false).1) := by
            rw [mergeEntries_frame _ _ _ _ _ k hnr, lookup_setKey]
            simp
          obtain ⟨r₁, r₂, r₃⟩ :=
            ih sm hszs dm (localSubOf ls k) (localSubOf ls' k)
              (qualifiedKey pfx k) hwsm hwdm
          obtain ⟨i₁, i₂, i₃⟩ :=
            ih rest hszr (setKey dst k (.obj (mergeEntries dm sm
              (localSubOf ls k) (qualifiedKey pfx k) false).1)) ls ls' pfx hwr
              (WF_setKey hwd (by simpa [WFv] using hwsub) k)
          rw [mergeEntries_cons_obj hlkm, r₁, setKey_same hlkm]
          exact ⟨i₁, by simp [appendAcc, r₂, i₂], by simp [appendAcc, r₃, i₃]⟩

theorem mem_keysList {l : Obj} {k : String} :
    k ∈ keysList l ↔ (lookup l k).isSome = true := by
  induction l with
  | nil => simp [keysList, lookup]
  | cons kv rest ih =>
    obtain ⟨k₁, w⟩ := kv
    by_cases hk : k₁ = k
    · subst hk
      simp [keysList, lookup]
    · simp only [keysList, List.map_cons, List.mem_cons, lookup, beq_iff_eq,
        if_neg hk]
      simp only [keysList] at ih
      rw [ih]
      simp [Ne.symm hk]

/-- The key list of the merged map: the original dst keys in place, followed
by the master keys that were absent from dst, in master order. -/
theorem keysList_mergeEntries : ∀ n : Nat, ∀ e : List (String × JValue),
    sizeOf e ≤ n → ∀ dst : Obj, ∀ ls : Option Obj, ∀ pfx : String, ∀ f : Bool,
      WFobj e = true →
      keysList (mergeEntries dst e ls pfx f).1 =
        keysList dst ++ e.filterMap fun kv =>
          if (lookup dst kv.1).isSome then none else some kv.1 := by
  intro n
  induction n with
  | zero =>
    intro e he
    exact absurd he (by cases e <;> simp)
  | succ n ih =>
    intro e he dst ls pfx f hw
    cases e with
    | nil => simp [mergeEntries]
    | cons kv rest =>
      obtain ⟨k, v⟩ := kv
      obtain ⟨hnr, hwv, hwr⟩ := WFobj_cons_iff.mp hw
      have hszr : sizeOf rest ≤ n := by
        simp only [List.cons.sizeOf_spec] at he
        omega
      have hfm : ∀ dst₁ dst₂ : Obj,
          (∀ kv₁ ∈ rest, lookup dst₁ kv₁.1 = lookup dst₂ kv₁.1) →
          (rest.filterMap fun kv₁ =>
            if (lookup dst₁ kv₁.1).isSome then none else some kv₁.1) =
          rest.filterMap fun kv₁ =>
            if (lookup dst₂ kv₁.1).isSome then none else some kv₁.1 := by
        intro dst₁ dst₂ hagree
        apply List.filterMap_congr
        intro kv₁ h₁
        rw [hagree kv₁ h₁]
      rcases hlk : lookup dst k with _ | dv
      · rw [mergeEntries_cons_none hlk]
        have := ih rest hszr (setKey dst k v) ls pfx f hwr
        rw [this, keysList_setKey, hlk]
        have hagree : ∀ kv₁ ∈ rest,
            lookup (setKey dst k v) kv₁.1 = lookup dst kv₁.1 := by
          intro kv₁ h₁
          rw [lookup_setKey]
          simp [Ne.symm (mem_rest_ne_head hw h₁)]
        rw [hfm _ _ hagree]
        simp [hlk]
      · rcases hbo : bothObj v dv with _ | ⟨sm, dm⟩
        · rcases hde : deepEqual v dv with _ | _
          · cases f with
            | false =>
              rw [mergeEntries_cons_conflict hlk hbo hde]
              rw [ih rest hszr dst ls pfx false hwr]
              simp [hlk]
            | true =>
              rw [mergeEntries_cons_forced hlk hbo hde]
              rw [ih rest hszr (setKey dst k v) ls pfx true hwr]
              rw [keysList_setKey, hlk]
              have hagree : ∀ kv₁ ∈ rest,
                  lookup (setKey dst k v) kv₁.1 = lookup dst kv₁.1 := by
                intro kv₁ h₁
                rw [lookup_setKey]
                simp [Ne.symm (mem_rest_ne_head hw h₁)]
              rw [hfm _ _ hagree]
              simp [hlk]
          · rw [mergeEntries_cons_eq hlk hbo hde]
            rw [ih rest hszr dst ls pfx f hwr]
            simp [hlk]
        · obtain ⟨rfl, rfl⟩ := bothObj_eq_some.mp hbo
          rw [mergeEntries_cons_obj hlk]
          rw [ih rest hszr _ ls pfx f hwr]
          rw [keysList_setKey, hlk]
          have hagree : ∀ kv₁ ∈ rest,
              lookup (setKey dst k (.obj (mergeEntries dm sm (localSubOf ls k)
                (qualifiedKey pfx k) f).1)) kv₁.1 = lookup dst kv₁.1 := by
            intro kv₁ h₁
            rw [lookup_setKey]
            simp [Ne.symm (mem_rest_ne_head hw h₁)]
          rw [hfm _ _ hagree]
          simp [hlk]

/-- The level-final local-only pass over a merged sub-level reduces to a scan
of the original local keys: master keys appended by the merge are filtered
out by the in-master test. -/
theorem localOnly_flat (n : Nat) (sm : List (String × JValue))
    (hsz : sizeOf sm ≤ n) (dm : Obj) (ls : Option Obj)
    (pfx pfx₂ : String) (f : Bool) (hw : WFobj sm = true) :
    localOnlyKeys (mergeEntries dm sm ls pfx f).1 sm (some dm) pfx₂ =
      (keysList dm).filterMap fun k =>
        if (lookup sm k).isSome then none else some (qualifiedKey pfx₂ k) := by
  rw [localOnlyKeys_eq_keys, keysList_mergeEntries n sm hsz dm ls pfx f hw,
    List.filterMap_append]
  have h₂ : (List.filterMap (fun k =>
      if (lookup sm k).isSome = true then none
      else if (lookup dm k).isSome = true then some (qualifiedKey pfx₂ k) else none)
      (List.filterMap (fun kv =>
        if (lookup dm kv.1).isSome = true then none else some kv.1) sm)) = [] := by
    rw [List.filterMap_eq_nil_iff]
    intro k hk
    rw [List.mem_filterMap] at hk
    obtain ⟨kv, hkv, hsome⟩ := hk
    obtain ⟨k₁, v₁⟩ := kv
    have hke : k = k₁ := by
      by_cases hc : (lookup dm k₁).isSome = true
      · simp [hc] at hsome
      · simp [hc] at hsome
        exact hsome.symm
    subst hke
    have hsm : lookup sm k = some v₁ := lookup_of_mem_WF hw hkv
    simp [hsm]
  rw [h₂, List.append_nil]
  apply List.filterMap_congr
  intro k hk
  have hdm : (lookup dm k).isSome = true := mem_keysList.mp hk
  by_cases hc : (lookup sm k).isSome = true <;> simp [hc, hdm]

theorem vloSub_cons_obj {lo : Obj} {k : String} {sm dm : Obj}
    {rest : List (String × JValue)} {pfx : String}
    (h : lookup lo k = some (.obj dm)) :
    visitedLocalOnlySub lo ((k, .obj sm) :: rest) pfx =
      visitedLocalOnly dm sm (qualifiedKey pfx k) ++
        visitedLocalOnlySub lo rest pfx := by
  simp [visitedLocalOnlySub, h]

theorem vloSub_cons_none {lo : Obj} {k : String} {v : JValue}
    {rest : List (String × JValue)} {pfx : String} (h : lookup lo k = none) :
    visitedLocalOnlySub lo ((k, v) :: rest) pfx =
      visitedLocalOnlySub lo rest pfx := by
  cases v <;> simp [visitedLocalOnlySub, h]

theorem vloSub_cons_other {lo : Obj} {k : String} {v dv : JValue}
    {rest : List (String × JValue)} {pfx : String}
    (h : lookup lo k = some dv) (hno : bothObj v dv = none) :
    visitedLocalOnlySub lo ((k, v) :: rest) pfx =
      visitedLocalOnlySub lo rest pfx := by
  cases v <;> cases dv
  case obj.obj => simp [bothObj] at hno
  all_goals simp [visitedLocalOnlySub, h]

theorem vloSub_congr {e : List (String × JValue)} {d₁ d₂ : Obj}
    (h : ∀ kv ∈ e, lookup d₁ kv.1 = lookup d₂ kv.1) (pfx : String) :
    visitedLocalOnlySub d₁ e pfx = visitedLocalOnlySub d₂ e pfx := by
  induction e with
  | nil => simp [visitedLocalOnlySub]
  | cons kv rest ih =>
    obtain ⟨k, v⟩ := kv
    have hk : lookup d₁ k = lookup d₂ k := by simpa using h (k, v) (by simp)
    have hr := ih fun y hy => h y (by simp [hy])
    rw [visitedLocalOnlySub.eq_def]
    conv_rhs => rw [visitedLocalOnlySub.eq_def]
    dsimp only
    simp only [hk, hr]

/-- The LocalOnly entries produced inside the merge loop are exactly the
sub-level contributions of visitedLocalOnly, provided the loop's dst agrees
with the original local object on the master keys (as it does at every
visited level). -/
theorem localOnly_mergeEntries : ∀ n : Nat, ∀ e : List (String × JValue),
    sizeOf e ≤ n → ∀ dst lo : Obj, ∀ pfx : String, ∀ f : Bool,
      WFobj e = true →
      (∀ kv ∈ e, lookup dst kv.1 = lookup lo kv.1) →
      ((mergeEntries dst e (some lo) pfx f).2.localOnly : Multiset String) =
        (visitedLocalOnlySub dst e pfx : Multiset String) := by
  intro n
  induction n with
  | zero =>
    intro e he
    exact absurd he (by cases e <;> simp)
  | succ n ih =>
    intro e he dst lo pfx f hw hagree
    cases e with
    | nil => simp [mergeEntries, emptyAcc, visitedLocalOnlySub]
    | cons kv rest =>
      obtain ⟨k, v⟩ := kv
      obtain ⟨hnr, hwv, hwr⟩ := WFobj_cons_iff.mp hw
      have hszr : sizeOf rest ≤ n := by
        simp only [List.cons.sizeOf_spec] at he
        omega
      have hk0 : lookup dst k = lookup lo k := hagree (k, v) (by simp)
      have hagree_rest : ∀ kv₁ ∈ rest, lookup dst kv₁.1 = lookup lo kv₁.1 :=
        fun kv₁ h₁ => hagree kv₁ (by simp [h₁])
      have hset_agree : ∀ w : JValue, ∀ kv₁ ∈ rest,
          lookup (setKey dst k w) kv₁.1 = lookup lo kv₁.1 := by
        intro w kv₁ h₁
        rw [lookup_setKey]
        simp only [beq_iff_eq, if_neg (Ne.symm (mem_rest_ne_head hw h₁))]
        exact hagree_rest kv₁ h₁
      have hset_congr : ∀ w : JValue,
          visitedLocalOnlySub (setKey dst k w) rest pfx =
            visitedLocalOnlySub dst rest pfx := by
        intro w
        apply vloSub_congr
        intro kv₁ h₁
        rw [lookup_setKey]
        simp [Ne.symm (mem_rest_ne_head hw h₁)]
      rcases hlk : lookup dst k with _ | dv
      · rw [mergeEntries_cons_none hlk, vloSub_cons_none hlk]
        have := ih rest hszr (setKey dst k v) lo pfx f hwr (hset_agree v)
        rw [hset_congr v] at this
        simpa using this
      · rcases hbo : bothObj v dv with _ | ⟨sm, dm⟩
        · rcases hde : deepEqual v dv with _ | _
          · cases f with
            | false =>
              rw [mergeEntries_cons_conflict hlk hbo hde,
                vloSub_cons_other hlk hbo]
              have := ih rest hszr dst lo pfx false hwr hagree_rest
              simpa using this
            | true =>
              rw [mergeEntries_cons_forced hlk hbo hde,
                vloSub_cons_other hlk hbo]
              have := ih rest hszr (setKey dst k v) lo pfx true hwr (hset_agree v)
              rw [hset_congr v] at this
              simpa using this
          · rw [mergeEntries_cons_eq hlk hbo hde, vloSub_cons_other hlk hbo]
            have := ih rest hszr dst lo pfx f hwr hagree_rest
            simpa using this
        · obtain ⟨rfl, rfl⟩ := bothObj_eq_some.mp hbo
          have hwsm : WFobj sm = true := by simpa [WFv] using hwv
          have hszs : sizeOf sm ≤ n := by
            simp only [List.cons.sizeOf_spec, Prod.mk.sizeOf_spec,
              JValue.obj.sizeOf_spec] at he
            omega
          have hlsub : localSubOf (some lo) k = some dm := by
            simp [localSubOf, ← hk0, hlk]
          rw [mergeEntries_cons_obj hlk, vloSub_cons_obj hlk]
          have hsub := ih sm hszs dm dm (qualifiedKey pfx k) f hwsm
            (fun _ _ => rfl)
          have hflat := localOnly_flat n sm hszs dm (some dm)
            (qualifiedKey pfx k) (qualifiedKey pfx k) f hwsm
          have hrest := ih rest hszr
            (setKey dst k (.obj (mergeEntries dm sm (localSubOf (some lo) k)
              (qualifiedKey pfx k) f).1)) lo pfx f hwr (hset_agree _)
          rw [hset_congr _] at hrest
          simp only [hlsub] at hrest
          simp only [appendAcc, hlsub, visitedLocalOnly, ← Multiset.coe_add]
          rw [hflat, hsub, hrest]
          abel

/-- A local binding at a path where master holds nothing survives a
non-force merge unchanged. -/
theorem mergePreservesLocal : ∀ n : Nat, ∀ e : List (String × JValue),
    sizeOf e ≤ n → ∀ dst : Obj, ∀ ls : Option Obj, ∀ pfx : String,
      WFobj e = true →
      ∀ p : List String, ∀ v : JValue,
        getPathV (.obj dst) p = some v →
        getPathV (.obj e) p = none →
        getPathV (.obj (mergeEntries dst e ls pfx false).1) p = some v := by
  intro n
  induction n with
  | zero =>
    intro e he
    exact absurd he (by cases e <;> simp)
  | succ n ih =>
    intro e he dst ls pfx hw p v hl hm
    cases p with
    | nil => simp [getPathV] at hm
    | cons k tail =>
      have hex : ∃ w, lookup dst k = some w ∧ getPathV w tail = some v := by
        simp only [getPathV] at hl
        rcases hlk : lookup dst k with _ | w
        · rw [hlk] at hl
          simp at hl
        · rw [hlk] at hl
          exact ⟨w, rfl, hl⟩
      obtain ⟨w, hlkd, hwt⟩ := hex
      rcases hlke : lookup e k with _ | u
      · have hfr := mergeEntries_frame dst e ls pfx false k hlke
        simp only [getPathV, hfr, hlkd]
        exact hwt
      · have hmem : (k, u) ∈ e := mem_of_lookup hlke
        have hchar := lookup_mergeEntries_of_mem dst e ls pfx false hw k u hmem
        have hut : getPathV u tail = none := by
          simp only [getPathV, hlke] at hm
          exact hm
        rcases hbo : bothObj u w with _ | ⟨su, dw⟩
        · have hout : lookup (mergeEntries dst e ls pfx false).1 k = some w := by
            rw [hchar]
            by_cases hde : deepEqual u w = true <;> simp [hlkd, hbo, hde]
          simp only [getPathV, hout]
          exact hwt
        · obtain ⟨rfl, rfl⟩ := bothObj_eq_some.mp hbo
          have hwsu : WFobj su = true := by
            have := WFv_of_mem_WF hw hmem
            simpa [WFv] using this
          have hszsu : sizeOf su ≤ n := by
            have h₁ := List.sizeOf_lt_of_mem hmem
            have h₂ : sizeOf su < sizeOf (k, JValue.obj su) := by
              simp [Prod.mk.sizeOf_spec, JValue.obj.sizeOf_spec]
              omega
            omega
          have hsub := ih su hszsu dw (localSubOf ls k) (qualifiedKey pfx k)
            hwsu tail v hwt hut
          have hout : lookup (mergeEntries dst e ls pfx false).1 k =
              some (.obj (mergeEntries dw su (localSubOf ls k)
                (qualifiedKey pfx k) false).1) := by
            rw [hchar]
            simp [hlkd, hbo]
          simp only [getPathV, hout]
          exact hsub

/-- Claim C6, counterexample: with empty master and local a ↦ (x ↦ 1), the
qualified key "a.x" is present in local and absent from master, yet
LocalOnly records only the subtree root "a"; and with master a ↦ "s" and
force, the local key a.x disappears from the merged tree entirely. -/
theorem claim6_localonly_counterexample :
    getPathV (.obj [("a", JValue.obj [("x", JValue.num 1)])]) ["a", "x"]
      = some (JValue.num 1) ∧
    getPathV (.obj ([] : Obj)) ["a", "x"] = none ∧
    (Merge [] [("a", JValue.obj [("x", JValue.num 1)])] false).LocalOnly
      = ["a"] ∧
    (Merge [] [("a", JValue.obj [("x", JValue.num 1)])] true).LocalOnly
      = ["a"] ∧
    getPathV (.obj [("a", JValue.str "s")]) ["a", "x"] = none ∧
    getPathV (.obj (Merge [("a", JValue.str "s")]
      [("a", JValue.obj [("x", JValue.num 1)])] true).Merged) ["a", "x"]
      = none := by
  refine ⟨?_, ?_, ?_, ?_, ?_, ?_⟩ <;>
    simp [Merge, mergeEntries, getPathV, lookup, setKey, localOnlyKeys,
      qualifiedKey, sortStrings, insertSorted, sortConflicts, insertConflict,
      appendAcc, emptyAcc, localSubOf, deepEqual]

/-- Claim C6, amended: under force=false, every qualified key present in the
original local input and absent from master at that path stays present with
its value unchanged in the merged tree (under force=true a forced master
overwrite above the key can remove it).  LocalOnly records, at each level
the recursion visits, exactly the local keys absent from master at that
level: the topmost local-only key of a subtree is listed once, keys below it
are preserved but not individually listed, and keys freshly added from
master (being master keys) are never listed. -/
theorem claim6_localonly_amended (master locl : Obj) (force : Bool)
    (hm : WFobj master = true) :
    (∀ p : List String, ∀ v : JValue,
      getPathV (.obj locl) p = some v →
      getPathV (.obj master) p = none →
      getPathV (.obj (Merge master locl false).Merged) p = some v) ∧
    ((Merge master locl force).LocalOnly : Multiset String) =
      (visitedLocalOnly locl master "" : Multiset String) := by
  constructor
  · intro p v hv hm'
    simp only [Merge]
    exact mergePreservesLocal (sizeOf master) master (le_refl _) locl
      (some locl) "" hm p v hv hm'
  · simp only [Merge]
    have h₁ := localOnly_mergeEntries (sizeOf master) master (le_refl _)
      locl locl "" force hm (fun _ _ => rfl)
    have h₂ := localOnly_flat (sizeOf master) master (le_refl _) locl
      (some locl) "" "" force hm
    rw [coe_sortStrings]
    simp only [visitedLocalOnly, ← Multiset.coe_add]
    rw [h₁, h₂]
    abel

/-- Claim C6, witness: concrete local-only keys at two levels. -/
theorem claim6_localonly_amended_witness :
    WFobj [("o", JValue.obj [("m", JValue.num 1)])] = true ∧
    ((Merge [("o", JValue.obj [("m", JValue.num 1)])]
        [("o", JValue.obj [("m", JValue.num 1), ("ly", JValue.num 2)]),
          ("loc", JValue.num 3)] false).LocalOnly : Multiset String) =
      (visitedLocalOnly
        [("o", JValue.obj [("m", JValue.num 1), ("ly", JValue.num 2)]),
          ("loc", JValue.num 3)]
        [("o", JValue.obj [("m", JValue.num 1)])] "" : Multiset String) :=
  ⟨by decide,
    (claim6_localonly_amended [("o", JValue.obj [("m", JValue.num 1)])]
      [("o", JValue.obj [("m", JValue.num 1), ("ly", JValue.num 2)]),
        ("loc", JValue.num 3)] false (by decide)).2⟩

/-- Every conflict path earns a Conflict record in the non-force run: the
record's key is the dotted qualified key of the path and it carries the
master and local values verbatim, which are present on both sides at the
path, not both objects, and not deeply equal. -/
theorem conflictRecordedFalse : ∀ n : Nat, ∀ e : List (String × JValue), sizeOf e ≤ n →
    ∀ d : Obj, ∀ ls : Option Obj, ∀ pfx : String, WFobj e = true →
      ∀ p ∈ conflictPaths d e, ∃ mv lv : JValue,
        getPathV (.obj e) p = some mv ∧ getPathV (.obj d) p = some lv ∧
        bothObj mv lv = none ∧ deepEqual mv lv = false ∧
        Conflict.mk (p.foldl qualifiedKey pfx) mv lv ∈
          (mergeEntries d e ls pfx false).2.conflicts := by
  intro n
  induction n with
  | zero =>
    intro e he
    exact absurd he (by cases e <;> simp)
  | succ n ih =>
    intro e he d ls pfx hw p hp
    cases e with
    | nil => simp [conflictPaths] at hp
    | cons kv rest =>
      obtain ⟨k, v⟩ := kv
      obtain ⟨hnr, hwv, hwr⟩ := WFobj_cons_iff.mp hw
      have hszr : sizeOf rest ≤ n := by
        simp only [List.cons.sizeOf_spec] at he
        omega
      have hne_rest : ∀ kv₁ ∈ rest, kv₁.1 ≠ k := by
        intro kv₁ hkv₁
        obtain ⟨k₁, v₁⟩ := kv₁
        exact mem_rest_ne_head hw hkv₁
      rcases hlk : lookup d k with _ | dv
      · -- key absent from dst: Added, no conflict here
        rw [conflictPaths_cons_none hlk] at hp
        obtain ⟨k', tail, rfl, hk'⟩ := conflictPaths_shape p hp
        have hk'ne : k' ≠ k := by
          intro hcon
          subst hcon
          rw [hnr] at hk'
          simp at hk'
        have hcp : conflictPaths d rest = conflictPaths (setKey d k v) rest := by
          apply conflictPaths_congr
          intro kv₁ h₁
          have hne : ¬(k = kv₁.1) := Ne.symm (hne_rest kv₁ h₁)
          rw [lookup_setKey]
          simp [hne]
        rw [hcp] at hp
        obtain ⟨mv, lv, h1, h2, h3, h4, h5⟩ :=
          ih rest hszr (setKey d k v) ls pfx hwr (k' :: tail) hp
        refine ⟨mv, lv, ?_, ?_, h3, h4, ?_⟩
        · rw [getPathV_obj_head (show lookup ((k, v) :: rest) k' = lookup rest k' by
            simp [lookup, Ne.symm hk'ne]) tail]
          exact h1
        · rw [getPathV_obj_head (show lookup d k' = lookup (setKey d k v) k' by
            rw [lookup_setKey]; simp [Ne.symm hk'ne]) tail]
          exact h2
        · rw [mergeEntries_cons_none hlk]
          exact h5
      · rcases hbo : bothObj v dv with _ | ⟨sm, dm⟩
        · rcases hde : deepEqual v dv with _ | _
          · -- conflict branch: the head path is recorded right here
            rw [conflictPaths_cons_conflict hlk hbo hde] at hp
            rcases List.mem_cons.mp hp with hph | hpt
            · subst hph
              refine ⟨v, dv, ?_, ?_, hbo, hde, ?_⟩
              · simp [getPathV, lookup]
              · simp [getPathV, hlk]
              · rw [mergeEntries_cons_conflict hlk hbo hde]
                exact List.mem_cons_self _ _
            · obtain ⟨k', tail, rfl, hk'⟩ := conflictPaths_shape _ hpt
              have hk'ne : k' ≠ k := by
                intro hcon
                subst hcon
                rw [hnr] at hk'
                simp at hk'
              obtain ⟨mv, lv, h1, h2, h3, h4, h5⟩ :=
                ih rest hszr d ls pfx hwr (k' :: tail) hpt
              refine ⟨mv, lv, ?_, h2, h3, h4, ?_⟩
              · rw [getPathV_obj_head (show lookup ((k, v) :: rest) k' = lookup rest k' by
                  simp [lookup, Ne.symm hk'ne]) tail]
                exact h1
              · rw [mergeEntries_cons_conflict hlk hbo hde]
                exact List.mem_cons_of_mem _ h5
          · -- matching branch
            rw [conflictPaths_cons_eq hlk hbo hde] at hp
            obtain ⟨k', tail, rfl, hk'⟩ := conflictPaths_shape _ hp
            have hk'ne : k' ≠ k := by
              intro hcon
              subst hcon
              rw [hnr] at hk'
              simp at hk'
            obtain ⟨mv, lv, h1, h2, h3, h4, h5⟩ :=
              ih rest hszr d ls pfx hwr (k' :: tail) hp
            refine ⟨mv, lv, ?_, h2, h3, h4, ?_⟩
            · rw [getPathV_obj_head (show lookup ((k, v) :: rest) k' = lookup rest k' by
                simp [lookup, Ne.symm hk'ne]) tail]
              exact h1
            · rw [mergeEntries_cons_eq hlk hbo hde]
              exact h5
        · -- object/object: descend
          obtain ⟨hv, hdv⟩ := bothObj_eq_some.mp hbo
          subst hv
          subst hdv
          rw [conflictPaths_cons_obj hlk] at hp
          rcases List.mem_append.mp hp with hpl | hpr
          · obtain ⟨p', hp', rfl⟩ := List.mem_map.mp hpl
            have hss : sizeOf sm ≤ n := by
              simp only [List.cons.sizeOf_spec, Prod.mk.sizeOf_spec,
                JValue.obj.sizeOf_spec] at he
              omega
            have hwsm : WFobj sm = true := by simpa [WFv] using hwv
            obtain ⟨mv, lv, h1, h2, h3, h4, h5⟩ :=
              ih sm hss dm (localSubOf ls k) (qualifiedKey pfx k) hwsm p' hp'
            refine ⟨mv, lv, ?_, ?_, h3, h4, ?_⟩
            · simp only [getPathV]
              rw [show lookup ((k, JValue.obj sm) :: rest) k = some (.obj sm) by
                simp [lookup]]
              exact h1
            · simp only [getPathV]
              rw [hlk]
              exact h2
            · rw [mergeEntries_cons_obj hlk]
              exact List.mem_append_left _ h5
          · obtain ⟨k', tail, rfl, hk'⟩ := conflictPaths_shape _ hpr
            have hk'ne : k' ≠ k := by
              intro hcon
              subst hcon
              rw [hnr] at hk'
              simp at hk'
            have hcp : conflictPaths d rest = conflictPaths
                (setKey d k (.obj (mergeEntries dm sm (localSubOf ls k)
                  (qualifiedKey pfx k) false).1)) rest := by
              apply conflictPaths_congr
              intro kv₁ h₁
              have hne : ¬(k = kv₁.1) := Ne.symm (hne_rest kv₁ h₁)
              rw [lookup_setKey]
              simp [hne]
            rw [hcp] at hpr
            obtain ⟨mv, lv, h1, h2, h3, h4, h5⟩ :=
              ih rest hszr _ ls pfx hwr (k' :: tail) hpr
            refine ⟨mv, lv, ?_, ?_, h3, h4, ?_⟩
            · rw [getPathV_obj_head (show lookup ((k, JValue.obj sm) :: rest) k'
                  = lookup rest k' by simp [lookup, Ne.symm hk'ne]) tail]
              exact h1
            · rw [getPathV_obj_head (show lookup d k'
                  = lookup (setKey d k (.obj (mergeEntries dm sm (localSubOf ls k)
                    (qualifiedKey pfx k) false).1)) k' by
                rw [lookup_setKey]; simp [Ne.symm hk'ne]) tail]
              exact h2
            · rw [mergeEntries_cons_obj hlk]
              exact List.mem_append_right _ h5

/-- Every conflict path's dotted qualified key is recorded as Forced by the
force run. -/
theorem conflictRecordedTrue : ∀ n : Nat, ∀ e : List (String × JValue), sizeOf e ≤ n →
    ∀ d : Obj, ∀ ls : Option Obj, ∀ pfx : String, WFobj e = true →
      ∀ p ∈ conflictPaths d e,
        p.foldl qualifiedKey pfx ∈ (mergeEntries d e ls pfx true).2.forced := by
  intro n
  induction n with
  | zero =>
    intro e he
    exact absurd he (by cases e <;> simp)
  | succ n ih =>
    intro e he d ls pfx hw p hp
    cases e with
    | nil => simp [conflictPaths] at hp
    | cons kv rest =>
      obtain ⟨k, v⟩ := kv
      obtain ⟨hnr, hwv, hwr⟩ := WFobj_cons_iff.mp hw
      have hszr : sizeOf rest ≤ n := by
        simp only [List.cons.sizeOf_spec] at he
        omega
      have hne_rest : ∀ kv₁ ∈ rest, kv₁.1 ≠ k := by
        intro kv₁ hkv₁
        obtain ⟨k₁, v₁⟩ := kv₁
        exact mem_rest_ne_head hw hkv₁
      have hcongr : ∀ w : JValue, conflictPaths d rest
          = conflictPaths (setKey d k w) rest := by
        intro w
        apply conflictPaths_congr
        intro kv₁ h₁
        have hne : ¬(k = kv₁.1) := Ne.symm (hne_rest kv₁ h₁)
        rw [lookup_setKey]
        simp [hne]
      rcases hlk : lookup d k with _ | dv
      · rw [conflictPaths_cons_none hlk, hcongr v] at hp
        rw [mergeEntries_cons_none hlk]
        exact ih rest hszr (setKey d k v) ls pfx hwr p hp
      · rcases hbo : bothObj v dv with _ | ⟨sm, dm⟩
        · rcases hde : deepEqual v dv with _ | _
          · rw [conflictPaths_cons_conflict hlk hbo hde] at hp
            rw [mergeEntries_cons_forced hlk hbo hde]
            rcases List.mem_cons.mp hp with hph | hpt
            · subst hph
              exact List.mem_cons_self _ _
            · rw [hcongr v] at hpt
              exact List.mem_cons_of_mem _
                (ih rest hszr (setKey d k v) ls pfx hwr p hpt)
          · rw [conflictPaths_cons_eq hlk hbo hde] at hp
            rw [mergeEntries_cons_eq hlk hbo hde]
            exact ih rest hszr d ls pfx hwr p hp
        · obtain ⟨hv, hdv⟩ := bothObj_eq_some.mp hbo
          subst hv
          subst hdv
          rw [conflictPaths_cons_obj hlk] at hp
          rw [mergeEntries_cons_obj hlk]
          rcases List.mem_append.mp hp with hpl | hpr
          · obtain ⟨p', hp', rfl⟩ := List.mem_map.mp hpl
            have hss : sizeOf sm ≤ n := by
              simp only [List.cons.sizeOf_spec, Prod.mk.sizeOf_spec,
                JValue.obj.sizeOf_spec] at he
              omega
            have hwsm : WFobj sm = true := by simpa [WFv] using hwv
            exact List.mem_append_left _
              (ih sm hss dm (localSubOf ls k) (qualifiedKey pfx k) hwsm p' hp')
          · rw [hcongr (.obj (mergeEntries dm sm (localSubOf ls k)
              (qualifiedKey pfx k) true).1)] at hpr
            exact List.mem_append_right _ (ih rest hszr _ ls pfx hwr p hpr)

/-- Completeness of conflictPaths: any non-empty path at which both trees
hold values that are not both objects and are not deeply equal is a
conflict path (such a path can only exist through object/object ancestors,
which is exactly where the merge recursion descends). -/
theorem conflictPaths_complete : ∀ n : Nat, ∀ e : List (String × JValue), sizeOf e ≤ n →
    ∀ d : Obj, ∀ p : List String, ∀ mv lv : JValue,
      getPathV (.obj e) p = some mv → getPathV (.obj d) p = some lv →
      bothObj mv lv = none → deepEqual mv lv = false →
      p ≠ [] → p ∈ conflictPaths d e := by
  intro n
  induction n with
  | zero =>
    intro e he
    exact absurd he (by cases e <;> simp)
  | succ n ih =>
    intro e he d p mv lv hm hl hbo hde hpne
    cases p with
    | nil => exact absurd rfl hpne
    | cons k tail =>
      cases e with
      | nil => simp [getPathV, lookup] at hm
      | cons kv rest =>
        obtain ⟨k₀, v⟩ := kv
        have hszr : sizeOf rest ≤ n := by
          simp only [List.cons.sizeOf_spec] at he
          omega
        by_cases hk : k₀ = k
        · subst hk
          have hm' : getPathV v tail = some mv := by
            simp only [getPathV] at hm
            rw [show lookup ((k₀, v) :: rest) k₀ = some v by simp [lookup]] at hm
            exact hm
          rcases hld : lookup d k₀ with _ | w
          · simp only [getPathV] at hl
            rw [hld] at hl
            exact Option.noConfusion hl
          · have hl' : getPathV w tail = some lv := by
              simp only [getPathV] at hl
              rw [hld] at hl
              exact hl
            cases tail with
            | nil =>
              have hmv : v = mv := by simpa [getPathV] using hm'
              have hlv : w = lv := by simpa [getPathV] using hl'
              subst hmv
              subst hlv
              rw [conflictPaths_cons_conflict hld hbo hde]
              exact List.mem_cons_self _ _
            | cons t ts =>
              obtain ⟨sm, rfl⟩ : ∃ sm, v = JValue.obj sm := by
                cases v with
                | obj sm => exact ⟨sm, rfl⟩
                | null => exact absurd hm' (by simp [getPathV])
                | bool b => exact absurd hm' (by simp [getPathV])
                | num a => exact absurd hm' (by simp [getPathV])
                | str a => exact absurd hm' (by simp [getPathV])
                | arr xs => exact absurd hm' (by simp [getPathV])
              obtain ⟨dm, rfl⟩ : ∃ dm, w = JValue.obj dm := by
                cases w with
                | obj dm => exact ⟨dm, rfl⟩
                | null => exact absurd hl' (by simp [getPathV])
                | bool b => exact absurd hl' (by simp [getPathV])
                | num a => exact absurd hl' (by simp [getPathV])
                | str a => exact absurd hl' (by simp [getPathV])
                | arr xs => exact absurd hl' (by simp [getPathV])
              have hss : sizeOf sm ≤ n := by
                simp only [List.cons.sizeOf_spec, Prod.mk.sizeOf_spec,
                  JValue.obj.sizeOf_spec] at he
                omega
              have hsub := ih sm hss dm (t :: ts) mv lv hm' hl' hbo hde (by simp)
              rw [conflictPaths_cons_obj hld]
              exact List.mem_append_left _ (List.mem_map.mpr ⟨t :: ts, hsub, rfl⟩)
        · have hm' : getPathV (.obj rest) (k :: tail) = some mv := by
            simp only [getPathV] at hm ⊢
            rw [show lookup ((k₀, v) :: rest) k = lookup rest k by
              simp [lookup, hk]] at hm
            exact hm
          have hmem := ih rest hszr d (k :: tail) mv lv hm' hl hbo hde (by simp)
          simp only [conflictPaths]
          exact List.mem_append_right _ hmem

/-- Claim C3: for any master and local, force mode turns exactly the
non-force Conflicts into Forced entries (same qualified keys): Added,
Matching and LocalOnly are identical in the two runs, the non-force run
records no Forced entry and the force run no Conflict, at every conflicting
path the non-force merged tree keeps the local value while the force merged
tree holds the master value, every conflicting path is recorded — as a
Conflict carrying the master and local values verbatim in the non-force run
and as a Forced key in the force run — and conversely every shared key
whose two values are not both objects and are not deeply equal is a
conflicting path. -/
theorem claim3_force_duality (master locl : Obj) (hm : WFobj master = true) :
    (Merge master locl false).Added = (Merge master locl true).Added ∧
    (Merge master locl false).Matching = (Merge master locl true).Matching ∧
    (Merge master locl false).LocalOnly = (Merge master locl true).LocalOnly ∧
    (Merge master locl true).Forced =
      (Merge master locl false).Conflicts.map Conflict.Key ∧
    (Merge master locl false).Forced = [] ∧
    (Merge master locl true).Conflicts = [] ∧
    (∀ p ∈ conflictPaths locl master,
      getPathV (.obj (Merge master locl false).Merged) p =
        getPathV (.obj locl) p ∧
      getPathV (.obj (Merge master locl true).Merged) p =
        getPathV (.obj master) p) ∧
    (∀ p ∈ conflictPaths locl master, ∃ mv lv : JValue,
      getPathV (.obj master) p = some mv ∧
      getPathV (.obj locl) p = some lv ∧
      bothObj mv lv = none ∧ deepEqual mv lv = false ∧
      Conflict.mk (p.foldl qualifiedKey "") mv lv ∈
        (Merge master locl false).Conflicts ∧
      p.foldl qualifiedKey "" ∈ (Merge master locl true).Forced) ∧
    (∀ (p : List String) (mv lv : JValue), p ≠ [] →
      getPathV (.obj master) p = some mv →
      getPathV (.obj locl) p = some lv →
      bothObj mv lv = none → deepEqual mv lv = false →
      p ∈ conflictPaths locl master) := by
  obtain ⟨i₁, i₂, i₃, i₄, i₅, i₆, i₇, i₈⟩ :=
    mergeForcePair (sizeOf master) master (le_refl _) locl locl (some locl) "" hm
      (fun _ _ => rfl) rfl
  have hlo : localOnlyKeys (mergeEntries locl master (some locl) "" false).1
      master (some locl) "" =
      localOnlyKeys (mergeEntries locl master (some locl) "" true).1
        master (some locl) "" := by
    rw [localOnlyKeys_eq_keys, localOnlyKeys_eq_keys, i₇]
  refine ⟨?_, ?_, ?_, ?_, ?_, ?_, ?_, ?_, ?_⟩
  · simp only [Merge]
    rw [i₁]
  · simp only [Merge]
    rw [i₂]
  · simp only [Merge]
    rw [i₃, hlo]
  · simp only [Merge]
    rw [i₄, map_key_sortConflicts]
  · simp only [Merge]
    rw [i₅]
    rfl
  · simp only [Merge]
    rw [i₆]
    rfl
  · simp only [Merge]
    exact i₈
  · intro p hp
    obtain ⟨mv, lv, h1, h2, h3, h4, h5⟩ :=
      conflictRecordedFalse (sizeOf master) master (le_refl _) locl (some locl)
        "" hm p hp
    have h6 := conflictRecordedTrue (sizeOf master) master (le_refl _) locl
      (some locl) "" hm p hp
    refine ⟨mv, lv, h1, h2, h3, h4, ?_, ?_⟩
    · simp only [Merge]
      exact (sortConflicts_perm _).mem_iff.mpr h5
    · simp only [Merge]
      exact mem_sortStrings.mpr h6
  · intro p mv lv hpne h1 h2 h3 h4
    exact conflictPaths_complete (sizeOf master) master (le_refl _) locl p mv lv
      h1 h2 h3 h4 hpne

/-- Claim C3, witness: a concrete conflicting key, Forced under force with
the same key the non-force run reports as a Conflict. -/
theorem claim3_force_duality_witness :
    WFobj [("c", JValue.num 1)] = true ∧
    (Merge [("c", JValue.num 1)] [("c", JValue.num 2)] true).Forced =
      (Merge [("c", JValue.num 1)] [("c", JValue.num 2)] false).Conflicts.map
        Conflict.Key :=
  ⟨by decide,
    (claim3_force_duality [("c", JValue.num 1)] [("c", JValue.num 2)]
      (by decide)).2.2.2.1⟩

/-- Claim C4: merging the same master again into an already-merged tree is a
no-op for local-preferred (non-force) mode: the second run's merged tree
equals its input tree, it reports no Added entry, and its Conflicts are
exactly those of the first run (none new). -/
theorem claim4_idempotence (master locl : Obj)
    (hm : WFobj master = true) (hl : WFobj locl = true) :
    (Merge master (Merge master locl false).Merged false).Added = [] ∧
    (Merge master (Merge master locl false).Merged false).Conflicts =
      (Merge master locl false).Conflicts ∧
    (Merge master (Merge master locl false).Merged false).Merged =
      (Merge master locl false).Merged := by
  obtain ⟨i₁, i₂, i₃⟩ :=
    mergeRerun (sizeOf master) master (le_refl _) locl (some locl)
      (some (mergeEntries locl master (some locl) "" false).1) "" hm hl
  refine ⟨?_, ?_, ?_⟩
  · simp only [Merge]
    rw [i₂]
    rfl
  · simp only [Merge]
    rw [i₃]
  · simp only [Merge]
    exact i₁

/-- Claim C4, witness: a concrete master/local pair with one conflict and
one added key. -/
theorem claim4_idempotence_witness :
    WFobj [("c", JValue.num 1), ("n", JValue.num 2)] = true ∧
    WFobj [("c", JValue.num 3)] = true ∧
    (Merge [("c", JValue.num 1), ("n", JValue.num 2)]
        (Merge [("c", JValue.num 1), ("n", JValue.num 2)]
          [("c", JValue.num 3)] false).Merged false).Conflicts =
      (Merge [("c", JValue.num 1), ("n", JValue.num 2)]
        [("c", JValue.num 3)] false).Conflicts :=
  ⟨by decide, by decide,
    (claim4_idempotence [("c", JValue.num 1), ("n", JValue.num 2)]
      [("c", JValue.num 3)] (by decide) (by decide)).2.1⟩

/-- Claim C5: an object/scalar mismatch at a shared key is an ordinary
conflict, not an error: merging master k ↦ (n ↦ "v") into local
k ↦ "scalar" without force keeps "scalar" in the merged tree and records
exactly one conflict for key "k" holding both values verbatim. -/
theorem claim5_scalar_object_conflict :
    (Merge [("k", JValue.obj [("n", JValue.str "v")])]
        [("k", JValue.str "scalar")] false).Merged
      = [("k", JValue.str "scalar")] ∧
    (Merge [("k", JValue.obj [("n", JValue.str "v")])]
        [("k", JValue.str "scalar")] false).Conflicts
      = [⟨"k", JValue.obj [("n", JValue.str "v")], JValue.str "scalar"⟩] := by
  constructor <;>
    simp [Merge, mergeEntries, deepEqual, lookup, setKey, localOnlyKeys,
      qualifiedKey, sortStrings, insertSorted, sortConflicts, insertConflict,
      appendAcc, emptyAcc, localSubOf]


end mergespec

namespace heapmodel

/-- Claim C2, counterexample: Merge mutates its local input at depth.  With
master cell 0 denoting a ↦ (x ↦ 1) and local cell 2 denoting a ↦ (empty
object), running Merge changes the tree denoted by the local argument
itself: local's nested object gains the key x, because the internal copy of
local is only one level deep and nested maps are shared by reference. -/
theorem claim2_purity_counterexample :
    readTree 10 exHeap (GVal.gmap 2)
      = some (.obj [("a", mergespec.JValue.obj [])]) ∧
    readTree 10 (MergeH 10 exHeap 0 2 false).1 (GVal.gmap 2)
      = some (.obj [("a", mergespec.JValue.obj
          [("x", mergespec.JValue.num 1)])]) := by
  constructor
  · simp [readTree, readFields, readArr, hget, glookup, exHeap]
  · simp [readTree, readFields, readArr, MergeH, mergeIntoH, mergeEntriesH,
      hget, hset, glookup, gset, freshRef, exHeap, deepEqualH]

/-- Claim C2, amended: merge is total — for every pair of object trees and
force flag it yields a Result whose merged tree binds exactly the union of
the two inputs' top-level keys (proved for all inputs) — but it is not
mutation-free: the internal copy of local is shallow (top level only), so
nested maps are shared by reference with the local argument.  In the
exhibited heap run over master a ↦ (x ↦ 1) and local a ↦ (empty object),
the master tree reads back unchanged and the heap result reads back as the
pure model's merged tree, while the local argument is mutated in place to
denote a ↦ (x ↦ 1). -/
theorem claim2_purity_amended :
    (∀ (master locl : mergespec.Obj) (force : Bool) (k : String),
      (mergespec.lookup (mergespec.Merge master locl force).Merged k).isSome
        = ((mergespec.lookup locl k).isSome
            || (mergespec.lookup master k).isSome)) ∧
    readTree 10 (MergeH 10 exHeap 0 2 false).1 (GVal.gmap 0)
      = readTree 10 exHeap (GVal.gmap 0) ∧
    readTree 10 (MergeH 10 exHeap 0 2 false).1
        (GVal.gmap (MergeH 10 exHeap 0 2 false).2)
      = some (.obj (mergespec.Merge
          [("a", mergespec.JValue.obj [("x", mergespec.JValue.num 1)])]
          [("a", mergespec.JValue.obj [])] false).Merged) ∧
    readTree 10 (MergeH 10 exHeap 0 2 false).1 (GVal.gmap 2)
      = some (.obj [("a", mergespec.JValue.obj
          [("x", mergespec.JValue.num 1)])]) := by
  refine ⟨?_, ?_, ?_, ?_⟩
  · intro master locl force k
    simp only [mergespec.Merge]
    exact mergespec.mergeEntries_keys locl master (some locl) "" force k
  · simp [readTree, readFields, readArr, MergeH, mergeIntoH, mergeEntriesH,
      hget, hset, glookup, gset, freshRef, exHeap, deepEqualH]
  · simp [readTree, readFields, readArr, MergeH, mergeIntoH, mergeEntriesH,
      hget, hset, glookup, gset, freshRef, exHeap, deepEqualH,
      mergespec.Merge, mergespec.mergeEntries, mergespec.lookup,
      mergespec.setKey, mergespec.localOnlyKeys, mergespec.localSubOf,
      mergespec.deepEqual, mergespec.qualifiedKey, mergespec.emptyAcc,
      mergespec.appendAcc]
  · simp [readTree, readFields, readArr, MergeH, mergeIntoH, mergeEntriesH,
      hget, hset, glookup, gset, freshRef, exHeap, deepEqualH]


end heapmodel

namespace dirsync

theorem alookup_isSome_of_mem {es : List (String × FSNode)} {q : String} {v : FSNode}
    (h : (q, v) ∈ es) : (alookup es q).isSome = true := by
  induction es with
  | nil => cases h
  | cons e rest ih =>
    rcases List.mem_cons.mp h with h' | h'
    · rw [← h']; simp [alookup]
    · obtain ⟨n, w⟩ := e
      by_cases hn : n = q
      · simp [alookup, hn]
      · simp [alookup, hn, ih h']

theorem name_ne_of_alookup_none {es : List (String × FSNode)} {n q : String} {v : FSNode}
    (hnone : alookup es n = none) (hmem : (q, v) ∈ es) : ¬ q = n := by
  intro h
  subst h
  have h' := alookup_isSome_of_mem hmem
  rw [hnone] at h'
  exact Bool.noConfusion h'

theorem alookup_aset_self (es : List (String × FSNode)) (q : String) (v : FSNode) :
    alookup (aset es q v) q = some v := by
  induction es with
  | nil => simp [aset, alookup]
  | cons e rest ih =>
    obtain ⟨n, w⟩ := e
    by_cases hn : n = q
    · simp [aset, hn, alookup]
    · simp [aset, hn, alookup, ih]

theorem alookup_aset_ne (es : List (String × FSNode)) (q r : String) (v : FSNode)
    (h : ¬ q = r) : alookup (aset es q v) r = alookup es r := by
  induction es with
  | nil => simp [aset, alookup, h]
  | cons e rest ih =>
    obtain ⟨n, w⟩ := e
    by_cases hn : n = q
    · subst hn; simp [aset, alookup, h]
    · simp [aset, hn, alookup, ih]

theorem copyFileM_fst_ne (dstEs : List (String × FSNode)) (n c : String) (m : Nat)
    (q : String) (h : ¬ n = q) :
    alookup (copyFileM dstEs n c m).1 q = alookup dstEs q := by
  cases hl : alookup dstEs n with
  | none => simp [copyFileM, hl, alookup_aset_ne _ _ _ _ h]
  | some v => cases v <;> simp [copyFileM, hl, alookup_aset_ne _ _ _ _ h]

theorem copyFileM_success_lookup (dstEs : List (String × FSNode)) (n c : String) (m : Nat)
    (hok : (copyFileM dstEs n c m).2 = none) :
    alookup (copyFileM dstEs n c m).1 n = some (.file c m) := by
  cases hl : alookup dstEs n with
  | none => simp [copyFileM, hl, alookup_aset_self]
  | some v =>
    cases v <;> simp [copyFileM, hl, alookup_aset_self]
    simp [copyFileM, hl] at hok

theorem copyEntriesD_frame :
    ∀ bound srcEs, sizeOf srcEs ≤ bound → ∀ dstEs (q : String),
      alookup srcEs q = none →
      alookup (copyEntriesD srcEs dstEs).1 q = alookup dstEs q := by
  intro bound
  induction bound with
  | zero =>
    intro srcEs hs dstEs q hq
    cases srcEs with
    | nil => simp [copyEntriesD]
    | cons e rest =>
      exfalso; simp only [List.cons.sizeOf_spec] at hs; omega
  | succ k ih =>
    intro srcEs hs dstEs q hq
    cases srcEs with
    | nil => simp [copyEntriesD]
    | cons e rest =>
      obtain ⟨n, node⟩ := e
      have hnq : ¬ n = q := by
        intro h
        rw [alookup, if_pos (beq_iff_eq.mpr h)] at hq
        exact Option.noConfusion hq
      have hq' : alookup rest q = none := by
        rw [alookup, if_neg (by simp [hnq])] at hq
        exact hq
      have hsr : sizeOf rest ≤ k := by
        simp only [List.cons.sizeOf_spec, Prod.mk.sizeOf_spec] at hs
        omega
      cases node with
      | file c m =>
        simp only [copyEntriesD]
        rcases hcf : copyFileM dstEs n c m with ⟨d₁, oe⟩
        have hd₁ : alookup d₁ q = alookup dstEs q := by
          have h := copyFileM_fst_ne dstEs n c m q hnq
          rw [hcf] at h
          exact h
        cases oe with
        | none => simp only []; rw [ih rest hsr d₁ q hq', hd₁]
        | some e => simpa using hd₁
      | dir es =>
        have hses : sizeOf es ≤ k := by
          simp only [List.cons.sizeOf_spec, Prod.mk.sizeOf_spec,
            FSNode.dir.sizeOf_spec] at hs
          omega
        simp only [copyEntriesD]
        cases hl : alookup dstEs n with
        | none =>
          simp only []
          rcases hcd : copyEntriesD es [] with ⟨sub, ce⟩
          cases ce with
          | none =>
            simp only []
            rw [ih rest hsr _ q hq', alookup_aset_ne _ _ _ _ hnq]
          | some e => simp [alookup_aset_ne _ _ _ _ hnq]
        | some v =>
          cases v with
          | file c' m' => simp
          | special => simp
          | dir es₀ =>
            simp only []
            rcases hcd : copyEntriesD es es₀ with ⟨sub, ce⟩
            cases ce with
            | none =>
              simp only []
              rw [ih rest hsr _ q hq', alookup_aset_ne _ _ _ _ hnq]
            | some e => simp [alookup_aset_ne _ _ _ _ hnq]
      | special =>
        simp only [copyEntriesD]
        exact ih rest hsr dstEs q hq'

theorem copyEntriesD_fresh :
    ∀ bound srcEs, sizeOf srcEs ≤ bound → WFentries srcEs = true →
      ∀ dstEs, (∀ e ∈ srcEs, alookup dstEs e.1 = none) →
      (copyEntriesD srcEs dstEs).2 = none := by
  intro bound
  induction bound with
  | zero =>
    intro srcEs hs _ dstEs _
    cases srcEs with
    | nil => simp [copyEntriesD]
    | cons e rest =>
      exfalso; simp only [List.cons.sizeOf_spec] at hs; omega
  | succ k ih =>
    intro srcEs hs hwf dstEs hfresh
    cases srcEs with
    | nil => simp [copyEntriesD]
    | cons e rest =>
      obtain ⟨n, node⟩ := e
      have hwf' := hwf
      simp only [WFentries, Bool.and_eq_true] at hwf'
      obtain ⟨⟨hnodup, hwfv⟩, hwfrest⟩ := hwf'
      have hsr : sizeOf rest ≤ k := by
        simp only [List.cons.sizeOf_spec, Prod.mk.sizeOf_spec] at hs
        omega
      have hheadnone : alookup dstEs n = none := hfresh (n, node) (List.mem_cons_self _ _)
      have hrest : ∀ w, ∀ e ∈ rest, alookup (aset dstEs n w) e.1 = none := by
        intro w e he
        have hne : ¬ e.1 = n := by
          obtain ⟨q, v⟩ := e
          exact name_ne_of_alookup_none (Option.isNone_iff_eq_none.mp hnodup) he
        rw [alookup_aset_ne _ _ _ _ (fun h => hne h.symm)]
        exact hfresh e (List.mem_cons_of_mem _ he)
      cases node with
      | file c m =>
        simp only [copyEntriesD, copyFileM, hheadnone]
        exact ih rest hsr hwfrest _ (hrest _)
      | dir es =>
        have hses : sizeOf es ≤ k := by
          simp only [List.cons.sizeOf_spec, Prod.mk.sizeOf_spec,
            FSNode.dir.sizeOf_spec] at hs
          omega
        have hwfes : WFentries es = true := by
          simpa [WFfs] using hwfv
        simp only [copyEntriesD, hheadnone]
        rcases hcd : copyEntriesD es [] with ⟨sub, ce⟩
        have hce : ce = none := by
          have h := ih es hses hwfes [] (by intro e _; simp [alookup])
          rw [hcd] at h
          exact h
        subst hce
        simp only []
        exact ih rest hsr hwfrest _ (hrest _)
      | special =>
        simp only [copyEntriesD]
        exact ih rest hsr hwfrest dstEs fun e he =>
          hfresh e (List.mem_cons_of_mem _ he)

theorem copyEntriesD_preserves :
    ∀ bound srcEs, sizeOf srcEs ≤ bound → WFentries srcEs = true →
      ∀ dstEs (p : List String) (node : FSNode),
        getFs (some (.dir srcEs)) p = none →
        getFs (some (.dir dstEs)) p = some node →
        getFs (some (.dir (copyEntriesD srcEs dstEs).1)) p = some node := by
  intro bound
  induction bound with
  | zero =>
    intro srcEs hs _ dstEs p node _ hdst
    cases srcEs with
    | nil => simpa [copyEntriesD] using hdst
    | cons e rest =>
      exfalso; simp only [List.cons.sizeOf_spec] at hs; omega
  | succ k ih =>
    intro srcEs hs hwf dstEs p node hsrc hdst
    cases srcEs with
    | nil => simpa [copyEntriesD] using hdst
    | cons e rest =>
      obtain ⟨nm, node₀⟩ := e
      have hwf' := hwf
      simp only [WFentries, Bool.and_eq_true] at hwf'
      obtain ⟨⟨hnodup, hwfv⟩, hwfrest⟩ := hwf'
      have hnodup' : alookup rest nm = none := Option.isNone_iff_eq_none.mp hnodup
      have hsr : sizeOf rest ≤ k := by
        simp only [List.cons.sizeOf_spec, Prod.mk.sizeOf_spec] at hs
        omega
      cases p with
      | nil => exact absurd hsrc (by simp [getFs])
      | cons hd tl =>
        rw [getFs] at hsrc hdst
        rw [getFs]
        by_cases hhd : nm = hd
        · -- the path enters through this very entry
          subst hhd
          rw [alookup, if_pos (by simp)] at hsrc
          cases node₀ with
          | file c m =>
            -- source holds a file at the path head; the destination can hold
            -- a value below it only through a directory, which makes the
            -- copy fail and leave the destination as it was
            cases htl : alookup dstEs nm with
            | none => rw [htl] at hdst; cases tl <;> simp [getFs] at hdst
            | some w =>
              cases w with
              | dir des₀ =>
                simp only [copyEntriesD, copyFileM, htl]
                rw [htl] at hdst
                exact hdst
              | file c' m' =>
                rw [htl] at hdst
                cases tl with
                | nil => simp [getFs] at hsrc
                | cons a b => simp [getFs] at hdst
              | special =>
                rw [htl] at hdst
                cases tl with
                | nil => simp [getFs] at hsrc
                | cons a b => simp [getFs] at hdst
          | dir es =>
            have hses : sizeOf es ≤ k := by
              simp only [List.cons.sizeOf_spec, Prod.mk.sizeOf_spec,
                FSNode.dir.sizeOf_spec] at hs
              omega
            have hwfes : WFentries es = true := by simpa [WFfs] using hwfv
            cases htl : alookup dstEs nm with
            | none => rw [htl] at hdst; cases tl <;> simp [getFs] at hdst
            | some w =>
              cases w with
              | file c' m' =>
                rw [htl] at hdst
                cases tl with
                | nil => simp [getFs] at hsrc
                | cons a b => simp [getFs] at hdst
              | special =>
                rw [htl] at hdst
                cases tl with
                | nil => simp [getFs] at hsrc
                | cons a b => simp [getFs] at hdst
              | dir des₀ =>
                rw [htl] at hdst
                have hsub := ih es hses hwfes des₀ tl node hsrc hdst
                simp only [copyEntriesD, htl]
                rcases hcd : copyEntriesD es des₀ with ⟨sub, ce⟩
                rw [hcd] at hsub
                cases ce with
                | none =>
                  simp only []
                  rw [copyEntriesD_frame k rest hsr _ nm hnodup',
                    alookup_aset_self]
                  exact hsub
                | some e =>
                  simp only []
                  rw [alookup_aset_self]
                  exact hsub
          | special =>
            simp only [copyEntriesD]
            have hrec : getFs (some (.dir rest)) (nm :: tl) = none := by
              rw [getFs, hnodup']
              cases tl <;> simp [getFs]
            have h := ih rest hsr hwfrest dstEs (nm :: tl) node hrec
              (by rw [getFs]; exact hdst)
            rw [getFs] at h
            exact h
        · -- the path goes through another name: the head entry only ever
          -- touches its own destination name
          rw [alookup, if_neg (by simp [hhd])] at hsrc
          have hrec : getFs (some (.dir rest)) (hd :: tl) = none := by
            rw [getFs]; exact hsrc
          cases node₀ with
          | file c m =>
            simp only [copyEntriesD]
            rcases hcf : copyFileM dstEs nm c m with ⟨d₁, oe⟩
            have hd₁ : alookup d₁ hd = alookup dstEs hd := by
              have h := copyFileM_fst_ne dstEs nm c m hd hhd
              rw [hcf] at h
              exact h
            cases oe with
            | none =>
              simp only []
              have := ih rest hsr hwfrest d₁ (hd :: tl) node hrec
                (by rw [getFs, hd₁]; exact hdst)
              rw [getFs] at this
              exact this
            | some e => simpa [getFs, hd₁] using hdst
          | dir es =>
            simp only [copyEntriesD]
            cases htl : alookup dstEs nm with
            | none =>
              simp only []
              rcases hcd : copyEntriesD es [] with ⟨sub, ce⟩
              cases ce with
              | none =>
                simp only []
                have := ih rest hsr hwfrest (aset dstEs nm (.dir sub))
                  (hd :: tl) node hrec
                  (by rw [getFs, alookup_aset_ne _ _ _ _ hhd]; exact hdst)
                rw [getFs] at this
                exact this
              | some e =>
                simp only [getFs]
                rw [alookup_aset_ne _ _ _ _ hhd]
                exact hdst
            | some w =>
              cases w with
              | file c' m' => simpa [getFs] using hdst
              | special => simpa [getFs] using hdst
              | dir des₀ =>
                simp only []
                rcases hcd : copyEntriesD es des₀ with ⟨sub, ce⟩
                cases ce with
                | none =>
                  simp only []
                  have := ih rest hsr hwfrest (aset dstEs nm (.dir sub))
                    (hd :: tl) node hrec
                    (by rw [getFs, alookup_aset_ne _ _ _ _ hhd]; exact hdst)
                  rw [getFs] at this
                  exact this
                | some e =>
                  simp only [getFs]
                  rw [alookup_aset_ne _ _ _ _ hhd]
                  exact hdst
          | special =>
            simp only [copyEntriesD]
            have := ih rest hsr hwfrest dstEs (hd :: tl) node hrec
              (by rw [getFs]; exact hdst)
            rw [getFs] at this
            exact this

theorem skippedOf_congr (srcEs d₁ d₂ : List (String × FSNode))
    (h : ∀ e ∈ srcEs, alookup d₁ e.1 = alookup d₂ e.1) :
    skippedOf srcEs d₁ = skippedOf srcEs d₂ := by
  unfold skippedOf
  refine List.filterMap_congr ?_
  intro e he
  rw [h e he]

theorem copiedOf_congr (srcEs d₁ d₂ : List (String × FSNode))
    (h : ∀ e ∈ srcEs, alookup d₁ e.1 = alookup d₂ e.1) :
    copiedOf srcEs d₁ = copiedOf srcEs d₂ := by
  unfold copiedOf
  refine List.filterMap_congr ?_
  intro e he
  obtain ⟨q, v⟩ := e
  have hq := h (q, v) he
  cases v <;> simp [hq]

theorem forcedOf_congr (srcEs d₁ d₂ : List (String × FSNode))
    (h : ∀ e ∈ srcEs, alookup d₁ e.1 = alookup d₂ e.1) :
    forcedOf srcEs d₁ = forcedOf srcEs d₂ := by
  unfold forcedOf
  refine List.filterMap_congr ?_
  intro e he
  obtain ⟨q, v⟩ := e
  have hq := h (q, v) he
  cases v <;> simp [hq]

theorem syncEntries_frame (srcEs : List (String × FSNode)) :
    ∀ dstEs force (q : String), alookup srcEs q = none →
      alookup (syncEntries srcEs dstEs force).1 q = alookup dstEs q := by
  induction srcEs with
  | nil => intro dstEs force q _; simp [syncEntries]
  | cons e rest ih =>
    intro dstEs force q hq
    obtain ⟨n, node⟩ := e
    have hnq : ¬ n = q := by
      intro h
      rw [alookup, if_pos (beq_iff_eq.mpr h)] at hq
      exact Option.noConfusion hq
    have hq' : alookup rest q = none := by
      rw [alookup, if_neg (by simp [hnq])] at hq
      exact hq
    by_cases hex : ((alookup dstEs n).isSome && !force) = true
    · simp only [syncEntries]
      rw [if_pos hex]
      rcases hr : syncEntries rest dstEs force with ⟨d₁, res, err⟩
      have h := ih dstEs force q hq'
      rw [hr] at h
      simpa using h
    · cases node with
      | file c m =>
        rcases hcf : copyFileM dstEs n c m with ⟨d₁, oe⟩
        have hd₁ : alookup d₁ q = alookup dstEs q := by
          have h := copyFileM_fst_ne dstEs n c m q hnq
          rw [hcf] at h
          exact h
        simp only [syncEntries]
        rw [if_neg hex, hcf]
        cases oe with
        | some e => simpa using hd₁
        | none =>
          simp only []
          rcases hr : syncEntries rest d₁ force with ⟨d₂, res, err⟩
          have h := ih d₁ force q hq'
          rw [hr] at h
          cases hb : (alookup dstEs n).isSome <;> simp [hb, hr, h, hd₁]
      | dir es =>
        simp only [syncEntries]
        rw [if_neg hex]
        cases hl : alookup dstEs n with
        | none =>
          simp only []
          rcases hcd : copyEntriesD es [] with ⟨sub, ce⟩
          have hset : alookup (aset dstEs n (.dir sub)) q = alookup dstEs q :=
            alookup_aset_ne _ _ _ _ hnq
          cases ce with
          | some e => simpa using hset
          | none =>
            simp only []
            rcases hr : syncEntries rest (aset dstEs n (.dir sub)) force with ⟨d₂, res, err⟩
            have h := ih (aset dstEs n (.dir sub)) force q hq'
            rw [hr] at h
            cases hb : (alookup dstEs n).isSome <;> simp [hb, hr, h, hset]
        | some w =>
          cases w with
          | file c' m' => simp
          | special => simp
          | dir des₀ =>
            simp only []
            rcases hcd : copyEntriesD es des₀ with ⟨sub, ce⟩
            have hset : alookup (aset dstEs n (.dir sub)) q = alookup dstEs q :=
              alookup_aset_ne _ _ _ _ hnq
            cases ce with
            | some e => simpa using hset
            | none =>
              simp only []
              rcases hr : syncEntries rest (aset dstEs n (.dir sub)) force with ⟨d₂, res, err⟩
              have h := ih (aset dstEs n (.dir sub)) force q hq'
              rw [hr] at h
              cases hb : (alookup dstEs n).isSome <;> simp [hb, hr, h, hset]
      | special =>
        simp only [syncEntries]
        rw [if_neg hex]
        exact ih dstEs force q hq'

theorem syncEntries_noforce (srcEs : List (String × FSNode)) :
    ∀ dstEs, WFentries srcEs = true →
      (syncEntries srcEs dstEs false).2.2 = none ∧
      (syncEntries srcEs dstEs false).2.1.Skipped = skippedOf srcEs dstEs ∧
      (syncEntries srcEs dstEs false).2.1.Copied = copiedOf srcEs dstEs ∧
      (syncEntries srcEs dstEs false).2.1.Forced = [] ∧
      ∀ q : String, (alookup dstEs q).isSome = true →
        alookup (syncEntries srcEs dstEs false).1 q = alookup dstEs q := by
  induction srcEs with
  | nil =>
    intro dstEs _
    refine ⟨?_, ?_, ?_, ?_, ?_⟩ <;> simp [syncEntries, skippedOf, copiedOf, emptyRes]
  | cons e rest ih =>
    intro dstEs hwf
    obtain ⟨n, node⟩ := e
    simp only [WFentries, Bool.and_eq_true] at hwf
    obtain ⟨⟨hnodup, hwfv⟩, hwfrest⟩ := hwf
    have hnodup' : alookup rest n = none := Option.isNone_iff_eq_none.mp hnodup
    have hne_rest : ∀ e ∈ rest, ¬ n = e.1 := by
      intro e he
      obtain ⟨q, v⟩ := e
      exact fun h => (name_ne_of_alookup_none hnodup' he) h.symm
    by_cases hex : (alookup dstEs n).isSome = true
    · -- the entry already exists: skipped, destination untouched
      have hcond : ((alookup dstEs n).isSome && !false) = true := by simp [hex]
      rcases hr : syncEntries rest dstEs false with ⟨d₁, res, err⟩
      have hstep : syncEntries ((n, node) :: rest) dstEs false
          = (d₁, { res with Skipped := n :: res.Skipped }, err) := by
        simp only [syncEntries]
        rw [if_pos hcond, hr]
      have ihh := ih dstEs hwfrest
      rw [hr] at ihh
      obtain ⟨ih1, ih2, ih3, ih4, ih5⟩ := ihh
      rw [hstep]
      refine ⟨ih1, ?_, ?_, ih4, fun q hq => ih5 q hq⟩
      · show n :: res.Skipped = skippedOf ((n, node) :: rest) dstEs
        simp [skippedOf, List.filterMap_cons, hex]
        simpa [skippedOf] using ih2
      · show res.Copied = copiedOf ((n, node) :: rest) dstEs
        cases node <;> simp [copiedOf, List.filterMap_cons, hex] <;>
          simpa [copiedOf] using ih3
    · -- new entry: copied (or silently skipped for a special node)
      have hexf : (alookup dstEs n).isSome = false := by
        revert hex; cases (alookup dstEs n).isSome <;> simp
      have hlnone : alookup dstEs n = none := by
        cases hl : alookup dstEs n with
        | none => rfl
        | some w => rw [hl] at hexf; exact Bool.noConfusion hexf
      have hcond : ¬ (((alookup dstEs n).isSome && !false) = true) := by
        simp [hexf]
      cases node with
      | special =>
        have hstep : syncEntries ((n, .special) :: rest) dstEs false
            = syncEntries rest dstEs false := by
          simp only [syncEntries]
          rw [if_neg hcond]
        obtain ⟨ih1, ih2, ih3, ih4, ih5⟩ := ih dstEs hwfrest
        rw [hstep]
        refine ⟨ih1, ?_, ?_, ih4, ih5⟩
        · rw [ih2]; simp [skippedOf, List.filterMap_cons, hexf]
        · rw [ih3]; simp [copiedOf, List.filterMap_cons]
      | file c m =>
        have hcf : copyFileM dstEs n c m = (aset dstEs n (.file c m), none) := by
          simp [copyFileM, hlnone]
        rcases hr : syncEntries rest (aset dstEs n (.file c m)) false with ⟨d₂, res, err⟩
        have hstep : syncEntries ((n, .file c m) :: rest) dstEs false
            = (d₂, { res with Copied := n :: res.Copied }, err) := by
          simp only [syncEntries]
          rw [if_neg hcond, hcf]
          simp [hexf, hr]
        have hcongr : ∀ e ∈ rest, alookup (aset dstEs n (.file c m)) e.1 = alookup dstEs e.1 :=
          fun e he => alookup_aset_ne _ _ _ _ (hne_rest e he)
        obtain ⟨ih1, ih2, ih3, ih4, ih5⟩ := ih (aset dstEs n (.file c m)) hwfrest
        rw [hr] at ih1 ih2 ih3 ih4 ih5
        rw [hstep]
        refine ⟨ih1, ?_, ?_, ih4, ?_⟩
        · show res.Skipped = skippedOf ((n, .file c m) :: rest) dstEs
          rw [ih2, skippedOf_congr rest _ dstEs hcongr]
          simp [skippedOf, List.filterMap_cons, hexf]
        · show n :: res.Copied = copiedOf ((n, .file c m) :: rest) dstEs
          rw [ih3, copiedOf_congr rest _ dstEs hcongr]
          simp [copiedOf, List.filterMap_cons, hexf]
        · intro q hq
          have hnq : ¬ n = q := by
            intro h
            rw [← h] at hq
            rw [hq] at hexf
            exact Bool.noConfusion hexf
          have hset : alookup (aset dstEs n (.file c m)) q = alookup dstEs q :=
            alookup_aset_ne _ _ _ _ hnq
          have h := ih5 q (by rw [hset]; exact hq)
          rw [hset] at h
          exact h
      | dir es =>
        have hwfes : WFentries es = true := by simpa [WFfs] using hwfv
        have hfr : (copyEntriesD es []).2 = none :=
          copyEntriesD_fresh (sizeOf es) es le_rfl hwfes [] (by intro e _; simp [alookup])
        rcases hcd : copyEntriesD es [] with ⟨sub, ce⟩
        rw [hcd] at hfr
        cases ce with
        | some e => exact absurd hfr (by simp)
        | none =>
          rcases hr : syncEntries rest (aset dstEs n (.dir sub)) false with ⟨d₂, res, err⟩
          have hstep : syncEntries ((n, .dir es) :: rest) dstEs false
              = (d₂, { res with Copied := n :: res.Copied }, err) := by
            simp only [syncEntries]
            rw [if_neg hcond]
            simp [hlnone, hcd, hr, hexf]
          have hcongr : ∀ e ∈ rest, alookup (aset dstEs n (.dir sub)) e.1 = alookup dstEs e.1 :=
            fun e he => alookup_aset_ne _ _ _ _ (hne_rest e he)
          obtain ⟨ih1, ih2, ih3, ih4, ih5⟩ := ih (aset dstEs n (.dir sub)) hwfrest
          rw [hr] at ih1 ih2 ih3 ih4 ih5
          rw [hstep]
          refine ⟨ih1, ?_, ?_, ih4, ?_⟩
          · show res.Skipped = skippedOf ((n, .dir es) :: rest) dstEs
            rw [ih2, skippedOf_congr rest _ dstEs hcongr]
            simp [skippedOf, List.filterMap_cons, hexf]
          · show n :: res.Copied = copiedOf ((n, .dir es) :: rest) dstEs
            rw [ih3, copiedOf_congr rest _ dstEs hcongr]
            simp [copiedOf, List.filterMap_cons, hexf]
          · intro q hq
            have hnq : ¬ n = q := by
              intro h
              rw [← h] at hq
              rw [hq] at hexf
              exact Bool.noConfusion hexf
            have hset : alookup (aset dstEs n (.dir sub)) q = alookup dstEs q :=
              alookup_aset_ne _ _ _ _ hnq
            have h := ih5 q (by rw [hset]; exact hq)
            rw [hset] at h
            exact h

theorem syncEntries_force (srcEs : List (String × FSNode)) :
    ∀ dstEs, WFentries srcEs = true →
      (syncEntries srcEs dstEs true).2.2 = none →
      (syncEntries srcEs dstEs true).2.1.Skipped = [] ∧
      (syncEntries srcEs dstEs true).2.1.Copied = copiedOf srcEs dstEs ∧
      (syncEntries srcEs dstEs true).2.1.Forced = forcedOf srcEs dstEs ∧
      (∀ (n c : String) (m : Nat), (n, FSNode.file c m) ∈ srcEs →
        alookup (syncEntries srcEs dstEs true).1 n = some (.file c m)) ∧
      (∀ n : String, (n, FSNode.special) ∈ srcEs →
        alookup (syncEntries srcEs dstEs true).1 n = alookup dstEs n) := by
  induction srcEs with
  | nil =>
    intro dstEs _ _
    refine ⟨?_, ?_, ?_, ?_, ?_⟩ <;> simp [syncEntries, copiedOf, forcedOf, emptyRes]
  | cons e rest ih =>
    intro dstEs hwf herr
    obtain ⟨n, node⟩ := e
    simp only [WFentries, Bool.and_eq_true] at hwf
    obtain ⟨⟨hnodup, hwfv⟩, hwfrest⟩ := hwf
    have hnodup' : alookup rest n = none := Option.isNone_iff_eq_none.mp hnodup
    have hne_rest : ∀ e ∈ rest, ¬ n = e.1 := by
      intro e he
      obtain ⟨q, v⟩ := e
      exact fun h => (name_ne_of_alookup_none hnodup' he) h.symm
    have hcond : ¬ (((alookup dstEs n).isSome && !true) = true) := by simp
    cases node with
    | special =>
      have hstep : syncEntries ((n, .special) :: rest) dstEs true
          = syncEntries rest dstEs true := by
        simp only [syncEntries]
        rw [if_neg hcond]
      rw [hstep] at herr ⊢
      obtain ⟨ih1, ih2, ih3, ih4, ih5⟩ := ih dstEs hwfrest herr
      refine ⟨ih1, ?_, ?_, ?_, ?_⟩
      · rw [ih2]; simp [copiedOf, List.filterMap_cons]
      · rw [ih3]; simp [forcedOf, List.filterMap_cons]
      · intro q c m hq
        rcases List.mem_cons.mp hq with h | h
        · exact absurd (congrArg Prod.snd h) (by simp)
        · exact ih4 q c m h
      · intro q hq
        rcases List.mem_cons.mp hq with h | h
        · have hqn : q = n := congrArg Prod.fst h
          subst hqn
          exact syncEntries_frame rest dstEs true q hnodup'
        · exact ih5 q h
    | file c m =>
      rcases hcf : copyFileM dstEs n c m with ⟨d₁, oe⟩
      cases oe with
      | some e =>
        have hstep : syncEntries ((n, .file c m) :: rest) dstEs true
            = (d₁, emptyRes, some e) := by
          simp only [syncEntries]
          rw [if_neg hcond, hcf]
        rw [hstep] at herr
        exact absurd herr (by simp)
      | none =>
        have hcongr : ∀ e ∈ rest, alookup d₁ e.1 = alookup dstEs e.1 := by
          intro e he
          have h := copyFileM_fst_ne dstEs n c m e.1 (hne_rest e he)
          rw [hcf] at h
          exact h
        rcases hr : syncEntries rest d₁ true with ⟨d₂, res, err⟩
        by_cases hex : (alookup dstEs n).isSome = true
        · have hstep : syncEntries ((n, .file c m) :: rest) dstEs true
              = (d₂, { res with Forced := n :: res.Forced }, err) := by
            simp only [syncEntries]
            rw [if_neg hcond, hcf]
            simp [hex, hr]
          rw [hstep] at herr ⊢
          have herr' : err = none := herr
          obtain ⟨ih2, ih3, ih4, ih5, ih1⟩ := ih d₁ hwfrest (by rw [hr]; exact herr')
          rw [hr] at ih1 ih2 ih3 ih4 ih5
          refine ⟨ih2, ?_, ?_, ?_, ?_⟩
          · show res.Copied = copiedOf ((n, .file c m) :: rest) dstEs
            rw [ih3, copiedOf_congr rest _ dstEs hcongr]
            simp [copiedOf, List.filterMap_cons, hex]
          · show n :: res.Forced = forcedOf ((n, .file c m) :: rest) dstEs
            rw [ih4, forcedOf_congr rest _ dstEs hcongr]
            simp [forcedOf, List.filterMap_cons, hex]
          · intro q c' m' hq
            rcases List.mem_cons.mp hq with h | h
            · rw [Prod.mk.injEq] at h
              obtain ⟨h1, h2⟩ := h
              rw [FSNode.file.injEq] at h2
              obtain ⟨h2, h3⟩ := h2
              subst h1
              rw [h2, h3]
              have hfr := syncEntries_frame rest d₁ true q hnodup'
              rw [hr] at hfr
              have hok : alookup d₁ q = some (.file c m) := by
                have h := copyFileM_success_lookup dstEs q c m (by rw [hcf])
                rw [hcf] at h
                exact h
              rw [hfr, hok]
            · exact ih5 q c' m' h
          · intro q hq
            rcases List.mem_cons.mp hq with h | h
            · rw [Prod.mk.injEq] at h
              exact absurd h.2 (by simp)
            · have h' := ih1 q h
              rw [h', hcongr (q, .special) h]
        · have hstep : syncEntries ((n, .file c m) :: rest) dstEs true
              = (d₂, { res with Copied := n :: res.Copied }, err) := by
            simp only [syncEntries]
            rw [if_neg hcond, hcf]
            simp only []
            rw [hr]
            simp [show (alookup dstEs n).isSome = false by
              revert hex; cases (alookup dstEs n).isSome <;> simp]
          have hexf : (alookup dstEs n).isSome = false := by
            revert hex; cases (alookup dstEs n).isSome <;> simp
          rw [hstep] at herr ⊢
          have herr' : err = none := herr
          obtain ⟨ih2, ih3, ih4, ih5, ih1⟩ := ih d₁ hwfrest (by rw [hr]; exact herr')
          rw [hr] at ih1 ih2 ih3 ih4 ih5
          refine ⟨ih2, ?_, ?_, ?_, ?_⟩
          · show n :: res.Copied = copiedOf ((n, .file c m) :: rest) dstEs
            rw [ih3, copiedOf_congr rest _ dstEs hcongr]
            simp [copiedOf, List.filterMap_cons, hexf]
          · show res.Forced = forcedOf ((n, .file c m) :: rest) dstEs
            rw [ih4, forcedOf_congr rest _ dstEs hcongr]
            simp [forcedOf, List.filterMap_cons, hexf]
          · intro q c' m' hq
            rcases List.mem_cons.mp hq with h | h
            · rw [Prod.mk.injEq] at h
              obtain ⟨h1, h2⟩ := h
              rw [FSNode.file.injEq] at h2
              obtain ⟨h2, h3⟩ := h2
              subst h1
              rw [h2, h3]
              have hfr := syncEntries_frame rest d₁ true q hnodup'
              rw [hr] at hfr
              have hok : alookup d₁ q = some (.file c m) := by
                have h := copyFileM_success_lookup dstEs q c m (by rw [hcf])
                rw [hcf] at h
                exact h
              rw [hfr, hok]
            · exact ih5 q c' m' h
          · intro q hq
            rcases List.mem_cons.mp hq with h | h
            · rw [Prod.mk.injEq] at h
              exact absurd h.2 (by simp)
            · have h' := ih1 q h
              rw [h', hcongr (q, .special) h]
    | dir es =>
      have hwfes : WFentries es = true := by simpa [WFfs] using hwfv
      cases hl : alookup dstEs n with
      | some w =>
        cases w with
        | file c' m' =>
          have hstep : syncEntries ((n, .dir es) :: rest) dstEs true
              = (dstEs, emptyRes, some "creating directory over a file") := by
            simp only [syncEntries]
            rw [if_neg hcond]
            simp [hl]
          rw [hstep] at herr
          exact absurd herr (by simp)
        | special =>
          have hstep : syncEntries ((n, .dir es) :: rest) dstEs true
              = (dstEs, emptyRes, some "creating directory over a special entry") := by
            simp only [syncEntries]
            rw [if_neg hcond]
            simp [hl]
          rw [hstep] at herr
          exact absurd herr (by simp)
        | dir des₀ =>
          have hex : (alookup dstEs n).isSome = true := by rw [hl]; rfl
          rcases hcd : copyEntriesD es des₀ with ⟨sub, ce⟩
          cases ce with
          | some e =>
            have hstep : syncEntries ((n, .dir es) :: rest) dstEs true
                = (aset dstEs n (.dir sub), emptyRes, some e) := by
              simp only [syncEntries]
              rw [if_neg hcond]
              simp [hl, hcd]
            rw [hstep] at herr
            exact absurd herr (by simp)
          | none =>
            rcases hr : syncEntries rest (aset dstEs n (.dir sub)) true with ⟨d₂, res, err⟩
            have hstep : syncEntries ((n, .dir es) :: rest) dstEs true
                = (d₂, { res with Forced := n :: res.Forced }, err) := by
              simp only [syncEntries]
              rw [if_neg hcond]
              simp [hl, hcd, hr, hex]
            have hcongr : ∀ e ∈ rest,
                alookup (aset dstEs n (.dir sub)) e.1 = alookup dstEs e.1 :=
              fun e he => alookup_aset_ne _ _ _ _ (hne_rest e he)
            rw [hstep] at herr ⊢
            have herr' : err = none := herr
            obtain ⟨ih2, ih3, ih4, ih5, ih1⟩ :=
              ih (aset dstEs n (.dir sub)) hwfrest (by rw [hr]; exact herr')
            rw [hr] at ih1 ih2 ih3 ih4 ih5
            refine ⟨ih2, ?_, ?_, ?_, ?_⟩
            · show res.Copied = copiedOf ((n, .dir es) :: rest) dstEs
              rw [ih3, copiedOf_congr rest _ dstEs hcongr]
              simp [copiedOf, List.filterMap_cons, hex]
            · show n :: res.Forced = forcedOf ((n, .dir es) :: rest) dstEs
              rw [ih4, forcedOf_congr rest _ dstEs hcongr]
              simp [forcedOf, List.filterMap_cons, hex]
            · intro q c' m' hq
              rcases List.mem_cons.mp hq with h | h
              · rw [Prod.mk.injEq] at h
                exact absurd h.2 (by simp)
              · exact ih5 q c' m' h
            · intro q hq
              rcases List.mem_cons.mp hq with h | h
              · rw [Prod.mk.injEq] at h
                exact absurd h.2 (by simp)
              · have h' := ih1 q h
                rw [h', hcongr (q, .special) h]
      | none =>
        have hexf : (alookup dstEs n).isSome = false := by rw [hl]; rfl
        rcases hcd : copyEntriesD es [] with ⟨sub, ce⟩
        cases ce with
        | some e =>
          have hstep : syncEntries ((n, .dir es) :: rest) dstEs true
              = (aset dstEs n (.dir sub), emptyRes, some e) := by
            simp only [syncEntries]
            rw [if_neg hcond]
            simp [hl, hcd]
          rw [hstep] at herr
          exact absurd herr (by simp)
        | none =>
          rcases hr : syncEntries rest (aset dstEs n (.dir sub)) true with ⟨d₂, res, err⟩
          have hstep : syncEntries ((n, .dir es) :: rest) dstEs true
              = (d₂, { res with Copied := n :: res.Copied }, err) := by
            simp only [syncEntries]
            rw [if_neg hcond]
            simp [hl, hcd, hr, hexf]
          have hcongr : ∀ e ∈ rest,
              alookup (aset dstEs n (.dir sub)) e.1 = alookup dstEs e.1 :=
            fun e he => alookup_aset_ne _ _ _ _ (hne_rest e he)
          rw [hstep] at herr ⊢
          have herr' : err = none := herr
          obtain ⟨ih2, ih3, ih4, ih5, ih1⟩ :=
            ih (aset dstEs n (.dir sub)) hwfrest (by rw [hr]; exact herr')
          rw [hr] at ih1 ih2 ih3 ih4 ih5
          refine ⟨ih2, ?_, ?_, ?_, ?_⟩
          · show n :: res.Copied = copiedOf ((n, .dir es) :: rest) dstEs
            rw [ih3, copiedOf_congr rest _ dstEs hcongr]
            simp [copiedOf, List.filterMap_cons, hexf]
          · show res.Forced = forcedOf ((n, .dir es) :: rest) dstEs
            rw [ih4, forcedOf_congr rest _ dstEs hcongr]
            simp [forcedOf, List.filterMap_cons, hexf]
          · intro q c' m' hq
            rcases List.mem_cons.mp hq with h | h
            · rw [Prod.mk.injEq] at h
              exact absurd h.2 (by simp)
            · exact ih5 q c' m' h
          · intro q hq
            rcases List.mem_cons.mp hq with h | h
            · rw [Prod.mk.injEq] at h
              exact absurd h.2 (by simp)
            · have h' := ih1 q h
              rw [h', hcongr (q, .special) h]

theorem syncEntries_preserves (srcEs : List (String × FSNode)) :
    ∀ dstEs force (p : List String) (node : FSNode), WFentries srcEs = true →
      getFs (some (.dir srcEs)) p = none →
      getFs (some (.dir dstEs)) p = some node →
      getFs (some (.dir (syncEntries srcEs dstEs force).1)) p = some node := by
  induction srcEs with
  | nil =>
    intro dstEs force p node _ _ hdst
    simpa [syncEntries] using hdst
  | cons e rest ih =>
    intro dstEs force p node hwf hsrc hdst
    obtain ⟨nm, node₀⟩ := e
    simp only [WFentries, Bool.and_eq_true] at hwf
    obtain ⟨⟨hnodup, hwfv⟩, hwfrest⟩ := hwf
    have hnodup' : alookup rest nm = none := Option.isNone_iff_eq_none.mp hnodup
    cases p with
    | nil => exact absurd hsrc (by simp [getFs])
    | cons hd tl =>
      rw [getFs] at hsrc hdst
      rw [getFs]
      have hsrc' : getFs (some (.dir rest)) (hd :: tl) = none := by
        rw [getFs]
        by_cases hhd : nm = hd
        · rw [← hhd, hnodup']
          cases tl <;> simp [getFs]
        · rw [alookup, if_neg (by simp [hhd])] at hsrc
          exact hsrc
      by_cases hex : ((alookup dstEs nm).isSome && !force) = true
      · -- skipped: destination untouched by this entry
        rcases hr : syncEntries rest dstEs force with ⟨d₂, res, err⟩
        have hstep : syncEntries ((nm, node₀) :: rest) dstEs force
            = (d₂, { res with Skipped := nm :: res.Skipped }, err) := by
          simp only [syncEntries]
          rw [if_pos hex, hr]
        rw [hstep]
        have h := ih dstEs force (hd :: tl) node hwfrest hsrc' (by rw [getFs]; exact hdst)
        rw [hr, getFs] at h
        simpa using h
      · cases node₀ with
        | special =>
          have hstep : syncEntries ((nm, .special) :: rest) dstEs force
              = syncEntries rest dstEs force := by
            simp only [syncEntries]
            rw [if_neg hex]
          rw [hstep]
          have h := ih dstEs force (hd :: tl) node hwfrest hsrc' (by rw [getFs]; exact hdst)
          rw [getFs] at h
          exact h
        | file c m =>
          rcases hcf : copyFileM dstEs nm c m with ⟨d₁, oe⟩
          have hstep : syncEntries ((nm, .file c m) :: rest) dstEs force
              = (match (d₁, oe) with
                 | (dstEs₁, some e) => (dstEs₁, emptyRes, some e)
                 | (dstEs₁, none) =>
                   if (alookup dstEs nm).isSome = true then
                     ((syncEntries rest dstEs₁ force).1,
                       { (syncEntries rest dstEs₁ force).2.1 with
                         Forced := nm :: (syncEntries rest dstEs₁ force).2.1.Forced },
                       (syncEntries rest dstEs₁ force).2.2)
                   else
                     ((syncEntries rest dstEs₁ force).1,
                       { (syncEntries rest dstEs₁ force).2.1 with
                         Copied := nm :: (syncEntries rest dstEs₁ force).2.1.Copied },
                       (syncEntries rest dstEs₁ force).2.2)) := by
            simp only [syncEntries]
            rw [if_neg hex, hcf]
          rw [hstep]
          by_cases hhd : nm = hd
          · subst hhd
            cases htl : alookup dstEs nm with
            | none =>
              rw [htl] at hdst
              exact absurd hdst (by cases tl <;> simp [getFs])
            | some w =>
              cases w with
              | file c' m' =>
                rw [htl] at hdst
                cases tl with
                | nil => exact absurd hsrc (by rw [alookup, if_pos (by simp)]; simp [getFs])
                | cons a b => exact absurd hdst (by simp [getFs])
              | special =>
                rw [htl] at hdst
                cases tl with
                | nil => exact absurd hsrc (by rw [alookup, if_pos (by simp)]; simp [getFs])
                | cons a b => exact absurd hdst (by simp [getFs])
              | dir des₀ =>
                -- the copy fails over a directory and leaves the destination alone
                have hcf' : copyFileM dstEs nm c m = (dstEs, some "renaming temp file over a directory") := by
                  simp [copyFileM, htl]
                rw [hcf] at hcf'
                obtain ⟨h1, h2⟩ := Prod.mk.injEq .. ▸ hcf'
                subst h1
                rw [h2]
                simpa [getFs] using hdst
          · have hd₁ : alookup d₁ hd = alookup dstEs hd := by
              have h := copyFileM_fst_ne dstEs nm c m hd hhd
              rw [hcf] at h
              exact h
            cases oe with
            | some e => simpa [getFs, hd₁] using hdst
            | none =>
              have h := ih d₁ force (hd :: tl) node hwfrest hsrc'
                (by rw [getFs, hd₁]; exact hdst)
              rw [getFs] at h
              cases hb : (alookup dstEs nm).isSome <;> simp [hb, h]
        | dir es =>
          have hwfes : WFentries es = true := by simpa [WFfs] using hwfv
          cases hl : alookup dstEs nm with
          | some w =>
            cases w with
            | file c' m' =>
              have hstep : syncEntries ((nm, .dir es) :: rest) dstEs force
                  = (dstEs, emptyRes, some "creating directory over a file") := by
                simp only [syncEntries]
                rw [if_neg hex]
                simp [hl]
              rw [hstep]
              simpa [getFs] using hdst
            | special =>
              have hstep : syncEntries ((nm, .dir es) :: rest) dstEs force
                  = (dstEs, emptyRes, some "creating directory over a special entry") := by
                simp only [syncEntries]
                rw [if_neg hex]
                simp [hl]
              rw [hstep]
              simpa [getFs] using hdst
            | dir des₀ =>
              rcases hcd : copyEntriesD es des₀ with ⟨sub, ce⟩
              by_cases hhd : nm = hd
              · subst hhd
                rw [hl] at hdst
                cases tl with
                | nil => exact absurd hsrc (by rw [alookup, if_pos (by simp)]; simp [getFs])
                | cons a b =>
                  have hsrces : getFs (some (.dir es)) (a :: b) = none := by
                    rw [alookup, if_pos (by simp)] at hsrc
                    exact hsrc
                  have hsub := copyEntriesD_preserves (sizeOf es) es le_rfl hwfes
                    des₀ (a :: b) node hsrces hdst
                  rw [hcd] at hsub
                  cases ce with
                  | some e =>
                    have hstep : syncEntries ((nm, .dir es) :: rest) dstEs force
                        = (aset dstEs nm (.dir sub), emptyRes, some e) := by
                      simp only [syncEntries]
                      rw [if_neg hex]
                      simp [hl, hcd]
                    rw [hstep]
                    simp only []
                    rw [alookup_aset_self]
                    rw [getFs] at hsub
                    exact hsub
                  | none =>
                    rcases hr : syncEntries rest (aset dstEs nm (.dir sub)) force
                      with ⟨d₂, res, err⟩
                    have hstep : syncEntries ((nm, .dir es) :: rest) dstEs force
                        = (d₂, { res with Forced := nm :: res.Forced }, err) := by
                      simp only [syncEntries]
                      rw [if_neg hex]
                      simp [hl, hcd, hr]
                    rw [hstep]
                    simp only []
                    have hfr := syncEntries_frame rest (aset dstEs nm (.dir sub)) force
                      nm hnodup'
                    rw [hr] at hfr
                    rw [hfr, alookup_aset_self]
                    rw [getFs] at hsub
                    exact hsub
              · cases ce with
                | some e =>
                  have hstep : syncEntries ((nm, .dir es) :: rest) dstEs force
                      = (aset dstEs nm (.dir sub), emptyRes, some e) := by
                    simp only [syncEntries]
                    rw [if_neg hex]
                    simp [hl, hcd]
                  rw [hstep]
                  simp only []
                  rw [alookup_aset_ne _ _ _ _ hhd]
                  exact hdst
                | none =>
                  rcases hr : syncEntries rest (aset dstEs nm (.dir sub)) force
                    with ⟨d₂, res, err⟩
                  have hstep : syncEntries ((nm, .dir es) :: rest) dstEs force
                      = (d₂, { res with Forced := nm :: res.Forced }, err) := by
                    simp only [syncEntries]
                    rw [if_neg hex]
                    simp [hl, hcd, hr]
                  rw [hstep]
                  simp only []
                  have h := ih (aset dstEs nm (.dir sub)) force (hd :: tl) node hwfrest hsrc'
                    (by rw [getFs, alookup_aset_ne _ _ _ _ hhd]; exact hdst)
                  rw [hr, getFs] at h
                  exact h
          | none =>
            rcases hcd : copyEntriesD es [] with ⟨sub, ce⟩
            by_cases hhd : nm = hd
            · subst hhd
              rw [hl] at hdst
              exact absurd hdst (by cases tl <;> simp [getFs])
            · cases ce with
              | some e =>
                have hstep : syncEntries ((nm, .dir es) :: rest) dstEs force
                    = (aset dstEs nm (.dir sub), emptyRes, some e) := by
                  simp only [syncEntries]
                  rw [if_neg hex]
                  simp [hl, hcd]
                rw [hstep]
                simp only []
                rw [alookup_aset_ne _ _ _ _ hhd]
                exact hdst
              | none =>
                rcases hr : syncEntries rest (aset dstEs nm (.dir sub)) force
                  with ⟨d₂, res, err⟩
                have hstep : syncEntries ((nm, .dir es) :: rest) dstEs force
                    = (d₂, { res with Copied := nm :: res.Copied }, err) := by
                  simp only [syncEntries]
                  rw [if_neg hex]
                  simp [hl, hcd, hr]
                rw [hstep]
                simp only []
                have h := ih (aset dstEs nm (.dir sub)) force (hd :: tl) node hwfrest hsrc'
                  (by rw [getFs, alookup_aset_ne _ _ _ _ hhd]; exact hdst)
                rw [hr, getFs] at h
                exact h

theorem copiedOf_not_exists (srcEs dstEs : List (String × FSNode)) :
    ∀ x ∈ copiedOf srcEs dstEs, (alookup dstEs x).isSome = false := by
  induction srcEs with
  | nil => simp [copiedOf]
  | cons e rest ih =>
    obtain ⟨q, w⟩ := e
    intro x hx
    cases w with
    | special =>
      refine ih x ?_
      simpa [copiedOf, List.filterMap_cons] using hx
    | file c m =>
      by_cases hq : (alookup dstEs q).isSome = true
      · refine ih x ?_
        simpa [copiedOf, List.filterMap_cons, hq] using hx
      · have hq' : (alookup dstEs q).isSome = false := by
          revert hq; cases (alookup dstEs q).isSome <;> simp
        have hx' : x = q ∨ x ∈ copiedOf rest dstEs := by
          simpa [copiedOf, List.filterMap_cons, hq'] using hx
        rcases hx' with h | h
        · subst h; exact hq'
        · exact ih x h
    | dir es =>
      by_cases hq : (alookup dstEs q).isSome = true
      · refine ih x ?_
        simpa [copiedOf, List.filterMap_cons, hq] using hx
      · have hq' : (alookup dstEs q).isSome = false := by
          revert hq; cases (alookup dstEs q).isSome <;> simp
        have hx' : x = q ∨ x ∈ copiedOf rest dstEs := by
          simpa [copiedOf, List.filterMap_cons, hq'] using hx
        rcases hx' with h | h
        · subst h; exact hq'
        · exact ih x h

theorem mem_skippedOf {srcEs dstEs : List (String × FSNode)} {n : String} {v : FSNode}
    (hmem : (n, v) ∈ srcEs) (hex : (alookup dstEs n).isSome = true) :
    n ∈ skippedOf srcEs dstEs := by
  unfold skippedOf
  rw [List.mem_filterMap]
  exact ⟨(n, v), hmem, by simp [hex]⟩

theorem mem_forcedOf {srcEs dstEs : List (String × FSNode)} {n : String} {v : FSNode}
    (hmem : (n, v) ∈ srcEs) (hex : (alookup dstEs n).isSome = true)
    (hv : ¬ v = FSNode.special) : n ∈ forcedOf srcEs dstEs := by
  unfold forcedOf
  rw [List.mem_filterMap]
  refine ⟨(n, v), hmem, ?_⟩
  cases v with
  | special => exact absurd rfl hv
  | file c m => simp [hex]
  | dir es => simp [hex]

theorem mem_forcedOf_name (srcEs dstEs : List (String × FSNode)) :
    ∀ x ∈ forcedOf srcEs dstEs, (alookup srcEs x).isSome = true := by
  induction srcEs with
  | nil => simp [forcedOf]
  | cons e rest ih =>
    obtain ⟨q, w⟩ := e
    intro x hx
    by_cases hqx : q = x
    · simp [alookup, hqx]
    · rw [alookup, if_neg (by simp [hqx])]
      refine ih x ?_
      cases w with
      | special => simpa [forcedOf, List.filterMap_cons] using hx
      | file c m =>
        by_cases hq : (alookup dstEs q).isSome = true
        · have hx' : x = q ∨ x ∈ forcedOf rest dstEs := by
            simpa [forcedOf, List.filterMap_cons, hq] using hx
          rcases hx' with h | h
          · exact absurd h.symm hqx
          · exact h
        · have hq' : (alookup dstEs q).isSome = false := by
            revert hq; cases (alookup dstEs q).isSome <;> simp
          simpa [forcedOf, List.filterMap_cons, hq'] using hx
      | dir es =>
        by_cases hq : (alookup dstEs q).isSome = true
        · have hx' : x = q ∨ x ∈ forcedOf rest dstEs := by
            simpa [forcedOf, List.filterMap_cons, hq] using hx
          rcases hx' with h | h
          · exact absurd h.symm hqx
          · exact h
        · have hq' : (alookup dstEs q).isSome = false := by
            revert hq; cases (alookup dstEs q).isSome <;> simp
          simpa [forcedOf, List.filterMap_cons, hq'] using hx

theorem special_not_mem_forcedOf {srcEs dstEs : List (String × FSNode)} {n : String}
    (hwf : WFentries srcEs = true) (hmem : (n, FSNode.special) ∈ srcEs) :
    n ∉ forcedOf srcEs dstEs := by
  induction srcEs with
  | nil => cases hmem
  | cons e rest ih =>
    obtain ⟨q, w⟩ := e
    simp only [WFentries, Bool.and_eq_true] at hwf
    obtain ⟨⟨hnodup, _⟩, hwfrest⟩ := hwf
    have hnodup' : alookup rest q = none := Option.isNone_iff_eq_none.mp hnodup
    intro hx
    rcases List.mem_cons.mp hmem with h | h
    · -- this entry is the special one: nothing after it can reuse the name
      rw [Prod.mk.injEq] at h
      obtain ⟨h1, h2⟩ := h
      subst h1
      subst h2
      have hx' : n ∈ forcedOf rest dstEs := by
        simpa [forcedOf, List.filterMap_cons] using hx
      have h := mem_forcedOf_name rest dstEs n hx'
      rw [hnodup'] at h
      exact Bool.noConfusion h
    · -- the special binding sits in the tail; the head has a different name
      have hqn : ¬ q = n := by
        intro hq
        subst hq
        have h := alookup_isSome_of_mem h
        rw [hnodup'] at h
        exact Bool.noConfusion h
      cases w with
      | special =>
        have hx' : n ∈ forcedOf rest dstEs := by
          simpa [forcedOf, List.filterMap_cons] using hx
        exact ih hwfrest h hx'
      | file c m =>
        by_cases hq : (alookup dstEs q).isSome = true
        · have hx' : n = q ∨ n ∈ forcedOf rest dstEs := by
            simpa [forcedOf, List.filterMap_cons, hq] using hx
          rcases hx' with h' | h'
          · exact hqn h'.symm
          · exact ih hwfrest h h'
        · have hq' : (alookup dstEs q).isSome = false := by
            revert hq; cases (alookup dstEs q).isSome <;> simp
          have hx' : n ∈ forcedOf rest dstEs := by
            simpa [forcedOf, List.filterMap_cons, hq'] using hx
          exact ih hwfrest h hx'
      | dir es =>
        by_cases hq : (alookup dstEs q).isSome = true
        · have hx' : n = q ∨ n ∈ forcedOf rest dstEs := by
            simpa [forcedOf, List.filterMap_cons, hq] using hx
          rcases hx' with h' | h'
          · exact hqn h'.symm
          · exact ih hwfrest h h'
        · have hq' : (alookup dstEs q).isSome = false := by
            revert hq; cases (alookup dstEs q).isSome <;> simp
          have hx' : n ∈ forcedOf rest dstEs := by
            simpa [forcedOf, List.filterMap_cons, hq'] using hx
          exact ih hwfrest h hx'

/-- C8: if the source directory does not exist, Sync returns successfully
with an empty Result (all three lists empty) and no error, leaving the
destination untouched, for any destination and either force setting. -/
theorem claim8_missing_source (dstN : Option FSNode) (force : Bool) :
    Sync none dstN force = (dstN, emptyRes, none) := rfl

/-- C10: when sync runs in force mode, it copies source entries over the
destination without deleting anything: every node that exists only in the
destination subtree (its path resolves to nothing in the source tree) is
still present, with unchanged content, in the tree Sync returns. -/
theorem claim10_no_deletion (srcN dstN : Option FSNode) (p : List String) (node : FSNode)
    (hwf : OptWF srcN = true)
    (hdst : getFs dstN p = some node)
    (hsrc : getFs srcN p = none) :
    getFs (Sync srcN dstN true).1 p = some node := by
  cases srcN with
  | none => simpa [Sync] using hdst
  | some s =>
    cases s with
    | file c m => simpa [Sync] using hdst
    | special => simpa [Sync] using hdst
    | dir entries =>
      have hwfe : WFentries entries = true := by simpa [OptWF, WFfs] using hwf
      cases dstN with
      | none =>
        cases p with
        | nil => exact absurd hdst (by simp [getFs])
        | cons a b => exact absurd hdst (by simp [getFs])
      | some d =>
        cases d with
        | file c m => simpa [Sync] using hdst
        | special => simpa [Sync] using hdst
        | dir des =>
          cases p with
          | nil => exact absurd hsrc (by simp [getFs])
          | cons a b =>
            have h := syncEntries_preserves entries des true (a :: b) node hwfe hsrc hdst
            rcases hr : syncEntries entries des true with ⟨out, res, err⟩
            rw [hr] at h
            cases err with
            | none => simpa [Sync, hr] using h
            | some e => simpa [Sync, hr] using h

/-- C10 witness: a destination-only file `a/y` survives a force sync that
copies `a/x` into the same directory. -/
theorem claim10_no_deletion_witness :
    OptWF (some (.dir [("a", .dir [("x", .file "new" 420)])])) = true ∧
    getFs (some (.dir [("a", .dir [("y", .file "keep" 416)])])) ["a", "y"]
      = some (.file "keep" 416) ∧
    getFs (some (.dir [("a", .dir [("x", .file "new" 420)])])) ["a", "y"] = none ∧
    getFs (Sync (some (.dir [("a", .dir [("x", .file "new" 420)])]))
        (some (.dir [("a", .dir [("y", .file "keep" 416)])])) true).1 ["a", "y"]
      = some (.file "keep" 416) :=
  ⟨by decide, by rfl, by rfl,
    claim10_no_deletion (some (.dir [("a", .dir [("x", .file "new" 420)])]))
      (some (.dir [("a", .dir [("y", .file "keep" 416)])]))
      ["a", "y"] (.file "keep" 416) (by decide) (by rfl) (by rfl)⟩

/-- C7 counterexample: the skip/force duality fails as stated.  (a) A special
source entry (symlink etc.) whose name exists at the destination is, under
force, neither copied nor listed in any of the three lists, and the
destination keeps its old content.  (b) A directory source entry over an
existing destination file fails under force with an error instead of
listing the name in Forced.  (c) A forced directory entry is listed in
Forced, but the destination subtree is overlaid, not replaced: a
destination-only file inside it keeps its content. -/
theorem claim7_skip_force_counterexample :
    Sync (some (.dir [("a", .special)])) (some (.dir [("a", .file "old" 420)])) true
      = (some (.dir [("a", .file "old" 420)]), emptyRes, none) ∧
    Sync (some (.dir [("a", .dir [])])) (some (.dir [("a", .file "old" 420)])) true
      = (some (.dir [("a", .file "old" 420)]), emptyRes,
          some "creating directory over a file") ∧
    (Sync (some (.dir [("a", .dir [("x", .file "new" 420)])]))
        (some (.dir [("a", .dir [("y", .file "keep" 420)])])) true).2.1.Forced
      = ["a"] ∧
    getFs (Sync (some (.dir [("a", .dir [("x", .file "new" 420)])]))
        (some (.dir [("a", .dir [("y", .file "keep" 420)])])) true).1 ["a", "y"]
      = some (.file "keep" 420) := by
  refine ⟨rfl, rfl, ?_, ?_⟩ <;>
    simp [Sync, syncEntries, copyEntriesD, copyFileM, alookup, aset, emptyRes, getFs,
      mergespec.sortStrings, mergespec.insertSorted]

/-- C7 (amended): for a well-formed source directory and a source entry
whose name already exists at the destination: if the non-force run
completes without error it leaves the destination entry unchanged and
lists the name in Skipped and in no other list (for every source entry
type, special ones included); with force, if the run completes without
error, Skipped is empty and the name is never in Copied, a regular-file
source entry replaces the destination entry's content and mode and is
listed in Forced, a directory source entry is listed in Forced (its
subtree is overlaid, not replaced), and a special source entry is silently
ignored: the destination entry is unchanged and the name is in no list. -/
theorem claim7_skip_force_amended
    (srcEs dstEs : List (String × FSNode)) (n : String) (v : FSNode)
    (hwf : WFentries srcEs = true)
    (hmem : (n, v) ∈ srcEs)
    (hex : (alookup dstEs n).isSome = true) :
    ((Sync (some (.dir srcEs)) (some (.dir dstEs)) false).2.2 = none →
      (∃ out, (Sync (some (.dir srcEs)) (some (.dir dstEs)) false).1 = some (.dir out) ∧
        alookup out n = alookup dstEs n) ∧
      n ∈ (Sync (some (.dir srcEs)) (some (.dir dstEs)) false).2.1.Skipped ∧
      n ∉ (Sync (some (.dir srcEs)) (some (.dir dstEs)) false).2.1.Copied ∧
      (Sync (some (.dir srcEs)) (some (.dir dstEs)) false).2.1.Forced = []) ∧
    ((Sync (some (.dir srcEs)) (some (.dir dstEs)) true).2.2 = none →
      (Sync (some (.dir srcEs)) (some (.dir dstEs)) true).2.1.Skipped = [] ∧
      n ∉ (Sync (some (.dir srcEs)) (some (.dir dstEs)) true).2.1.Copied ∧
      (∀ c : String, ∀ m : Nat, v = .file c m →
        n ∈ (Sync (some (.dir srcEs)) (some (.dir dstEs)) true).2.1.Forced ∧
        ∃ out, (Sync (some (.dir srcEs)) (some (.dir dstEs)) true).1 = some (.dir out) ∧
          alookup out n = some (.file c m)) ∧
      (∀ es : List (String × FSNode), v = .dir es →
        n ∈ (Sync (some (.dir srcEs)) (some (.dir dstEs)) true).2.1.Forced) ∧
      (v = .special →
        n ∉ (Sync (some (.dir srcEs)) (some (.dir dstEs)) true).2.1.Forced ∧
        ∃ out, (Sync (some (.dir srcEs)) (some (.dir dstEs)) true).1 = some (.dir out) ∧
          alookup out n = alookup dstEs n)) := by
  constructor
  · -- the non-force run (the model's walk in fact always completes, but
    -- only the error-free completion is claimed)
    intro _
    obtain ⟨h1, h2, h3, h4, h5⟩ := syncEntries_noforce srcEs dstEs hwf
    rcases hr : syncEntries srcEs dstEs false with ⟨out, res, err⟩
    rw [hr] at h1 h2 h3 h4 h5
    have herr : err = none := h1
    subst herr
    have hsync : Sync (some (.dir srcEs)) (some (.dir dstEs)) false
        = (some (.dir out),
            ⟨mergespec.sortStrings res.Copied, mergespec.sortStrings res.Skipped,
              mergespec.sortStrings res.Forced⟩, none) := by
      simp [Sync, hr]
    rw [hsync]
    refine ⟨⟨out, rfl, h5 n hex⟩, ?_, ?_, ?_⟩
    · show n ∈ mergespec.sortStrings res.Skipped
      rw [mergespec.mem_sortStrings, h2]
      exact mem_skippedOf hmem hex
    · show n ∉ mergespec.sortStrings res.Copied
      rw [mergespec.mem_sortStrings, h3]
      intro hmemC
      have h := copiedOf_not_exists srcEs dstEs n hmemC
      rw [hex] at h
      exact Bool.noConfusion h
    · show mergespec.sortStrings res.Forced = []
      rw [h4]
      rfl
  · -- the force run, assuming it completed without error
    intro herr
    rcases hr : syncEntries srcEs dstEs true with ⟨out, res, err⟩
    cases err with
    | some e =>
      rw [show Sync (some (.dir srcEs)) (some (.dir dstEs)) true
          = (some (.dir out), res, some e) from by simp [Sync, hr]] at herr
      exact absurd herr (by simp)
    | none =>
      obtain ⟨h1, h2, h3, h4, h5⟩ := syncEntries_force srcEs dstEs hwf (by rw [hr])
      rw [hr] at h1 h2 h3 h4 h5
      have hsync : Sync (some (.dir srcEs)) (some (.dir dstEs)) true
          = (some (.dir out),
              ⟨mergespec.sortStrings res.Copied, mergespec.sortStrings res.Skipped,
                mergespec.sortStrings res.Forced⟩, none) := by
        simp [Sync, hr]
      rw [hsync]
      refine ⟨?_, ?_, ?_, ?_, ?_⟩
      · show mergespec.sortStrings res.Skipped = []
        rw [h1]
        rfl
      · show n ∉ mergespec.sortStrings res.Copied
        rw [mergespec.mem_sortStrings, h2]
        intro hmemC
        have h := copiedOf_not_exists srcEs dstEs n hmemC
        rw [hex] at h
        exact Bool.noConfusion h
      · intro c m hv
        subst hv
        refine ⟨?_, out, rfl, h4 n c m hmem⟩
        show n ∈ mergespec.sortStrings res.Forced
        rw [mergespec.mem_sortStrings, h3]
        exact mem_forcedOf hmem hex (by simp)
      · intro es hv
        subst hv
        show n ∈ mergespec.sortStrings res.Forced
        rw [mergespec.mem_sortStrings, h3]
        exact mem_forcedOf hmem hex (by simp)
      · intro hv
        subst hv
        refine ⟨?_, out, rfl, h5 n hmem⟩
        show n ∉ mergespec.sortStrings res.Forced
        rw [mergespec.mem_sortStrings, h3]
        exact special_not_mem_forcedOf hwf hmem

/-- C7 witness: the amended duality at a concrete one-file instance. -/
theorem claim7_skip_force_amended_witness :
    WFentries [("a", FSNode.file "new" 420)] = true ∧
    ("a", FSNode.file "new" 420) ∈ [("a", FSNode.file "new" 420)] ∧
    (alookup [("a", FSNode.file "old" 384)] "a").isSome = true ∧
    (((Sync (some (.dir [("a", FSNode.file "new" 420)]))
          (some (.dir [("a", FSNode.file "old" 384)])) false).2.2 = none →
      (∃ out, (Sync (some (.dir [("a", FSNode.file "new" 420)]))
          (some (.dir [("a", FSNode.file "old" 384)])) false).1 = some (.dir out) ∧
        alookup out "a" = alookup [("a", FSNode.file "old" 384)] "a") ∧
      "a" ∈ (Sync (some (.dir [("a", FSNode.file "new" 420)]))
          (some (.dir [("a", FSNode.file "old" 384)])) false).2.1.Skipped ∧
      "a" ∉ (Sync (some (.dir [("a", FSNode.file "new" 420)]))
          (some (.dir [("a", FSNode.file "old" 384)])) false).2.1.Copied ∧
      (Sync (some (.dir [("a", FSNode.file "new" 420)]))
          (some (.dir [("a", FSNode.file "old" 384)])) false).2.1.Forced = []) ∧
    ((Sync (some (.dir [("a", FSNode.file "new" 420)]))
          (some (.dir [("a", FSNode.file "old" 384)])) true).2.2 = none →
      (Sync (some (.dir [("a", FSNode.file "new" 420)]))
          (some (.dir [("a", FSNode.file "old" 384)])) true).2.1.Skipped = [] ∧
      "a" ∉ (Sync (some (.dir [("a", FSNode.file "new" 420)]))
          (some (.dir [("a", FSNode.file "old" 384)])) true).2.1.Copied ∧
      (∀ c : String, ∀ m : Nat, FSNode.file "new" 420 = .file c m →
        "a" ∈ (Sync (some (.dir [("a", FSNode.file "new" 420)]))
            (some (.dir [("a", FSNode.file "old" 384)])) true).2.1.Forced ∧
        ∃ out, (Sync (some (.dir [("a", FSNode.file "new" 420)]))
            (some (.dir [("a", FSNode.file "old" 384)])) true).1 = some (.dir out) ∧
          alookup out "a" = some (.file c m)) ∧
      (∀ es : List (String × FSNode), FSNode.file "new" 420 = .dir es →
        "a" ∈ (Sync (some (.dir [("a", FSNode.file "new" 420)]))
            (some (.dir [("a", FSNode.file "old" 384)])) true).2.1.Forced) ∧
      (FSNode.file "new" 420 = .special →
        "a" ∉ (Sync (some (.dir [("a", FSNode.file "new" 420)]))
            (some (.dir [("a", FSNode.file "old" 384)])) true).2.1.Forced ∧
        ∃ out, (Sync (some (.dir [("a", FSNode.file "new" 420)]))
            (some (.dir [("a", FSNode.file "old" 384)])) true).1 = some (.dir out) ∧
          alookup out "a" = alookup [("a", FSNode.file "old" 384)] "a"))) :=
  ⟨by decide, by simp, by rfl,
    claim7_skip_force_amended [("a", FSNode.file "new" 420)]
      [("a", FSNode.file "old" 384)] "a" (FSNode.file "new" 420)
      (by decide) (by simp) (by rfl)⟩


end dirsync

namespace atomicwrite

theorem flookup_fset_self (d : DirSt) (q : String) (f : String × Nat) :
    flookup (fset d q f) q = some f := by
  induction d with
  | nil => simp [fset, flookup]
  | cons e rest ih =>
    obtain ⟨n, g⟩ := e
    by_cases hn : n = q
    · simp [fset, hn, flookup]
    · simp [fset, hn, flookup, ih]

theorem flookup_fset_ne (d : DirSt) (q r : String) (f : String × Nat)
    (h : ¬ q = r) : flookup (fset d q f) r = flookup d r := by
  induction d with
  | nil => simp [fset, flookup, h]
  | cons e rest ih =>
    obtain ⟨n, g⟩ := e
    by_cases hn : n = q
    · subst hn; simp [fset, flookup, h]
    · simp [fset, hn, flookup, ih]

theorem flookup_fremove_ne (d : DirSt) (q r : String)
    (h : ¬ q = r) : flookup (fremove d q) r = flookup d r := by
  induction d with
  | nil => simp [fremove, flookup]
  | cons e rest ih =>
    obtain ⟨n, g⟩ := e
    by_cases hn : n = q
    · subst hn
      simp only [fremove, beq_self_eq_true, if_true]
      rw [flookup, if_neg (by simp [h])]
    · simp [fremove, hn, flookup, ih]

theorem applyOp_untouched (d : DirSt) (op : FileOp) (q : String)
    (h : touches q op = false) : flookup (applyOp d op) q = flookup d q := by
  cases op with
  | createTemp t m =>
    simp only [touches, beq_eq_false_iff_ne, ne_eq] at h
    exact flookup_fset_ne d t q _ h
  | chmodTemp t m =>
    simp only [touches, beq_eq_false_iff_ne, ne_eq] at h
    cases hl : flookup d t with
    | none => simp [applyOp, hl]
    | some f =>
      obtain ⟨c, m'⟩ := f
      simp [applyOp, hl, flookup_fset_ne d t q _ h]
  | writeChunk t s =>
    simp only [touches, beq_eq_false_iff_ne, ne_eq] at h
    cases hl : flookup d t with
    | none => simp [applyOp, hl]
    | some f =>
      obtain ⟨c, m'⟩ := f
      simp [applyOp, hl, flookup_fset_ne _ t q _ h]
  | rename t dst =>
    simp only [touches, Bool.or_eq_false_iff, beq_eq_false_iff_ne, ne_eq] at h
    obtain ⟨h1, h2⟩ := h
    cases hl : flookup d t with
    | none => simp [applyOp, hl]
    | some f =>
      simp [applyOp, hl, flookup_fset_ne _ dst q _ h2, flookup_fremove_ne d t q h1]
  | removeTemp t =>
    simp only [touches, beq_eq_false_iff_ne, ne_eq] at h
    exact flookup_fremove_ne d t q h

theorem applyOps_untouched (ops : List FileOp) :
    ∀ d (q : String), (∀ op ∈ ops, touches q op = false) →
      flookup (applyOps d ops) q = flookup d q := by
  induction ops with
  | nil => intro d q _; rfl
  | cons op rest ih =>
    intro d q h
    have h1 := h op (List.mem_cons_self _ _)
    have h2 : ∀ o ∈ rest, touches q o = false :=
      fun o ho => h o (List.mem_cons_of_mem _ ho)
    show flookup (applyOps (applyOp d op) rest) q = flookup d q
    rw [ih (applyOp d op) q h2, applyOp_untouched d op q h1]

theorem applyOps_writes (tmp : String) (chunks : List String) :
    ∀ d (c : String) (m : Nat), flookup d tmp = some (c, m) →
      flookup (applyOps d (chunks.map (FileOp.writeChunk tmp))) tmp
        = some (c ++ catChunks chunks, m) := by
  induction chunks with
  | nil => intro d c m h; simpa [applyOps, catChunks] using h
  | cons ch rest ih =>
    intro d c m h
    show flookup (applyOps (applyOp d (FileOp.writeChunk tmp ch))
      (rest.map (FileOp.writeChunk tmp))) tmp = _
    have hstep : applyOp d (FileOp.writeChunk tmp ch) = fset d tmp (c ++ ch, m) := by
      simp [applyOp, h]
    rw [hstep, ih _ (c ++ ch) m (flookup_fset_self d tmp _), catChunks]
    simp [String.append_assoc]

theorem copyFileOps_pre_ops (tmp dst : String) (chunks : List String)
    (mode : Nat) (pre suf : List FileOp) (htd : ¬ tmp = dst)
    (heq : copyFileOps tmp dst chunks mode = pre ++ suf) (hsuf : suf ≠ []) :
    ∀ op ∈ pre, touches dst op = false := by
  have heq' : pre ++ suf
      = (FileOp.createTemp tmp 384 :: FileOp.chmodTemp tmp mode ::
          chunks.map (FileOp.writeChunk tmp)) ++ [FileOp.rename tmp dst] := by
    rw [← heq]; rfl
  have hlen : pre.length ≤ (FileOp.createTemp tmp 384 :: FileOp.chmodTemp tmp mode ::
      chunks.map (FileOp.writeChunk tmp)).length := by
    have h := congrArg List.length heq'
    have h1 : 1 ≤ suf.length := by
      cases suf with
      | nil => exact absurd rfl hsuf
      | cons a b => simp
    simp only [List.length_append, List.length_cons, List.length_map,
      List.length_nil] at h ⊢
    omega
  have hpre_eq : pre = (FileOp.createTemp tmp 384 :: FileOp.chmodTemp tmp mode ::
      chunks.map (FileOp.writeChunk tmp)).take pre.length := by
    have h1 : (pre ++ suf).take pre.length = pre := List.take_left pre suf
    rw [heq'] at h1
    rw [List.take_append_of_le_length hlen] at h1
    exact h1.symm
  intro op hop
  have hop' : op ∈ FileOp.createTemp tmp 384 :: FileOp.chmodTemp tmp mode ::
      chunks.map (FileOp.writeChunk tmp) := List.take_subset _ _ (hpre_eq ▸ hop)
  rcases List.mem_cons.mp hop' with h | h
  · subst h; simp [touches, htd]
  rcases List.mem_cons.mp h with h | h
  · subst h; simp [touches, htd]
  · obtain ⟨sc, _, hs⟩ := List.mem_map.mp h
    rw [← hs]
    simp [touches, htd]

/-- C9: every destination file the sync engine writes becomes visible at
its final name only through the atomic rename of the fully written
same-directory temp file: after any proper prefix of copyFile's operation
sequence — a crash or failure before the rename — and also after the
deferred temp-file cleanup that follows a failure, the destination name is
bound exactly as before (a pre-existing file is untouched, and no partially
written content is ever observable there); the completed sequence binds the
destination to the full chunk-by-chunk content with the source's mode. -/
theorem claim9_atomic_copy (tmp dst : String) (chunks : List String) (mode : Nat)
    (d : DirSt) (htd : ¬ tmp = dst) :
    (∀ pre suf : List FileOp, copyFileOps tmp dst chunks mode = pre ++ suf → suf ≠ [] →
      flookup (applyOps d pre) dst = flookup d dst) ∧
    (∀ pre suf : List FileOp, copyFileOps tmp dst chunks mode = pre ++ suf → suf ≠ [] →
      flookup (applyOps d (pre ++ [FileOp.removeTemp tmp])) dst = flookup d dst) ∧
    flookup (applyOps d (copyFileOps tmp dst chunks mode)) dst
      = some (catChunks chunks, mode) := by
  refine ⟨?_, ?_, ?_⟩
  · intro pre suf heq hsuf
    exact applyOps_untouched pre d dst
      (copyFileOps_pre_ops tmp dst chunks mode pre suf htd heq hsuf)
  · intro pre suf heq hsuf
    refine applyOps_untouched _ d dst ?_
    intro op hop
    rcases List.mem_append.mp hop with h | h
    · exact copyFileOps_pre_ops tmp dst chunks mode pre suf htd heq hsuf op h
    · rw [List.mem_singleton] at h
      rw [h]
      simp [touches, htd]
  · have hsplit : applyOps d (copyFileOps tmp dst chunks mode)
        = applyOp (applyOps d (FileOp.createTemp tmp 384 :: FileOp.chmodTemp tmp mode ::
            chunks.map (FileOp.writeChunk tmp))) (FileOp.rename tmp dst) := by
      show List.foldl applyOp d _ = _
      rw [show copyFileOps tmp dst chunks mode
          = (FileOp.createTemp tmp 384 :: FileOp.chmodTemp tmp mode ::
            chunks.map (FileOp.writeChunk tmp)) ++ [FileOp.rename tmp dst] from rfl]
      rw [List.foldl_append]
      rfl
    have h1 : flookup (fset d tmp ("", 384)) tmp = some ("", 384) :=
      flookup_fset_self d tmp _
    have h2 : flookup (applyOp (applyOp d (FileOp.createTemp tmp 384))
        (FileOp.chmodTemp tmp mode)) tmp = some ("", mode) := by
      show flookup (applyOp (fset d tmp ("", 384)) (FileOp.chmodTemp tmp mode)) tmp = _
      simp only [applyOp, h1]
      exact flookup_fset_self _ tmp _
    have h3 : flookup (applyOps d (FileOp.createTemp tmp 384 :: FileOp.chmodTemp tmp mode ::
        chunks.map (FileOp.writeChunk tmp))) tmp = some (catChunks chunks, mode) := by
      show flookup (applyOps (applyOp (applyOp d (FileOp.createTemp tmp 384))
        (FileOp.chmodTemp tmp mode)) (chunks.map (FileOp.writeChunk tmp))) tmp = _
      have h := applyOps_writes tmp chunks _ "" mode h2
      simpa using h
    rw [hsplit]
    simp only [applyOp, h3]
    exact flookup_fset_self _ dst _

/-- C9 witness: the atomic-copy discipline at a concrete run replacing an
existing destination file. -/
theorem claim9_atomic_copy_witness :
    ¬ (".copy-1" : String) = "f" ∧
    ((∀ pre suf : List FileOp,
        copyFileOps ".copy-1" "f" ["he", "llo"] 420 = pre ++ suf → suf ≠ [] →
        flookup (applyOps [("f", ("old", 384))] pre) "f"
          = flookup [("f", ("old", 384))] "f") ∧
     (∀ pre suf : List FileOp,
        copyFileOps ".copy-1" "f" ["he", "llo"] 420 = pre ++ suf → suf ≠ [] →
        flookup (applyOps [("f", ("old", 384))] (pre ++ [FileOp.removeTemp ".copy-1"])) "f"
          = flookup [("f", ("old", 384))] "f") ∧
     flookup (applyOps [("f", ("old", 384))]
        (copyFileOps ".copy-1" "f" ["he", "llo"] 420)) "f"
       = some (catChunks ["he", "llo"], 420)) :=
  ⟨by decide,
    claim9_atomic_copy ".copy-1" "f" ["he", "llo"] 420 [("f", ("old", 384))] (by decide)⟩


end atomicwrite

